import Mathlib

/-!
Verification of the seance indexing and retrieval engine
(`seance_common.py`, `seance_index.py`, `seance_query.py`).

The Python code is shallowly embedded:
* Python `dict`s (which preserve insertion order and never hold duplicate
  keys) are modelled as ordered association lists `Dict α := List (String × α)`
  with `dget`/`dset`/`ddel` mirroring `d.get(k)`, `d[k] = v` and `del d[k]`:
  lookup returns the first binding, assignment updates an existing binding in
  place and otherwise appends, deletion removes the binding.
* Strings are Lean `String`s; Python `len` on a `str` is `String.length`.
* Floats are idealised as rationals `ℚ`; `math.log` is abstracted as a
  function parameter `lg : ℚ → ℚ` (every statement about scores is made
  for an arbitrary `lg`, or is independent of it).
* Filesystem access is modelled by explicit inputs: the scan result of
  `build_index` is a list of `SFile` records and query-time file reads are
  a function `String → Option String`.
-/

namespace Geist

/-- Ordered string-keyed map, mirroring a Python `dict` (insertion order). -/
abbrev Dict (α : Type) : Type := List (String × α)

/-- `d.get(k)`. -/
def dget {α : Type} : Dict α → String → Option α
  | [], _ => none
  | p :: t, k => if p.1 == k then some p.2 else dget t k

/-- `d.get(k, v0)`. -/
def dgetD {α : Type} (d : Dict α) (k : String) (v0 : α) : α :=
  (dget d k).getD v0

/-- `k in d`. -/
def dmem {α : Type} (d : Dict α) (k : String) : Bool :=
  (dget d k).isSome

/-- `d[k] = v`: updates an existing binding in place, otherwise appends. -/
def dset {α : Type} : Dict α → String → α → Dict α
  | [], k, v => [(k, v)]
  | p :: t, k, v => if p.1 == k then (k, v) :: t else p :: dset t k v

/-- `del d[k]` (no-op when the key is absent, as used by the callers below). -/
def ddel {α : Type} : Dict α → String → Dict α
  | [], _ => []
  | p :: t, k => if p.1 == k then ddel t k else p :: ddel t k

/-- `list(d.keys())`. -/
def dkeys {α : Type} (d : Dict α) : List String :=
  d.map (fun p => p.1)

-- ───────────────────────────── Dict lemmas ─────────────────────────────

theorem dget_dset_self {α : Type} (d : Dict α) (k : String) (v : α) :
    dget (dset d k v) k = some v := by
  induction d with
  | nil => simp [dset, dget]
  | cons q t ih =>
    by_cases hq : q.1 = k
    · simp [dset, dget, hq]
    · simp [dset, dget, hq, ih]

theorem dget_dset_ne {α : Type} (d : Dict α) (k k' : String) (v : α) (h : k' ≠ k) :
    dget (dset d k v) k' = dget d k' := by
  induction d with
  | nil => simp [dset, dget, Ne.symm h]
  | cons q t ih =>
    by_cases hq : q.1 = k
    · subst hq
      simp [dset, dget, Ne.symm h, h]
    · by_cases hq' : q.1 = k'
      · simp [dset, dget, hq, hq', h]
      · simp [dset, dget, hq, hq', ih]

theorem dget_ddel_self {α : Type} (d : Dict α) (k : String) :
    dget (ddel d k) k = none := by
  induction d with
  | nil => simp [ddel, dget]
  | cons q t ih =>
    by_cases hq : q.1 = k
    · simpa [ddel, hq] using ih
    · simp [ddel, dget, hq, ih]

theorem dget_ddel_ne {α : Type} (d : Dict α) (k k' : String) (h : k' ≠ k) :
    dget (ddel d k) k' = dget d k' := by
  induction d with
  | nil => simp [ddel]
  | cons q t ih =>
    by_cases hq : q.1 = k
    · subst hq
      simp [ddel, dget, Ne.symm h, ih]
    · by_cases hq' : q.1 = k'
      · simp [ddel, dget, hq, hq', h]
      · simp [ddel, dget, hq, hq', ih]

theorem dmem_iff_mem_dkeys {α : Type} (d : Dict α) (k : String) :
    dmem d k = true ↔ k ∈ dkeys d := by
  unfold dmem
  induction d with
  | nil => simp [dget, dkeys]
  | cons q t ih =>
    by_cases hq : q.1 = k
    · simp [dget, dkeys, hq]
    · simp only [dget, hq, beq_iff_eq, if_false, dkeys, List.map_cons, List.mem_cons]
      rw [ih]
      constructor
      · exact fun h => Or.inr h
      · rintro (he | ht)
        · exact absurd he.symm hq
        · exact ht

theorem dget_eq_none_iff_not_mem {α : Type} (d : Dict α) (k : String) :
    dget d k = none ↔ k ∉ dkeys d := by
  rw [← dmem_iff_mem_dkeys]
  unfold dmem
  cases dget d k <;> simp

theorem dget_eq_some_of_mem {α : Type} (d : Dict α) (k : String) (v : α)
    (hnd : (dkeys d).Nodup) (hm : (k, v) ∈ d) : dget d k = some v := by
  induction d with
  | nil => simp at hm
  | cons q t ih =>
    simp only [dkeys, List.map_cons, List.nodup_cons] at hnd
    rcases List.mem_cons.mp hm with hq | ht
    · rw [← hq]
      simp [dget]
    · by_cases hq : q.1 = k
      · exfalso
        apply hnd.1
        rw [hq]
        simp only [dkeys, List.mem_map]
        exact ⟨(k, v), ht, rfl⟩
      · simp only [dget, hq, beq_iff_eq, if_false]
        exact ih hnd.2 ht

theorem mem_of_dget_eq_some {α : Type} (d : Dict α) (k : String) (v : α)
    (h : dget d k = some v) : (k, v) ∈ d := by
  induction d with
  | nil => simp [dget] at h
  | cons q t ih =>
    obtain ⟨a, b⟩ := q
    by_cases hq : a = k
    · simp only [dget, hq, beq_iff_eq, if_true, Option.some.injEq] at h
      rw [← hq, ← h]
      exact List.mem_cons_self _ _
    · simp only [dget, hq, beq_iff_eq, if_false] at h
      exact List.mem_cons_of_mem _ (ih h)

theorem dkeys_dset {α : Type} (d : Dict α) (k : String) (v : α) :
    dkeys (dset d k v) = if dmem d k then dkeys d else dkeys d ++ [k] := by
  induction d with
  | nil => simp [dset, dkeys, dmem, dget]
  | cons q t ih =>
    by_cases hq : q.1 = k
    · simp [dset, dkeys, dmem, dget, hq]
    · simp only [dset, hq, beq_iff_eq, if_false, dkeys, List.map_cons, dmem, dget]
      unfold dkeys dmem at ih
      rw [ih]
      by_cases hm : (dget t k).isSome <;> simp [hm]

theorem dkeys_nodup_dset {α : Type} (d : Dict α) (k : String) (v : α)
    (h : (dkeys d).Nodup) : (dkeys (dset d k v)).Nodup := by
  rw [dkeys_dset]
  by_cases hm : dmem d k
  · simpa [hm]
  · simp only [hm, Bool.false_eq_true, if_false]
    rw [List.nodup_append]
    refine ⟨h, List.nodup_singleton k, ?_⟩
    intro a ha hb
    simp only [List.mem_singleton] at hb
    subst hb
    rw [← dmem_iff_mem_dkeys] at ha
    exact hm ha

theorem dkeys_sublist_ddel {α : Type} (d : Dict α) (k : String) :
    (dkeys (ddel d k)).Sublist (dkeys d) := by
  induction d with
  | nil => simp [ddel]
  | cons q t ih =>
    by_cases hq : q.1 = k
    · simp only [ddel, hq, beq_iff_eq, if_true, dkeys, List.map_cons]
      exact ih.trans (List.sublist_cons_self _ _)
    · simp only [ddel, hq, beq_iff_eq, if_false, dkeys, List.map_cons]
      exact ih.cons₂ _

theorem dkeys_nodup_ddel {α : Type} (d : Dict α) (k : String)
    (h : (dkeys d).Nodup) : (dkeys (ddel d k)).Nodup :=
  (dkeys_sublist_ddel d k).nodup h

theorem mem_dset_of_nodup {α : Type} (d : Dict α) (k : String) (v : α) (p : String × α)
    (hnd : (dkeys d).Nodup) (h : p ∈ dset d k v) :
    p = (k, v) ∨ (p ∈ d ∧ p.1 ≠ k) := by
  induction d with
  | nil =>
    simp only [dset, List.mem_singleton] at h
    exact Or.inl h
  | cons q t ih =>
    simp only [dkeys, List.map_cons, List.nodup_cons] at hnd
    by_cases hq : q.1 = k
    · simp only [dset, hq, beq_iff_eq, if_true, List.mem_cons] at h
      rcases h with h | h
      · exact Or.inl h
      · refine Or.inr ⟨List.mem_cons_of_mem _ h, fun hk => ?_⟩
        apply hnd.1
        rw [hq, ← hk]
        simp only [dkeys, List.mem_map]
        exact ⟨p, h, rfl⟩
    · simp only [dset, hq, beq_iff_eq, if_false, List.mem_cons] at h
      rcases h with h | h
      · subst h
        exact Or.inr ⟨List.mem_cons_self _ _, hq⟩
      · rcases ih hnd.2 h with h1 | ⟨h1, h2⟩
        · exact Or.inl h1
        · exact Or.inr ⟨List.mem_cons_of_mem _ h1, h2⟩

theorem mem_ddel {α : Type} (d : Dict α) (k : String) (p : String × α)
    (h : p ∈ ddel d k) : p ∈ d ∧ p.1 ≠ k := by
  induction d with
  | nil => simp [ddel] at h
  | cons q t ih =>
    by_cases hq : q.1 = k
    · simp only [ddel, hq, beq_iff_eq, if_true] at h
      exact ⟨List.mem_cons_of_mem _ (ih h).1, (ih h).2⟩
    · simp only [ddel, hq, beq_iff_eq, if_false, List.mem_cons] at h
      rcases h with h | h
      · subst h
        exact ⟨List.mem_cons_self _ _, hq⟩
      · exact ⟨List.mem_cons_of_mem _ (ih h).1, (ih h).2⟩

-- ─────────────────────── String helpers (Python semantics) ───────────────────────

/-- The line-boundary characters recognised by Python's `str.splitlines`. -/
def pyIsLineBreak (c : Char) : Bool :=
  c == '\n' || c == '\r' || c == '\x0b' || c == '\x0c' ||
  c == '\x1c' || c == '\x1d' || c == '\x1e' || c == '\x85' ||
  c == '\u2028' || c == '\u2029'

/-- Worker for `splitlines`: `acc` holds the current line reversed. -/
def splitlinesAux : List Char → List Char → List String
  | [], acc => if acc.isEmpty then [] else [String.mk acc.reverse]
  | '\r' :: '\n' :: rest, acc => String.mk acc.reverse :: splitlinesAux rest []
  | c :: rest, acc =>
    if pyIsLineBreak c then String.mk acc.reverse :: splitlinesAux rest []
    else splitlinesAux rest (c :: acc)

/-- Python `text.splitlines()`. -/
def splitlines (s : String) : List String :=
  splitlinesAux s.data []

/-- Characters matched by the tokenizer regex `[A-Za-z0-9_]+`. -/
def isWordChar (c : Char) : Bool :=
  c.isAlpha || c.isDigit || c == '_'

/-- Worker for `tokenize`: `acc` holds the current word reversed. -/
def tokenizeAux : List Char → List Char → List String
  | [], acc => if acc.isEmpty then [] else [String.mk (acc.reverse.map Char.toLower)]
  | c :: rest, acc =>
    if isWordChar c then tokenizeAux rest (c :: acc)
    else if acc.isEmpty then tokenizeAux rest []
    else String.mk (acc.reverse.map Char.toLower) :: tokenizeAux rest []

/-- `tokenize` from `seance_common.py`: lower-cased `[A-Za-z0-9_]+` word runs. -/
def tokenize (s : String) : List String :=
  tokenizeAux s.data []

-- ─────────────────────────────── Chunker ───────────────────────────────

/-- Fuel-indexed worker for `blockEnd`; the fuel only serves to make the
recursion structural (the caller supplies enough fuel for the loop bound). -/
def blockEndAux (lines : List String) (maxChars : Nat) : Nat → Nat → Nat → Nat
  | 0, i, _ => i
  | fuel + 1, i, len =>
    if h : i < lines.length then
      if len + (lines.get ⟨i, h⟩).length + 1 ≤ maxChars then
        blockEndAux lines maxChars fuel (i + 1) (len + (lines.get ⟨i, h⟩).length + 1)
      else i
    else i

/-- The inner `while` of `greedy_line_chunk`: starting at line `i` with
accumulated length `len`, returns the index one past the last line that still
fits in the `max_chars` budget (each line costs `len(line) + 1`). -/
def blockEnd (lines : List String) (maxChars : Nat) (i len : Nat) : Nat :=
  blockEndAux lines maxChars (lines.length - i) i len

/-- One-step unfolding of `blockEnd`, mirroring the source loop. -/
theorem blockEnd_eq (lines : List String) (maxChars : Nat) (i len : Nat) :
    blockEnd lines maxChars i len =
      if h : i < lines.length then
        if len + (lines.get ⟨i, h⟩).length + 1 ≤ maxChars then
          blockEnd lines maxChars (i + 1) (len + (lines.get ⟨i, h⟩).length + 1)
        else i
      else i := by
  unfold blockEnd
  by_cases h : i < lines.length
  · have he : lines.length - i = (lines.length - (i + 1)) + 1 := by omega
    rw [he]
    simp only [blockEndAux]
  · have he : lines.length - i = 0 := by omega
    rw [he]
    simp only [blockEndAux]
    rw [dif_neg h]

theorem blockEnd_ge (lines : List String) (maxChars : Nat) (i len : Nat) :
    i ≤ blockEnd lines maxChars i len := by
  rw [blockEnd_eq]
  split
  · split
    · have := blockEnd_ge lines maxChars (i + 1)
        (len + (lines.get ⟨i, by assumption⟩).length + 1)
      omega
    · exact Nat.le_refl i
  · exact Nat.le_refl i
termination_by lines.length - i

theorem blockEnd_le (lines : List String) (maxChars : Nat) (i len : Nat)
    (h : i ≤ lines.length) : blockEnd lines maxChars i len ≤ lines.length := by
  rw [blockEnd_eq]
  split
  · split
    · exact blockEnd_le lines maxChars (i + 1) _ (by omega)
    · exact h
  · exact h
termination_by lines.length - i

/-- If every budget fails at line `j`, the block cannot extend past `j`. -/
theorem blockEnd_le_blocked (lines : List String) (maxChars : Nat) (i len j : Nat)
    (hij : i ≤ j) (hj : j < lines.length)
    (hblk : ∀ len', ¬ (len' + (lines.get ⟨j, hj⟩).length + 1 ≤ maxChars)) :
    blockEnd lines maxChars i len ≤ j := by
  rw [blockEnd_eq]
  split
  · split
    · rename_i hlt hfit
      have hij' : i + 1 ≤ j := by
        rcases Nat.lt_or_ge i j with h1 | h1
        · omega
        · have : i = j := by omega
          subst this
          exact absurd hfit (hblk len)
      exact blockEnd_le_blocked lines maxChars (i + 1) _ j hij' hj hblk
    · exact hij
  · exact hij
termination_by lines.length - i

/-- The `if not block` fallback: the end index of the chunk emitted from
`start` (`i` in the source). -/
def chunkEnd (lines : List String) (maxChars start : Nat) : Nat :=
  if blockEnd lines maxChars start 0 = start then start + 1
  else blockEnd lines maxChars start 0

/-- The list of lines joined into the emitted chunk (with the single-line
truncation fallback of the source). -/
def chunkBlock (lines : List String) (maxChars start : Nat)
    (h : start < lines.length) : List String :=
  if blockEnd lines maxChars start 0 = start then [(lines.get ⟨start, h⟩).take maxChars]
  else (lines.drop start).take (blockEnd lines maxChars start 0 - start)

/-- The `start = max(next_start, i)` update of the source, `next_start`
being derived from the `overlap // 80` line-overlap heuristic. -/
def chunkNextStart (lines : List String) (maxChars overlap start : Nat) : Nat :=
  let i := chunkEnd lines maxChars start
  let overlapLines := min (overlap / 80) (i - start)
  let nextStart := if overlapLines ≠ 0 then i - overlapLines else i
  max nextStart i

theorem chunkEnd_gt (lines : List String) (maxChars start : Nat) :
    start < chunkEnd lines maxChars start := by
  unfold chunkEnd
  have := blockEnd_ge lines maxChars start 0
  split <;> omega

theorem chunkEnd_le (lines : List String) (maxChars start : Nat)
    (h : start < lines.length) : chunkEnd lines maxChars start ≤ lines.length := by
  unfold chunkEnd
  have := blockEnd_le lines maxChars start 0 (Nat.le_of_lt h)
  split <;> omega

/-- `max(next_start, i) = i`: the computed overlap is always discarded. -/
theorem chunkNextStart_eq (lines : List String) (maxChars overlap start : Nat) :
    chunkNextStart lines maxChars overlap start = chunkEnd lines maxChars start := by
  unfold chunkNextStart
  generalize chunkEnd lines maxChars start = i
  show max (if min (overlap / 80) (i - start) ≠ 0
      then i - min (overlap / 80) (i - start) else i) i = i
  split <;> omega

theorem chunkNextStart_gt (lines : List String) (maxChars overlap start : Nat) :
    start < chunkNextStart lines maxChars overlap start := by
  rw [chunkNextStart_eq]
  exact chunkEnd_gt lines maxChars start

/-- Fuel-indexed worker for `chunkFrom` (fuel keeps the recursion structural). -/
def chunkFromAux (lines : List String) (maxChars overlap : Nat) :
    Nat → Nat → List (Nat × Nat × String)
  | 0, _ => []
  | fuel + 1, start =>
    if h : start < lines.length then
      (start + 1, chunkEnd lines maxChars start,
        String.intercalate "\n" (chunkBlock lines maxChars start h)) ::
      chunkFromAux lines maxChars overlap fuel (chunkNextStart lines maxChars overlap start)
    else []

theorem chunkFromAux_congr (lines : List String) (maxChars overlap : Nat) :
    ∀ f1 f2 start, lines.length - start ≤ f1 → lines.length - start ≤ f2 →
      chunkFromAux lines maxChars overlap f1 start =
      chunkFromAux lines maxChars overlap f2 start := by
  intro f1
  induction f1 with
  | zero =>
    intro f2 start h1 h2
    have hns : ¬ start < lines.length := by omega
    cases f2 with
    | zero => rfl
    | succ f2' =>
      simp only [chunkFromAux]
      rw [dif_neg hns]
  | succ f1' ih =>
    intro f2 start h1 h2
    by_cases hlt : start < lines.length
    · cases f2 with
      | zero => omega
      | succ f2' =>
        simp only [chunkFromAux]
        rw [dif_pos hlt, dif_pos hlt]
        have hgt := chunkNextStart_gt lines maxChars overlap start
        rw [ih f2' (chunkNextStart lines maxChars overlap start) (by omega) (by omega)]
    · cases f2 with
      | zero =>
        simp only [chunkFromAux]
        rw [dif_neg hlt]
      | succ f2' =>
        simp only [chunkFromAux]
        rw [dif_neg hlt, dif_neg hlt]

/-- The outer `while` loop of `greedy_line_chunk`, starting at 0-based line
`start`. -/
def chunkFrom (lines : List String) (maxChars overlap : Nat) (start : Nat) :
    List (Nat × Nat × String) :=
  chunkFromAux lines maxChars overlap (lines.length - start) start

/-- One-step unfolding of `chunkFrom`, mirroring the source loop. -/
theorem chunkFrom_eq (lines : List String) (maxChars overlap : Nat) (start : Nat) :
    chunkFrom lines maxChars overlap start =
      if h : start < lines.length then
        (start + 1, chunkEnd lines maxChars start,
          String.intercalate "\n" (chunkBlock lines maxChars start h)) ::
        chunkFrom lines maxChars overlap (chunkNextStart lines maxChars overlap start)
      else [] := by
  unfold chunkFrom
  by_cases h : start < lines.length
  · have he : lines.length - start = (lines.length - start - 1) + 1 := by omega
    rw [he]
    simp only [chunkFromAux]
    rw [dif_pos h, dif_pos h]
    have hgt := chunkNextStart_gt lines maxChars overlap start
    rw [chunkFromAux_congr lines maxChars overlap (lines.length - start - 1)
      (lines.length - chunkNextStart lines maxChars overlap start)
      (chunkNextStart lines maxChars overlap start) (by omega) (by omega)]
  · have he : lines.length - start = 0 := by omega
    rw [he]
    simp only [chunkFromAux]
    rw [dif_neg h]

/-- `greedy_line_chunk` from `seance_common.py`. -/
def greedy_line_chunk (text : String) (maxChars overlap : Nat) :
    List (Nat × Nat × String) :=
  chunkFrom (splitlines text) maxChars overlap 0

/-- `make_chunk_id` from `seance_common.py` (ignores the file path). -/
def make_chunk_id (file : String) (start_line end_line : Nat) (fh : String) : String :=
  fh ++ ":" ++ toString start_line ++ ":" ++ toString end_line

-- ───────────────────────── Chunk-coverage theorems ─────────────────────────

/-- `coversFromB s L cs` checks that the 1-based inclusive spans in `cs` tile
the 0-based line range `[s, L)` exactly: the first span starts at `s + 1`,
each span is nonempty and ends within `L`, each subsequent span starts right
after the previous one, and the last span ends at `L`. -/
def coversFromB : Nat → Nat → List (Nat × Nat × String) → Bool
  | s, L, [] => s == L
  | s, L, c :: rest =>
    (c.1 == s + 1) && decide (s < c.2.1) && decide (c.2.1 ≤ L) && coversFromB c.2.1 L rest

theorem chunkFrom_covers (lines : List String) (maxChars overlap : Nat) (start : Nat)
    (h : start ≤ lines.length) :
    coversFromB start lines.length (chunkFrom lines maxChars overlap start) = true := by
  rw [chunkFrom_eq]
  split
  · rename_i hlt
    rw [chunkNextStart_eq]
    have h1 := chunkEnd_gt lines maxChars start
    have h2 := chunkEnd_le lines maxChars start hlt
    simp only [coversFromB, Bool.and_eq_true, beq_iff_eq, decide_eq_true_eq]
    exact ⟨⟨⟨trivial, h1⟩, h2⟩, chunkFrom_covers lines maxChars overlap _ h2⟩
  · rename_i hge
    have : start = lines.length := by omega
    simp [coversFromB, this]
termination_by lines.length - start
decreasing_by
  have := chunkEnd_gt lines maxChars start
  omega

/-- A line that exceeds the budget can never be swallowed into a block that
starts at it, so `blockEnd` halts right there. -/
theorem blockEnd_at_long (lines : List String) (maxChars : Nat) (j : Nat)
    (hj : j < lines.length) (hlong : maxChars < (lines.get ⟨j, hj⟩).length) :
    blockEnd lines maxChars j 0 = j := by
  rw [blockEnd_eq]
  rw [dif_pos hj]
  rw [if_neg (by omega)]

theorem chunkFrom_long_line (lines : List String) (maxChars overlap : Nat)
    (start j : Nat) (hsj : start ≤ j) (hj : j < lines.length)
    (hlong : maxChars < (lines.get ⟨j, hj⟩).length) :
    (j + 1, j + 1, (lines.get ⟨j, hj⟩).take maxChars)
      ∈ chunkFrom lines maxChars overlap start := by
  rw [chunkFrom_eq]
  rw [dif_pos (lt_of_le_of_lt hsj hj)]
  by_cases heq : start = j
  · subst heq
    have hbe := blockEnd_at_long lines maxChars start hj hlong
    have h1 : chunkEnd lines maxChars start = start + 1 := by
      unfold chunkEnd
      rw [if_pos hbe]
    have h2 : chunkBlock lines maxChars start (lt_of_le_of_lt hsj hj) =
        [(lines.get ⟨start, lt_of_le_of_lt hsj hj⟩).take maxChars] := by
      unfold chunkBlock
      rw [if_pos hbe]
    rw [h1, h2]
    exact List.mem_cons_self _ _
  · have hlt : start < j := by omega
    have hble : blockEnd lines maxChars start 0 ≤ j := by
      apply blockEnd_le_blocked lines maxChars start 0 j (Nat.le_of_lt hlt) hj
      intro len'
      omega
    have hce : chunkEnd lines maxChars start ≤ j := by
      unfold chunkEnd
      split <;> omega
    apply List.mem_cons_of_mem
    rw [chunkNextStart_eq]
    exact chunkFrom_long_line lines maxChars overlap _ j hce hj hlong
termination_by lines.length - start
decreasing_by
  have := chunkEnd_gt lines maxChars start
  omega

/-- **C3.** (confirmed) For every file text and `max_chars ≥ 1`, the chunker
returns an ordered list of `(start_line, end_line, text)` spans with 1-based
inclusive bounds whose start lines are non-decreasing (indeed, each span
begins exactly one line after the previous span's end) and which collectively
cover every one of the `L` lines with no gaps; a single line longer than
`max_chars` is emitted as its own chunk with its text truncated to
`max_chars` characters. -/
theorem c3_chunk_coverage (text : String) (maxChars overlap : Nat)
    (hmc : 1 ≤ maxChars) :
    coversFromB 0 (splitlines text).length
      (greedy_line_chunk text maxChars overlap) = true
    ∧ ∀ j (hj : j < (splitlines text).length),
        maxChars < ((splitlines text).get ⟨j, hj⟩).length →
        (j + 1, j + 1, ((splitlines text).get ⟨j, hj⟩).take maxChars)
          ∈ greedy_line_chunk text maxChars overlap := by
  constructor
  · exact chunkFrom_covers (splitlines text) maxChars overlap 0 (Nat.zero_le _)
  · intro j hj hlong
    exact chunkFrom_long_line (splitlines text) maxChars overlap 0 j
      (Nat.zero_le j) hj hlong

theorem c3_chunk_coverage_witness :
    (1 ≤ 5) ∧
    (coversFromB 0 (splitlines "ab\ncdefgh\nx").length
        (greedy_line_chunk "ab\ncdefgh\nx" 5 0) = true
      ∧ ∀ j (hj : j < (splitlines "ab\ncdefgh\nx").length),
          5 < ((splitlines "ab\ncdefgh\nx").get ⟨j, hj⟩).length →
          (j + 1, j + 1, ((splitlines "ab\ncdefgh\nx").get ⟨j, hj⟩).take 5)
            ∈ greedy_line_chunk "ab\ncdefgh\nx" 5 0) :=
  ⟨by decide, c3_chunk_coverage "ab\ncdefgh\nx" 5 0 (by decide)⟩

/-- **C2.** (code_bug) The spec says the chunker starts the next chunk
`overlap // 80` lines before the previous chunk's end.  The source computes
`next_start = i - overlap_lines` but then executes `start = max(next_start, i)`,
which always equals `i`: the computed overlap is discarded and every chunk
starts exactly one line after the previous chunk's end.  Concretely, three
40-character lines with `max_chars = 100` and `overlap = 80` should give a
second chunk starting on line 2 (one overlapping line); the code starts it on
line 3. -/
theorem c2_overlap_dead :
    (∀ (lines : List String) (maxChars overlap start : Nat),
        chunkNextStart lines maxChars overlap start = chunkEnd lines maxChars start)
    ∧ (greedy_line_chunk
          (String.mk (List.replicate 40 'a') ++ "\n" ++
           String.mk (List.replicate 40 'b') ++ "\n" ++
           String.mk (List.replicate 40 'c')) 100 80).map
        (fun c => (c.1, c.2.1)) = [(1, 2), (3, 3)] := by
  constructor
  · exact chunkNextStart_eq
  · decide

-- ───────────────────────── Index store (`seance_index.py`) ─────────────────────────

/-- `IndexedChunk` from `seance_index.py`. -/
structure IndexedChunk where
  id : String
  file : String
  start_line : Nat
  end_line : Nat
  text_hash : String
deriving DecidableEq, Repr

/-- `Manifest` from `seance_index.py` (timestamps idealised as naturals). -/
structure Manifest where
  root : String
  created_at : Nat
  updated_at : Nat
  files : Dict String
  chunks : Dict IndexedChunk
deriving DecidableEq, Repr

/-- The inverted index: token → chunk id → term frequency. -/
abbrev Inv : Type := Dict (Dict Nat)

/-- One file met by the `rglob` scan (after the extension/ignore filters).
`raw` is the byte content read by `file_hash` (`none` = read error) and
`text` the decoded content read by `read_text_safely` (`none` = read error). -/
structure SFile where
  rel : String
  raw : Option String
  text : Option String
deriving DecidableEq, Repr

/-- `file_hash`: hex digest of the bytes, `""` when the file is unreadable.
The digest function itself (`sha256`) is abstracted as a parameter `H`. -/
def fhOf (H : String → String) (f : SFile) : String :=
  match f.raw with
  | none => ""
  | some bs => H bs

/-- Persisted state of the manifest file on disk. -/
inductive StoredManifest
  | absent
  | unparsable
  | parsed (m : Manifest)
deriving DecidableEq, Repr

/-- Persisted state of the inverted-index file on disk. -/
inductive StoredIndex
  | absent
  | unparsable
  | parsed (inv : Inv)
deriving DecidableEq, Repr

/-- Errors that escape `build_index` to the caller. -/
inductive BuildErr
  | manifestUnparsable
deriving DecidableEq, Repr

/-- `load_manifest`: `None` when the file is absent; a JSON parse failure
propagates as an exception (there is no `try` around `json.loads`). -/
def load_manifest (sm : StoredManifest) : Except BuildErr (Option Manifest) :=
  match sm with
  | .absent => .ok none
  | .unparsable => .error .manifestUnparsable
  | .parsed m => .ok (some m)

/-- `connect`: return the existing manifest or create a fresh empty one. -/
def connect (root : String) (now : Nat) (sm : StoredManifest) :
    Except BuildErr Manifest :=
  match load_manifest sm with
  | .error e => .error e
  | .ok (some m) => .ok m
  | .ok none => .ok ⟨root, now, now, [], []⟩

/-- Mutable state of the `build_index` scan loop. -/
structure BState where
  files : Dict String
  chunks : Dict IndexedChunk
  valid : Dict Bool
  inv : Inv
deriving DecidableEq, Repr

/-- `for cid, meta in list(man.chunks.items()): if meta.file == rel:
valid_chunks[cid] = True`. -/
def markValid (chunks : Dict IndexedChunk) (rel : String) (valid : Dict Bool) :
    Dict Bool :=
  chunks.foldl (fun v p => if p.2.file == rel then dset v p.1 true else v) valid

/-- `for cid, meta in list(man.chunks.items()): if meta.file == rel:
del man.chunks[cid]`. -/
def ddelFile (chunks : Dict IndexedChunk) (rel : String) : Dict IndexedChunk :=
  chunks.filter (fun p => !(p.2.file == rel))

/-- `inverted.setdefault(tok, {}).setdefault(cid, 0); inverted[tok][cid] += 1`. -/
def bumpTok (inv : Inv) (tok cid : String) : Inv :=
  let postings := dgetD inv tok []
  dset inv tok (dset postings cid (dgetD postings cid 0 + 1))

/-- `for tok in tokenize(chunk_text): ...` -/
def addTokens (inv : Inv) (cid : String) (toks : List String) : Inv :=
  toks.foldl (fun iv tok => bumpTok iv tok cid) inv

/-- The body of `for (start_line, end_line, chunk_text) in lines:`. -/
def addSpan (rel fh : String) (st : BState) (span : Nat × Nat × String) : BState :=
  let cid := make_chunk_id rel span.1 span.2.1 fh
  { st with
    chunks := dset st.chunks cid ⟨cid, rel, span.1, span.2.1, fh⟩,
    valid := dset st.valid cid true,
    inv := addTokens st.inv cid (tokenize span.2.2) }

/-- The per-file body of the scan loop of `build_index`. -/
def processFile (H : String → String) (maxChars overlap : Nat)
    (st : BState) (f : SFile) : BState :=
  let fh := fhOf H f
  if some fh = dget st.files f.rel then
    -- not file_changed: mark all existing chunks for this file as valid
    { st with valid := markValid st.chunks f.rel st.valid }
  else
    match f.text with
    | none => st  -- skipped unreadable
    | some text =>
      let spans := greedy_line_chunk text maxChars overlap
      let st2 := spans.foldl (addSpan f.rel fh)
        { st with chunks := ddelFile st.chunks f.rel }
      { st2 with files := dset st2.files f.rel fh }

/-- `for tok in list(inverted.keys()): if cid in inverted[tok]: del ...;
if not inverted[tok]: del inverted[tok]`. -/
def pruneCid (inv : Inv) (cid : String) : Inv :=
  (inv.map (fun q => (q.1, ddel q.2 cid))).filter (fun q => !q.2.isEmpty)

/-- The final `for cid, ok in list(valid_chunks.items()): if not ok: ...`. -/
def pruneStale (valid : Dict Bool) (chunks : Dict IndexedChunk) (inv : Inv) :
    Dict IndexedChunk × Inv :=
  valid.foldl
    (fun acc p => if p.2 then acc else (ddel acc.1 p.1, pruneCid acc.2 p.1))
    (chunks, inv)

/-- The scan loop of `build_index` over the files met by `rglob`. -/
def runScan (H : String → String) (maxChars overlap : Nat)
    (st : BState) (files : List SFile) : BState :=
  files.foldl (processFile H maxChars overlap) st

/-- `build_index` from `seance_index.py`.  The scan (`rglob` plus the
extension/env filters) is abstracted as the input list `files`, in scan
order; `now` is the `connect` timestamp and `fin` the final `updated_at`. -/
def buildIndex (H : String → String) (maxChars overlap : Nat) (root : String)
    (files : List SFile) (sm : StoredManifest) (si : StoredIndex)
    (now fin : Nat) : Except BuildErr (Manifest × Inv) :=
  match connect root now sm with
  | .error e => .error e
  | .ok man =>
    let inverted : Inv := match si with
      | .parsed v => v
      | _ => []   -- absent, or unparsable (json failure caught → {})
    let valid0 : Dict Bool := man.chunks.map (fun p => (p.1, false))
    let st1 := runScan H maxChars overlap ⟨man.files, man.chunks, valid0, inverted⟩ files
    let pruned := pruneStale st1.valid st1.chunks st1.inv
    .ok ({ man with files := st1.files, chunks := pruned.1, updated_at := fin },
      pruned.2)

/-- Term frequency recorded for `(tok, cid)` in an inverted index. -/
def tfOf (inv : Inv) (tok cid : String) : Option Nat :=
  (dget inv tok).bind (fun ps => dget ps cid)

-- ───────────────────── Basic lemmas on the scan-loop operations ─────────────────────

theorem runScan_nil (H : String → String) (maxChars overlap : Nat) (st : BState) :
    runScan H maxChars overlap st [] = st := rfl

theorem runScan_cons (H : String → String) (maxChars overlap : Nat) (st : BState)
    (f : SFile) (fs : List SFile) :
    runScan H maxChars overlap st (f :: fs) =
      runScan H maxChars overlap (processFile H maxChars overlap st f) fs := rfl

theorem markValid_preserves_true (chunks : Dict IndexedChunk) (rel : String)
    (valid : Dict Bool) (cid : String) (h : dget valid cid = some true) :
    dget (markValid chunks rel valid) cid = some true := by
  induction chunks generalizing valid with
  | nil => exact h
  | cons p t ih =>
    simp only [markValid, List.foldl_cons] at *
    by_cases hp : p.2.file == rel
    · rw [hp]
      simp only [if_true]
      apply ih
      by_cases hk : p.1 = cid
      · rw [hk, dget_dset_self]
      · rw [dget_dset_ne _ _ _ _ (Ne.symm hk)]
        exact h
    · simp only [hp, Bool.false_eq_true, if_false]
      exact ih _ h

theorem markValid_marks (chunks : Dict IndexedChunk) (rel : String)
    (valid : Dict Bool) (cid : String) (ch : IndexedChunk)
    (hm : (cid, ch) ∈ chunks) (hf : ch.file = rel) :
    dget (markValid chunks rel valid) cid = some true := by
  induction chunks generalizing valid with
  | nil => simp at hm
  | cons p t ih =>
    simp only [markValid, List.foldl_cons] at *
    rcases List.mem_cons.mp hm with hp | ht
    · rw [← hp]
      simp only [hf, beq_self_eq_true, if_true]
      apply markValid_preserves_true
      exact dget_dset_self _ _ _
    · by_cases hp : p.2.file == rel
      · rw [hp]
        simp only [if_true]
        exact ih _ ht
      · simp only [hp, Bool.false_eq_true, if_false]
        exact ih _ ht

theorem markValid_preserves_other (chunks : Dict IndexedChunk) (rel : String)
    (valid : Dict Bool) (cid : String)
    (hno : ∀ ch, (cid, ch) ∈ chunks → ch.file ≠ rel) :
    dget (markValid chunks rel valid) cid = dget valid cid := by
  induction chunks generalizing valid with
  | nil => rfl
  | cons p t ih =>
    simp only [markValid, List.foldl_cons] at *
    by_cases hp : p.2.file == rel
    · rw [hp]
      simp only [if_true]
      rw [ih _ (fun ch h => hno ch (List.mem_cons_of_mem _ h))]
      have hk : p.1 ≠ cid := by
        intro hk
        apply hno p.2 _ (by simpa using hp)
        rw [← hk]
        exact List.mem_cons_self _ _
      rw [dget_dset_ne _ _ _ _ (Ne.symm hk)]
    · simp only [hp, Bool.false_eq_true, if_false]
      exact ih _ (fun ch h => hno ch (List.mem_cons_of_mem _ h))

theorem markValid_true_source (chunks : Dict IndexedChunk) (rel : String)
    (valid : Dict Bool) (cid : String)
    (h : dget (markValid chunks rel valid) cid = some true) :
    dget valid cid = some true ∨ ∃ ch, (cid, ch) ∈ chunks ∧ ch.file = rel := by
  induction chunks generalizing valid with
  | nil => exact Or.inl h
  | cons p t ih =>
    simp only [markValid, List.foldl_cons] at h
    by_cases hp : p.2.file == rel
    · rw [hp] at h
      simp only [if_true] at h
      rcases ih _ h with h1 | ⟨ch, hm, hf⟩
      · by_cases hk : p.1 = cid
        · right
          refine ⟨p.2, ?_, by simpa using hp⟩
          rw [← hk]
          exact List.mem_cons_self _ _
        · rw [dget_dset_ne _ _ _ _ (Ne.symm hk)] at h1
          exact Or.inl h1
      · exact Or.inr ⟨ch, List.mem_cons_of_mem _ hm, hf⟩
    · simp only [hp, Bool.false_eq_true, if_false] at h
      rcases ih _ h with h1 | ⟨ch, hm, hf⟩
      · exact Or.inl h1
      · exact Or.inr ⟨ch, List.mem_cons_of_mem _ hm, hf⟩

theorem markValid_keys_mono (chunks : Dict IndexedChunk) (rel : String)
    (valid : Dict Bool) (cid : String) (h : cid ∈ dkeys valid) :
    cid ∈ dkeys (markValid chunks rel valid) := by
  induction chunks generalizing valid with
  | nil => exact h
  | cons p t ih =>
    simp only [markValid, List.foldl_cons] at *
    by_cases hp : p.2.file == rel
    · rw [hp]
      simp only [if_true]
      apply ih
      rw [dkeys_dset]
      split
      · exact h
      · exact List.mem_append_left _ h
    · simp only [hp, Bool.false_eq_true, if_false]
      exact ih _ h

theorem markValid_nodup (chunks : Dict IndexedChunk) (rel : String)
    (valid : Dict Bool) (h : (dkeys valid).Nodup) :
    (dkeys (markValid chunks rel valid)).Nodup := by
  induction chunks generalizing valid with
  | nil => exact h
  | cons p t ih =>
    simp only [markValid, List.foldl_cons] at *
    by_cases hp : p.2.file == rel
    · rw [hp]
      simp only [if_true]
      exact ih _ (dkeys_nodup_dset _ _ _ h)
    · simp only [hp, Bool.false_eq_true, if_false]
      exact ih _ h

theorem ddelFile_mem (chunks : Dict IndexedChunk) (rel : String) (p : String × IndexedChunk)
    (h : p ∈ ddelFile chunks rel) : p ∈ chunks ∧ p.2.file ≠ rel := by
  unfold ddelFile at h
  have := List.mem_filter.mp h
  refine ⟨this.1, ?_⟩
  simpa using this.2

theorem ddelFile_keys_sublist (chunks : Dict IndexedChunk) (rel : String) :
    (dkeys (ddelFile chunks rel)).Sublist (dkeys chunks) := by
  unfold ddelFile dkeys
  exact List.Sublist.map _ (List.filter_sublist _)

theorem ddelFile_nodup (chunks : Dict IndexedChunk) (rel : String)
    (h : (dkeys chunks).Nodup) : (dkeys (ddelFile chunks rel)).Nodup :=
  (ddelFile_keys_sublist chunks rel).nodup h

theorem ddelFile_get_of_ne (chunks : Dict IndexedChunk) (rel : String)
    (cid : String) (ch : IndexedChunk) (hnd : (dkeys chunks).Nodup)
    (h : dget chunks cid = some ch) (hne : ch.file ≠ rel) :
    dget (ddelFile chunks rel) cid = some ch := by
  apply dget_eq_some_of_mem _ _ _ (ddelFile_nodup chunks rel hnd)
  unfold ddelFile
  rw [List.mem_filter]
  exact ⟨mem_of_dget_eq_some _ _ _ h, by simpa using hne⟩

theorem ddelFile_get_none (chunks : Dict IndexedChunk) (rel cid : String)
    (h : dget chunks cid = none) : dget (ddelFile chunks rel) cid = none := by
  rw [dget_eq_none_iff_not_mem] at h ⊢
  intro hc
  exact h (List.Sublist.mem hc (ddelFile_keys_sublist chunks rel))

theorem dget_ddel_none {α : Type} (d : Dict α) (k k' : String)
    (h : dget d k = none) : dget (ddel d k') k = none := by
  rw [dget_eq_none_iff_not_mem] at h ⊢
  intro hc
  exact h (List.Sublist.mem hc (dkeys_sublist_ddel d k'))

/-- Well-formedness of an inverted index: duplicate-free keys at both levels
(guaranteed for anything parsed from JSON or built by the code). -/
def InvWF (inv : Inv) : Prop :=
  (dkeys inv).Nodup ∧ ∀ tok ps, dget inv tok = some ps → (dkeys ps).Nodup

/-- Well-formedness of the scan-loop state. -/
def BWF (st : BState) : Prop :=
  (dkeys st.files).Nodup ∧ (dkeys st.chunks).Nodup ∧
  (dkeys st.valid).Nodup ∧ InvWF st.inv

/-- Entry-based (decidable) sufficient condition for `InvWF`. -/
theorem InvWF_of_entries (inv : Inv) (h1 : (dkeys inv).Nodup)
    (h2 : ∀ q ∈ inv, (dkeys q.2).Nodup) : InvWF inv :=
  ⟨h1, fun tok ps hps => h2 (tok, ps) (mem_of_dget_eq_some _ _ _ hps)⟩

theorem bumpTok_tf_self (inv : Inv) (tok cid : String) :
    tfOf (bumpTok inv tok cid) tok cid =
      some ((tfOf inv tok cid).getD 0 + 1) := by
  unfold bumpTok tfOf
  rw [dget_dset_self]
  simp only [Option.some_bind]
  rw [dget_dset_self]
  unfold dgetD
  cases hg : dget inv tok with
  | none => simp [hg, dget]
  | some ps => simp [hg]

theorem bumpTok_tf_other (inv : Inv) (tok cid tok' cid' : String)
    (h : tok' ≠ tok ∨ cid' ≠ cid) :
    tfOf (bumpTok inv tok cid) tok' cid' = tfOf inv tok' cid' := by
  unfold bumpTok tfOf
  by_cases ht : tok' = tok
  · subst ht
    rcases h with h | h
    · exact absurd rfl h
    · rw [dget_dset_self]
      simp only [Option.some_bind]
      rw [dget_dset_ne _ _ _ _ h]
      unfold dgetD
      cases hg : dget inv tok' with
      | none => simp [hg, dget]
      | some ps => simp [hg]
  · rw [dget_dset_ne _ _ _ _ ht]

theorem bumpTok_wf (inv : Inv) (tok cid : String) (h : InvWF inv) :
    InvWF (bumpTok inv tok cid) := by
  obtain ⟨h1, h2⟩ := h
  constructor
  · exact dkeys_nodup_dset _ _ _ h1
  · intro tok' ps' hps'
    by_cases ht : tok' = tok
    · subst ht
      rw [bumpTok, dget_dset_self] at hps'
      cases hps'
      apply dkeys_nodup_dset
      unfold dgetD
      cases hg : dget inv tok' with
      | none => simp [dkeys]
      | some ps => simpa using h2 tok' ps hg
    · rw [bumpTok, dget_dset_ne _ _ _ _ ht] at hps'
      exact h2 tok' ps' hps'

theorem addTokens_tf_self (inv : Inv) (cid : String) (toks : List String) (tok : String) :
    tfOf (addTokens inv cid toks) tok cid =
      if toks.count tok = 0 then tfOf inv tok cid
      else some ((tfOf inv tok cid).getD 0 + toks.count tok) := by
  induction toks generalizing inv with
  | nil => simp [addTokens]
  | cons t ts ih =>
    simp only [addTokens, List.foldl_cons] at *
    by_cases he : t = tok
    · subst he
      rw [ih]
      rw [bumpTok_tf_self]
      simp only [List.count_cons_self]
      by_cases hc : ts.count t = 0 <;> simp [hc] <;> omega
    · rw [ih]
      rw [bumpTok_tf_other inv t cid tok cid (Or.inl (Ne.symm he))]
      rw [List.count_cons_of_ne (by simpa using Ne.symm he)]

theorem addTokens_tf_other (inv : Inv) (cid : String) (toks : List String)
    (tok cid' : String) (h : cid' ≠ cid) :
    tfOf (addTokens inv cid toks) tok cid' = tfOf inv tok cid' := by
  induction toks generalizing inv with
  | nil => rfl
  | cons t ts ih =>
    simp only [addTokens, List.foldl_cons] at *
    rw [ih, bumpTok_tf_other inv t cid tok cid' (Or.inr h)]

theorem addTokens_wf (inv : Inv) (cid : String) (toks : List String)
    (h : InvWF inv) : InvWF (addTokens inv cid toks) := by
  induction toks generalizing inv with
  | nil => exact h
  | cons t ts ih =>
    simp only [addTokens, List.foldl_cons] at *
    exact ih _ (bumpTok_wf _ _ _ h)

-- The three components of the state evolve independently under `addSpan`.

theorem addSpan_fold_files (rel fh : String) (st : BState)
    (spans : List (Nat × Nat × String)) :
    (spans.foldl (addSpan rel fh) st).files = st.files := by
  induction spans generalizing st with
  | nil => rfl
  | cons sp sps ih => simpa [List.foldl_cons, addSpan] using ih _

theorem addSpan_fold_chunks (rel fh : String) (st : BState)
    (spans : List (Nat × Nat × String)) :
    (spans.foldl (addSpan rel fh) st).chunks =
      spans.foldl (fun c sp => dset c (make_chunk_id rel sp.1 sp.2.1 fh)
        ⟨make_chunk_id rel sp.1 sp.2.1 fh, rel, sp.1, sp.2.1, fh⟩) st.chunks := by
  induction spans generalizing st with
  | nil => rfl
  | cons sp sps ih => simpa [List.foldl_cons, addSpan] using ih _

theorem addSpan_fold_valid (rel fh : String) (st : BState)
    (spans : List (Nat × Nat × String)) :
    (spans.foldl (addSpan rel fh) st).valid =
      spans.foldl (fun v sp => dset v (make_chunk_id rel sp.1 sp.2.1 fh) true) st.valid := by
  induction spans generalizing st with
  | nil => rfl
  | cons sp sps ih => simpa [List.foldl_cons, addSpan] using ih _

theorem addSpan_fold_inv (rel fh : String) (st : BState)
    (spans : List (Nat × Nat × String)) :
    (spans.foldl (addSpan rel fh) st).inv =
      spans.foldl (fun iv sp => addTokens iv (make_chunk_id rel sp.1 sp.2.1 fh)
        (tokenize sp.2.2)) st.inv := by
  induction spans generalizing st with
  | nil => rfl
  | cons sp sps ih => simpa [List.foldl_cons, addSpan] using ih _

-- ───────────────────────────── Prune lemmas ─────────────────────────────

theorem pruneCid_cons (q : String × Dict Nat) (t : Inv) (cid : String) :
    pruneCid (q :: t) cid =
      if (ddel q.2 cid).isEmpty then pruneCid t cid
      else (q.1, ddel q.2 cid) :: pruneCid t cid := by
  simp only [pruneCid, List.map_cons, List.filter_cons]
  by_cases he : (ddel q.2 cid).isEmpty <;> simp [he]

theorem pruneCid_keys_sublist (inv : Inv) (cid : String) :
    (dkeys (pruneCid inv cid)).Sublist (dkeys inv) := by
  induction inv with
  | nil => simp [pruneCid]
  | cons q t ih =>
    rw [pruneCid_cons]
    by_cases he : (ddel q.2 cid).isEmpty
    · simp only [he, if_true, dkeys, List.map_cons]
      exact List.Sublist.trans ih (List.sublist_cons_self _ _)
    · simp only [he, Bool.false_eq_true, if_false, dkeys, List.map_cons]
      exact List.Sublist.cons₂ _ ih

theorem pruneCid_wf (inv : Inv) (cid : String) (h : InvWF inv) :
    InvWF (pruneCid inv cid) := by
  obtain ⟨h1, h2⟩ := h
  constructor
  · exact (pruneCid_keys_sublist inv cid).nodup h1
  · intro tok ps hps
    have hm := mem_of_dget_eq_some _ _ _ hps
    unfold pruneCid at hm
    have hm2 := (List.mem_filter.mp hm).1
    simp only [List.mem_map] at hm2
    obtain ⟨q, hq, he⟩ := hm2
    have : ps = ddel q.2 cid := by
      have := congrArg Prod.snd he
      simpa using this.symm
    subst this
    apply dkeys_nodup_ddel
    apply h2 q.1
    apply dget_eq_some_of_mem _ _ _ h1
    have : (q.1, q.2) = q := rfl
    rw [this]
    exact hq

theorem pruneCid_tf_self (inv : Inv) (cid tok : String) :
    tfOf (pruneCid inv cid) tok cid = none := by
  unfold tfOf
  cases hg : dget (pruneCid inv cid) tok with
  | none => rfl
  | some ps =>
    simp only [Option.some_bind]
    have hm := mem_of_dget_eq_some _ _ _ hg
    unfold pruneCid at hm
    have hm2 := (List.mem_filter.mp hm).1
    simp only [List.mem_map] at hm2
    obtain ⟨q, hq, he⟩ := hm2
    have : ps = ddel q.2 cid := by
      have := congrArg Prod.snd he
      simpa using this.symm
    subst this
    exact dget_ddel_self _ _

theorem pruneCid_tf_other (inv : Inv) (cid tok cid' : String)
    (hwf : InvWF inv) (h : cid' ≠ cid) :
    tfOf (pruneCid inv cid) tok cid' = tfOf inv tok cid' := by
  unfold tfOf
  induction inv with
  | nil => simp [pruneCid]
  | cons q t ih =>
    have hwt : InvWF t := by
      obtain ⟨h1, h2⟩ := hwf
      simp only [dkeys, List.map_cons, List.nodup_cons] at h1
      refine ⟨h1.2, fun tok' ps hps => h2 tok' ps ?_⟩
      simp only [dget]
      by_cases hqt : q.1 = tok'
      · exfalso
        apply h1.1
        rw [hqt]
        simp only [dkeys, List.mem_map]
        exact ⟨(tok', ps), mem_of_dget_eq_some _ _ _ hps, rfl⟩
      · simp only [hqt, beq_iff_eq, if_false]
        exact hps
    rw [pruneCid_cons]
    by_cases he : (ddel q.2 cid).isEmpty
    · simp only [he, if_true]
      rw [ih hwt]
      by_cases hqt : q.1 = tok
      · -- the token whose postings became empty: it contained at most `cid`,
        -- so `cid'` was not in it anyway
        have hq2 : ∀ k, dget q.2 k = none ∨ k = cid := by
          intro k
          by_cases hk : k = cid
          · exact Or.inr hk
          · left
            have := dget_ddel_ne q.2 cid k hk
            rw [List.isEmpty_iff] at he
            rw [he] at this
            simpa [dget] using this.symm
        have hnone : dget t tok = none := by
          obtain ⟨h1, _⟩ := hwf
          simp only [dkeys, List.map_cons, List.nodup_cons] at h1
          rw [dget_eq_none_iff_not_mem]
          intro hc
          apply h1.1
          rw [hqt]
          exact hc
        simp only [dget, hqt, beq_iff_eq, if_true, hnone, Option.some_bind]
        rcases hq2 cid' with hn | hcid
        · simp [hn]
        · exact absurd hcid h
      · simp only [dget, hqt, beq_iff_eq, if_false]
    · simp only [he, Bool.false_eq_true, if_false]
      by_cases hqt : q.1 = tok
      · simp only [dget, hqt, beq_iff_eq, if_true, Option.some_bind]
        exact dget_ddel_ne _ _ _ h
      · simp only [dget, hqt, beq_iff_eq, if_false]
        exact ih hwt

theorem pruneStale_cons (p : String × Bool) (v : Dict Bool)
    (c : Dict IndexedChunk) (i : Inv) :
    pruneStale (p :: v) c i =
      if p.2 then pruneStale v c i
      else pruneStale v (ddel c p.1) (pruneCid i p.1) := by
  simp only [pruneStale, List.foldl_cons]
  by_cases hp : p.2 <;> simp [hp]

theorem pruneStale_id (v : Dict Bool) (c : Dict IndexedChunk) (i : Inv)
    (h : ∀ p ∈ v, p.2 = true) : pruneStale v c i = (c, i) := by
  induction v generalizing c i with
  | nil => rfl
  | cons p t ih =>
    rw [pruneStale_cons]
    rw [if_pos (h p (List.mem_cons_self _ _))]
    exact ih c i (fun q hq => h q (List.mem_cons_of_mem _ hq))

theorem pruneStale_chunks_subset (v : Dict Bool) (c : Dict IndexedChunk) (i : Inv)
    (q : String × IndexedChunk) (h : q ∈ (pruneStale v c i).1) : q ∈ c := by
  induction v generalizing c i with
  | nil => exact h
  | cons p t ih =>
    rw [pruneStale_cons] at h
    by_cases hp : p.2
    · rw [if_pos hp] at h
      exact ih c i h
    · rw [if_neg hp] at h
      exact (mem_ddel _ _ _ (ih _ _ h)).1

theorem pruneStale_chunks_nodup (v : Dict Bool) (c : Dict IndexedChunk) (i : Inv)
    (h : (dkeys c).Nodup) : (dkeys (pruneStale v c i).1).Nodup := by
  induction v generalizing c i with
  | nil => exact h
  | cons p t ih =>
    rw [pruneStale_cons]
    by_cases hp : p.2
    · rw [if_pos hp]
      exact ih c i h
    · rw [if_neg hp]
      exact ih _ _ (dkeys_nodup_ddel _ _ h)

theorem pruneStale_inv_wf (v : Dict Bool) (c : Dict IndexedChunk) (i : Inv)
    (h : InvWF i) : InvWF (pruneStale v c i).2 := by
  induction v generalizing c i with
  | nil => exact h
  | cons p t ih =>
    rw [pruneStale_cons]
    by_cases hp : p.2
    · rw [if_pos hp]
      exact ih c i h
    · rw [if_neg hp]
      exact ih _ _ (pruneCid_wf _ _ h)

theorem pruneStale_abs (v : Dict Bool) (c : Dict IndexedChunk) (i : Inv) (cid : String)
    (hwf : InvWF i) (hc : dget c cid = none) (hi : ∀ tok, tfOf i tok cid = none) :
    dget (pruneStale v c i).1 cid = none ∧
    ∀ tok, tfOf (pruneStale v c i).2 tok cid = none := by
  induction v generalizing c i with
  | nil => exact ⟨hc, hi⟩
  | cons p t ih =>
    rw [pruneStale_cons]
    by_cases hp : p.2
    · rw [if_pos hp]
      exact ih c i hwf hc hi
    · rw [if_neg hp]
      apply ih _ _ (pruneCid_wf _ _ hwf) (dget_ddel_none _ _ _ hc)
      intro tok
      by_cases he : cid = p.1
      · rw [he]
        exact pruneCid_tf_self _ _ _
      · rw [pruneCid_tf_other _ _ _ _ hwf he]
        exact hi tok

theorem pruneStale_removes (v : Dict Bool) (c : Dict IndexedChunk) (i : Inv) (cid : String)
    (hwf : InvWF i) (hnd : (dkeys v).Nodup) (hm : (cid, false) ∈ v) :
    dget (pruneStale v c i).1 cid = none ∧
    ∀ tok, tfOf (pruneStale v c i).2 tok cid = none := by
  induction v generalizing c i with
  | nil => simp at hm
  | cons p t ih =>
    simp only [dkeys, List.map_cons, List.nodup_cons] at hnd
    rw [pruneStale_cons]
    rcases List.mem_cons.mp hm with hp | ht
    · rw [← hp]
      simp only [Bool.false_eq_true, if_false]
      apply pruneStale_abs _ _ _ _ (pruneCid_wf _ _ hwf) (dget_ddel_self _ _)
      intro tok
      exact pruneCid_tf_self _ _ _
    · by_cases hp : p.2
      · rw [if_pos hp]
        exact ih c i hwf hnd.2 ht
      · rw [if_neg hp]
        exact ih _ _ (pruneCid_wf _ _ hwf) hnd.2 ht

theorem pruneStale_keeps (v : Dict Bool) (c : Dict IndexedChunk) (i : Inv) (cid : String)
    (hwf : InvWF i) (hall : ∀ b, (cid, b) ∈ v → b = true) :
    dget (pruneStale v c i).1 cid = dget c cid ∧
    ∀ tok, tfOf (pruneStale v c i).2 tok cid = tfOf i tok cid := by
  induction v generalizing c i with
  | nil => exact ⟨rfl, fun _ => rfl⟩
  | cons p t ih =>
    rw [pruneStale_cons]
    by_cases hp : p.2
    · rw [if_pos hp]
      exact ih c i hwf (fun b hb => hall b (List.mem_cons_of_mem _ hb))
    · rw [if_neg hp]
      have hne : cid ≠ p.1 := by
        intro he
        apply hp
        apply hall p.2
        have : (cid, p.2) = p := by
          rw [he]
        rw [this]
        exact List.mem_cons_self _ _
      have hrec := ih (ddel c p.1) (pruneCid i p.1) (pruneCid_wf _ _ hwf)
        (fun b hb => hall b (List.mem_cons_of_mem _ hb))
      refine ⟨?_, fun tok => ?_⟩
      · rw [hrec.1, dget_ddel_ne _ _ _ hne]
      · rw [hrec.2 tok, pruneCid_tf_other _ _ _ _ hwf hne]

-- ─────────────── Generic lemmas about folds of `dset` ───────────────

theorem foldl_dset_get_preserved {α β : Type} (xs : List β) (key : β → String)
    (val : β → α) (d : Dict α) (k : String) (h : ∀ x ∈ xs, key x ≠ k) :
    dget (xs.foldl (fun d x => dset d (key x) (val x)) d) k = dget d k := by
  induction xs generalizing d with
  | nil => rfl
  | cons x t ih =>
    simp only [List.foldl_cons]
    rw [ih _ (fun y hy => h y (List.mem_cons_of_mem _ hy))]
    exact dget_dset_ne _ _ _ _ (Ne.symm (h x (List.mem_cons_self _ _)))

theorem foldl_dset_get_cases {α β : Type} (xs : List β) (key : β → String)
    (val : β → α) (d : Dict α) (k : String) :
    dget (xs.foldl (fun d x => dset d (key x) (val x)) d) k = dget d k ∨
    ∃ x ∈ xs, key x = k ∧
      dget (xs.foldl (fun d x => dset d (key x) (val x)) d) k = some (val x) := by
  induction xs generalizing d with
  | nil => exact Or.inl rfl
  | cons x t ih =>
    simp only [List.foldl_cons]
    rcases ih (dset d (key x) (val x)) with h | ⟨y, hy, hk, hv⟩
    · by_cases he : key x = k
      · right
        refine ⟨x, List.mem_cons_self _ _, he, ?_⟩
        rw [h, ← he, dget_dset_self]
      · left
        rw [h, dget_dset_ne _ _ _ _ (Ne.symm he)]
    · exact Or.inr ⟨y, List.mem_cons_of_mem _ hy, hk, hv⟩

theorem foldl_dset_get_written {α β : Type} (xs : List β) (key : β → String)
    (val : β → α) (d : Dict α) (k : String) (h : ∃ x ∈ xs, key x = k) :
    ∃ x ∈ xs, key x = k ∧
      dget (xs.foldl (fun d x => dset d (key x) (val x)) d) k = some (val x) := by
  induction xs generalizing d with
  | nil => simp at h
  | cons x t ih =>
    simp only [List.foldl_cons]
    by_cases ht : ∃ y ∈ t, key y = k
    · obtain ⟨y, hy, hk, hv⟩ := ih (dset d (key x) (val x)) ht
      exact ⟨y, List.mem_cons_of_mem _ hy, hk, hv⟩
    · obtain ⟨y, hy, hk⟩ := h
      rcases List.mem_cons.mp hy with rfl | hyt
      · refine ⟨y, List.mem_cons_self _ _, hk, ?_⟩
        rw [foldl_dset_get_preserved t key val _ k
          (fun z hz he => ht ⟨z, hz, he⟩)]
        rw [← hk, dget_dset_self]
      · exact absurd ⟨y, hyt, hk⟩ ht

theorem foldl_dset_true_mono {β : Type} (xs : List β) (key : β → String)
    (d : Dict Bool) (k : String) (h : dget d k = some true) :
    dget (xs.foldl (fun d x => dset d (key x) true) d) k = some true := by
  induction xs generalizing d with
  | nil => exact h
  | cons x t ih =>
    simp only [List.foldl_cons]
    apply ih
    by_cases he : key x = k
    · rw [← he, dget_dset_self]
    · rw [dget_dset_ne _ _ _ _ (Ne.symm he)]
      exact h

theorem foldl_dset_nodup {α β : Type} (xs : List β) (key : β → String)
    (val : β → α) (d : Dict α) (h : (dkeys d).Nodup) :
    (dkeys (xs.foldl (fun d x => dset d (key x) (val x)) d)).Nodup := by
  induction xs generalizing d with
  | nil => exact h
  | cons x t ih =>
    simp only [List.foldl_cons]
    exact ih _ (dkeys_nodup_dset _ _ _ h)

theorem foldl_dset_keys_mono {α β : Type} (xs : List β) (key : β → String)
    (val : β → α) (d : Dict α) (k : String) (h : k ∈ dkeys d) :
    k ∈ dkeys (xs.foldl (fun d x => dset d (key x) (val x)) d) := by
  induction xs generalizing d with
  | nil => exact h
  | cons x t ih =>
    simp only [List.foldl_cons]
    apply ih
    rw [dkeys_dset]
    split
    · exact h
    · exact List.mem_append_left _ h

theorem foldl_dset_keys_cases {α β : Type} (xs : List β) (key : β → String)
    (val : β → α) (d : Dict α) (k : String)
    (h : k ∈ dkeys (xs.foldl (fun d x => dset d (key x) (val x)) d)) :
    k ∈ dkeys d ∨ k ∈ xs.map key := by
  induction xs generalizing d with
  | nil => exact Or.inl h
  | cons x t ih =>
    simp only [List.foldl_cons] at h
    rcases ih _ h with h1 | h1
    · rw [dkeys_dset] at h1
      split at h1
      · exact Or.inl h1
      · rcases List.mem_append.mp h1 with h2 | h2
        · exact Or.inl h2
        · simp only [List.mem_singleton] at h2
          right
          rw [h2]
          exact List.mem_map_of_mem _ (List.mem_cons_self _ _)
    · right
      simp only [List.map_cons, List.mem_cons]
      right
      exact h1

-- ─────────────── `processFile` case equations and invariants ───────────────

theorem processFile_unchanged (H : String → String) (maxChars overlap : Nat)
    (st : BState) (f : SFile) (h : some (fhOf H f) = dget st.files f.rel) :
    processFile H maxChars overlap st f =
      { st with valid := markValid st.chunks f.rel st.valid } := by
  unfold processFile
  rw [if_pos h]

theorem processFile_unreadable (H : String → String) (maxChars overlap : Nat)
    (st : BState) (f : SFile) (h : ¬ some (fhOf H f) = dget st.files f.rel)
    (ht : f.text = none) :
    processFile H maxChars overlap st f = st := by
  unfold processFile
  rw [if_neg h, ht]

theorem processFile_changed (H : String → String) (maxChars overlap : Nat)
    (st : BState) (f : SFile) (txt : String)
    (h : ¬ some (fhOf H f) = dget st.files f.rel) (ht : f.text = some txt) :
    processFile H maxChars overlap st f =
      (fun st2 => { st2 with files := dset st2.files f.rel (fhOf H f) })
        ((greedy_line_chunk txt maxChars overlap).foldl (addSpan f.rel (fhOf H f))
          { st with chunks := ddelFile st.chunks f.rel }) := by
  unfold processFile
  rw [if_neg h, ht]

theorem processFile_wf (H : String → String) (maxChars overlap : Nat)
    (st : BState) (f : SFile) (h : BWF st) :
    BWF (processFile H maxChars overlap st f) := by
  obtain ⟨h1, h2, h3, h4⟩ := h
  by_cases hch : some (fhOf H f) = dget st.files f.rel
  · rw [processFile_unchanged _ _ _ _ _ hch]
    exact ⟨h1, h2, markValid_nodup _ _ _ h3, h4⟩
  · cases ht : f.text with
    | none =>
      rw [processFile_unreadable _ _ _ _ _ hch ht]
      exact ⟨h1, h2, h3, h4⟩
    | some txt =>
      rw [processFile_changed _ _ _ _ _ txt hch ht]
      refine ⟨?_, ?_, ?_, ?_⟩
      · apply dkeys_nodup_dset
        rw [addSpan_fold_files]
        exact h1
      · rw [addSpan_fold_chunks]
        exact foldl_dset_nodup _ _ _ _ (ddelFile_nodup _ _ h2)
      · rw [addSpan_fold_valid]
        exact foldl_dset_nodup _ _ _ _ h3
      · rw [addSpan_fold_inv]
        generalize st.inv = iv at h4 ⊢
        induction (greedy_line_chunk txt maxChars overlap) generalizing iv with
        | nil => exact h4
        | cons sp sps ih =>
          simp only [List.foldl_cons]
          exact ih _ (addTokens_wf _ _ _ h4)

theorem runScan_wf (H : String → String) (maxChars overlap : Nat)
    (st : BState) (files : List SFile) (h : BWF st) :
    BWF (runScan H maxChars overlap st files) := by
  induction files generalizing st with
  | nil => exact h
  | cons f t ih =>
    rw [runScan_cons]
    exact ih _ (processFile_wf _ _ _ _ _ h)

theorem processFile_files_other (H : String → String) (maxChars overlap : Nat)
    (st : BState) (f : SFile) (r : String) (h : f.rel ≠ r) :
    dget (processFile H maxChars overlap st f).files r = dget st.files r := by
  by_cases hch : some (fhOf H f) = dget st.files f.rel
  · rw [processFile_unchanged _ _ _ _ _ hch]
  · cases ht : f.text with
    | none => rw [processFile_unreadable _ _ _ _ _ hch ht]
    | some txt =>
      rw [processFile_changed _ _ _ _ _ txt hch ht]
      simp only
      rw [dget_dset_ne _ _ _ _ (Ne.symm h), addSpan_fold_files]

theorem runScan_files_other (H : String → String) (maxChars overlap : Nat)
    (st : BState) (files : List SFile) (r : String)
    (h : ∀ f ∈ files, f.rel ≠ r) :
    dget (runScan H maxChars overlap st files).files r = dget st.files r := by
  induction files generalizing st with
  | nil => rfl
  | cons f t ih =>
    rw [runScan_cons, ih _ (fun g hg => h g (List.mem_cons_of_mem _ hg))]
    exact processFile_files_other _ _ _ _ _ _ (h f (List.mem_cons_self _ _))

theorem processFile_valid_true_mono (H : String → String) (maxChars overlap : Nat)
    (st : BState) (f : SFile) (cid : String)
    (h : dget st.valid cid = some true) :
    dget (processFile H maxChars overlap st f).valid cid = some true := by
  by_cases hch : some (fhOf H f) = dget st.files f.rel
  · rw [processFile_unchanged _ _ _ _ _ hch]
    exact markValid_preserves_true _ _ _ _ h
  · cases ht : f.text with
    | none =>
      rw [processFile_unreadable _ _ _ _ _ hch ht]
      exact h
    | some txt =>
      rw [processFile_changed _ _ _ _ _ txt hch ht]
      simp only
      rw [addSpan_fold_valid]
      exact foldl_dset_true_mono _ _ _ _ h

theorem runScan_valid_true_mono (H : String → String) (maxChars overlap : Nat)
    (st : BState) (files : List SFile) (cid : String)
    (h : dget st.valid cid = some true) :
    dget (runScan H maxChars overlap st files).valid cid = some true := by
  induction files generalizing st with
  | nil => exact h
  | cons f t ih =>
    rw [runScan_cons]
    exact ih _ (processFile_valid_true_mono _ _ _ _ _ _ h)

theorem runScan_files_processed (H : String → String) (maxChars overlap : Nat)
    (st : BState) (files : List SFile) (f : SFile)
    (hnd : (files.map SFile.rel).Nodup) (hf : f ∈ files) (ht : f.text ≠ none) :
    dget (runScan H maxChars overlap st files).files f.rel = some (fhOf H f) := by
  induction files generalizing st with
  | nil => simp at hf
  | cons g t ih =>
    simp only [List.map_cons, List.nodup_cons] at hnd
    rw [runScan_cons]
    rcases List.mem_cons.mp hf with rfl | hft
    · rw [runScan_files_other _ _ _ _ _ _ (fun g2 hg2 he => hnd.1 ?_)]
      · by_cases hch : some (fhOf H f) = dget st.files f.rel
        · rw [processFile_unchanged _ _ _ _ _ hch]
          exact hch.symm
        · cases htx : f.text with
          | none => exact absurd htx ht
          | some txt =>
            rw [processFile_changed _ _ _ _ _ txt hch htx]
            simp only
            exact dget_dset_self _ _ _
      · rw [← he]
        exact List.mem_map_of_mem _ hg2
    · exact ih _ hnd.2 hft

theorem processFile_stale (H : String → String) (maxChars overlap : Nat)
    (st : BState) (f : SFile) (cid : String) (ch : IndexedChunk)
    (hwf : BWF st)
    (hch : dget st.chunks cid = some ch)
    (hval : dget st.valid cid = some false)
    (hrel : f.rel ≠ ch.file)
    (hclash : ∀ s e, cid ≠ make_chunk_id f.rel s e (fhOf H f)) :
    dget (processFile H maxChars overlap st f).chunks cid = some ch ∧
    dget (processFile H maxChars overlap st f).valid cid = some false := by
  obtain ⟨hw1, hw2, hw3, hw4⟩ := hwf
  by_cases hchg : some (fhOf H f) = dget st.files f.rel
  · rw [processFile_unchanged _ _ _ _ _ hchg]
    refine ⟨hch, ?_⟩
    rw [markValid_preserves_other]
    · exact hval
    · intro ch' hm'
      have := dget_eq_some_of_mem _ _ _ hw2 hm'
      rw [hch] at this
      cases this
      exact fun he => hrel he.symm
  · cases ht : f.text with
    | none =>
      rw [processFile_unreadable _ _ _ _ _ hchg ht]
      exact ⟨hch, hval⟩
    | some txt =>
      rw [processFile_changed _ _ _ _ _ txt hchg ht]
      simp only
      constructor
      · rw [addSpan_fold_chunks]
        rw [foldl_dset_get_preserved _ _ _ _ _
          (fun sp hsp he => hclash sp.1 sp.2.1 he.symm)]
        exact ddelFile_get_of_ne _ _ _ _ hw2 hch (fun he => hrel he.symm)
      · rw [addSpan_fold_valid]
        rw [foldl_dset_get_preserved _ _ _ _ _
          (fun sp hsp he => hclash sp.1 sp.2.1 he.symm)]
        exact hval

theorem runScan_stale (H : String → String) (maxChars overlap : Nat)
    (st : BState) (files : List SFile) (cid : String) (ch : IndexedChunk)
    (hwf : BWF st)
    (hch : dget st.chunks cid = some ch)
    (hval : dget st.valid cid = some false)
    (hrel : ∀ f ∈ files, f.rel ≠ ch.file)
    (hclash : ∀ f ∈ files, ∀ s e, cid ≠ make_chunk_id f.rel s e (fhOf H f)) :
    dget (runScan H maxChars overlap st files).chunks cid = some ch ∧
    dget (runScan H maxChars overlap st files).valid cid = some false := by
  induction files generalizing st with
  | nil => exact ⟨hch, hval⟩
  | cons f t ih =>
    rw [runScan_cons]
    have hstep := processFile_stale H maxChars overlap st f cid ch hwf hch hval
      (hrel f (List.mem_cons_self _ _)) (hclash f (List.mem_cons_self _ _))
    exact ih _ (processFile_wf _ _ _ _ _ hwf) hstep.1 hstep.2
      (fun g hg => hrel g (List.mem_cons_of_mem _ hg))
      (fun g hg => hclash g (List.mem_cons_of_mem _ hg))

theorem valid0_get (chunks : Dict IndexedChunk) (cid : String) :
    dget (chunks.map (fun p => (p.1, false))) cid =
      (dget chunks cid).map (fun _ => false) := by
  induction chunks with
  | nil => rfl
  | cons q t ih =>
    simp only [List.map_cons, dget]
    by_cases hq : q.1 = cid <;> simp [hq, ih]

theorem valid0_keys (chunks : Dict IndexedChunk) :
    dkeys (chunks.map (fun p => (p.1, false))) = dkeys chunks := by
  simp [dkeys, List.map_map]

theorem dget_isSome_iff_mem {α : Type} (d : Dict α) (k : String) :
    (dget d k).isSome = true ↔ k ∈ dkeys d :=
  dmem_iff_mem_dkeys d k

theorem foldl_dset_keys_written {α β : Type} (xs : List β) (key : β → String)
    (val : β → α) (d : Dict α) (x : β) (hx : x ∈ xs) :
    key x ∈ dkeys (xs.foldl (fun d x => dset d (key x) (val x)) d) := by
  obtain ⟨y, hy, hk, hv⟩ := foldl_dset_get_written xs key val d (key x) ⟨x, hx, rfl⟩
  rw [← dget_isSome_iff_mem]
  rw [hv]
  rfl

theorem dkeys_mem_head {α : Type} (p : String × α) (t : Dict α)
    (k : String) (h : k ∈ dkeys t) : k ∈ dkeys (p :: t) := by
  simp only [dkeys, List.map_cons, List.mem_cons]
  right
  exact h

theorem markValid_keys_subset (chunks : Dict IndexedChunk) (rel : String)
    (valid : Dict Bool) (k : String)
    (h : k ∈ dkeys (markValid chunks rel valid)) :
    k ∈ dkeys valid ∨ k ∈ dkeys chunks := by
  induction chunks generalizing valid with
  | nil => exact Or.inl h
  | cons p t ih =>
    simp only [markValid, List.foldl_cons] at h
    by_cases hp : p.2.file == rel
    · rw [hp] at h
      simp only [if_true] at h
      rcases ih _ h with h1 | h1
      · rw [dkeys_dset] at h1
        split at h1
        · exact Or.inl h1
        · rcases List.mem_append.mp h1 with h2 | h2
          · exact Or.inl h2
          · simp only [List.mem_singleton] at h2
            right
            rw [h2]
            exact List.mem_map_of_mem _ (List.mem_cons_self _ _)
      · exact Or.inr (dkeys_mem_head _ _ _ h1)
    · simp only [hp, Bool.false_eq_true, if_false] at h
      rcases ih _ h with h1 | h1
      · exact Or.inl h1
      · exact Or.inr (dkeys_mem_head _ _ _ h1)

theorem processFile_keys_sub (H : String → String) (maxChars overlap : Nat)
    (st : BState) (f : SFile)
    (h : ∀ cid, cid ∈ dkeys st.chunks → cid ∈ dkeys st.valid) :
    ∀ cid, cid ∈ dkeys (processFile H maxChars overlap st f).chunks →
      cid ∈ dkeys (processFile H maxChars overlap st f).valid := by
  intro cid hc
  by_cases hch : some (fhOf H f) = dget st.files f.rel
  · rw [processFile_unchanged _ _ _ _ _ hch] at hc ⊢
    exact markValid_keys_mono _ _ _ _ (h cid hc)
  · cases ht : f.text with
    | none =>
      rw [processFile_unreadable _ _ _ _ _ hch ht] at hc ⊢
      exact h cid hc
    | some txt =>
      rw [processFile_changed _ _ _ _ _ txt hch ht] at hc ⊢
      simp only at hc ⊢
      rw [addSpan_fold_chunks] at hc
      rw [addSpan_fold_valid]
      rcases foldl_dset_keys_cases _ _ _ _ _ hc with h1 | h1
      · apply foldl_dset_keys_mono
        apply h
        exact List.Sublist.mem h1 (ddelFile_keys_sublist _ _)
      · simp only [List.mem_map] at h1
        obtain ⟨sp, hsp, hk⟩ := h1
        rw [← hk]
        exact foldl_dset_keys_written _ _ _ _ _ hsp

theorem runScan_keys_sub (H : String → String) (maxChars overlap : Nat)
    (st : BState) (files : List SFile)
    (h : ∀ cid, cid ∈ dkeys st.chunks → cid ∈ dkeys st.valid) :
    ∀ cid, cid ∈ dkeys (runScan H maxChars overlap st files).chunks →
      cid ∈ dkeys (runScan H maxChars overlap st files).valid := by
  induction files generalizing st with
  | nil => exact h
  | cons f t ih =>
    rw [runScan_cons]
    exact ih _ (processFile_keys_sub _ _ _ _ _ h)

theorem addTokensFold_tf_other (spans : List (Nat × Nat × String))
    (key : Nat × Nat × String → String) (iv : Inv) (tok cid : String)
    (h : ∀ sp ∈ spans, key sp ≠ cid) :
    tfOf (spans.foldl (fun iv sp => addTokens iv (key sp) (tokenize sp.2.2)) iv) tok cid
      = tfOf iv tok cid := by
  induction spans generalizing iv with
  | nil => rfl
  | cons sp sps ih =>
    simp only [List.foldl_cons]
    rw [ih _ (fun q hq => h q (List.mem_cons_of_mem _ hq))]
    exact addTokens_tf_other _ _ _ _ _
      (fun he => h sp (List.mem_cons_self _ _) (by rw [he]))

theorem processFile_inv_source (H : String → String) (maxChars overlap : Nat)
    (st : BState) (f : SFile) (tok cid : String) (tf : Nat)
    (h : tfOf (processFile H maxChars overlap st f).inv tok cid = some tf) :
    tfOf st.inv tok cid = some tf ∨
    dget (processFile H maxChars overlap st f).valid cid = some true := by
  by_cases hch : some (fhOf H f) = dget st.files f.rel
  · rw [processFile_unchanged _ _ _ _ _ hch] at h
    exact Or.inl h
  · cases ht : f.text with
    | none =>
      rw [processFile_unreadable _ _ _ _ _ hch ht] at h ⊢
      exact Or.inl h
    | some txt =>
      rw [processFile_changed _ _ _ _ _ txt hch ht] at h ⊢
      simp only at h ⊢
      rw [addSpan_fold_inv] at h
      rw [addSpan_fold_valid]
      by_cases hnew : ∃ sp ∈ greedy_line_chunk txt maxChars overlap,
          make_chunk_id f.rel sp.1 sp.2.1 (fhOf H f) = cid
      · right
        obtain ⟨sp, hsp, hv⟩ := foldl_dset_get_written
          (greedy_line_chunk txt maxChars overlap)
          (fun sp => make_chunk_id f.rel sp.1 sp.2.1 (fhOf H f))
          (fun _ => true) st.valid cid hnew
        exact hv.2
      · left
        rw [addTokensFold_tf_other _ _ _ _ _
          (fun sp hsp he => hnew ⟨sp, hsp, he⟩)] at h
        exact h

theorem runScan_inv_source (H : String → String) (maxChars overlap : Nat)
    (st : BState) (files : List SFile) (tok cid : String) (tf : Nat)
    (h : tfOf (runScan H maxChars overlap st files).inv tok cid = some tf) :
    tfOf st.inv tok cid = some tf ∨
    dget (runScan H maxChars overlap st files).valid cid = some true := by
  induction files generalizing st with
  | nil => exact Or.inl h
  | cons f t ih =>
    rw [runScan_cons] at h ⊢
    rcases ih _ h with h1 | h1
    · rcases processFile_inv_source _ _ _ _ _ _ _ _ h1 with h2 | h2
      · exact Or.inl h2
      · exact Or.inr (runScan_valid_true_mono _ _ _ _ _ _ h2)
    · exact Or.inr h1

/-- Every chunk that ends the scan valid and present is anchored to a scanned
file whose recorded hash matches its current hash. -/
theorem runScan_anchor (H : String → String) (maxChars overlap : Nat)
    (full : List SFile) (rem : List SFile) (st : BState)
    (hsub : ∀ f ∈ rem, f ∈ full)
    (hnd : (rem.map SFile.rel).Nodup)
    (hwf : BWF st)
    (hpre : ∀ cid, dget st.valid cid = some true →
      ∃ ch, dget st.chunks cid = some ch ∧
      ∃ f, f ∈ full ∧ ch.file = f.rel ∧ dget st.files f.rel = some (fhOf H f) ∧
        f.rel ∉ rem.map SFile.rel) :
    ∀ cid, dget (runScan H maxChars overlap st rem).valid cid = some true →
      ∃ ch, dget (runScan H maxChars overlap st rem).chunks cid = some ch ∧
      ∃ f, f ∈ full ∧ ch.file = f.rel ∧
        dget (runScan H maxChars overlap st rem).files f.rel = some (fhOf H f) := by
  induction rem generalizing st with
  | nil =>
    intro cid hv
    obtain ⟨ch, hc, f, hf, hfr, hfg, _⟩ := hpre cid hv
    exact ⟨ch, hc, f, hf, hfr, hfg⟩
  | cons g rest ih =>
    rw [runScan_cons]
    simp only [List.map_cons, List.nodup_cons] at hnd
    apply ih
    · exact fun f hf => hsub f (List.mem_cons_of_mem _ hf)
    · exact hnd.2
    · exact processFile_wf _ _ _ _ _ hwf
    · intro cid hv
      by_cases hch : some (fhOf H g) = dget st.files g.rel
      · rw [processFile_unchanged _ _ _ _ _ hch] at hv ⊢
        simp only at hv ⊢
        rcases markValid_true_source _ _ _ _ hv with h1 | ⟨ch', hm', hf'⟩
        · obtain ⟨ch, hc, f, hf, hfr, hfg, hni⟩ := hpre cid h1
          refine ⟨ch, hc, f, hf, hfr, hfg, ?_⟩
          intro hmem
          apply hni
          exact List.mem_cons_of_mem _ hmem
        · have hgc : dget st.chunks cid = some ch' :=
            dget_eq_some_of_mem _ _ _ hwf.2.1 hm'
          exact ⟨ch', hgc, g, hsub g (List.mem_cons_self _ _), hf', hch.symm, hnd.1⟩
      · cases ht : g.text with
        | none =>
          rw [processFile_unreadable _ _ _ _ _ hch ht] at hv ⊢
          obtain ⟨ch, hc, f, hf, hfr, hfg, hni⟩ := hpre cid hv
          exact ⟨ch, hc, f, hf, hfr, hfg,
            fun hmem => hni (List.mem_cons_of_mem _ hmem)⟩
        | some txt =>
          rw [processFile_changed _ _ _ _ _ txt hch ht] at hv ⊢
          simp only at hv ⊢
          rw [addSpan_fold_valid] at hv
          rw [addSpan_fold_chunks, addSpan_fold_files]
          by_cases hnew : ∃ sp ∈ greedy_line_chunk txt maxChars overlap,
              make_chunk_id g.rel sp.1 sp.2.1 (fhOf H g) = cid
          · obtain ⟨sp, hsp, hk, hvv⟩ := foldl_dset_get_written
              (greedy_line_chunk txt maxChars overlap)
              (fun sp => make_chunk_id g.rel sp.1 sp.2.1 (fhOf H g))
              (fun sp => (⟨make_chunk_id g.rel sp.1 sp.2.1 (fhOf H g), g.rel,
                sp.1, sp.2.1, fhOf H g⟩ : IndexedChunk))
              (ddelFile st.chunks g.rel) cid hnew
            refine ⟨_, hvv, g, hsub g (List.mem_cons_self _ _), rfl,
              ?_, hnd.1⟩
            rw [dget_dset_self]
          · rw [foldl_dset_get_preserved _ _ _ _ _
              (fun sp hsp he => hnew ⟨sp, hsp, he⟩)] at hv
            obtain ⟨ch, hc, f, hf, hfr, hfg, hni⟩ := hpre cid hv
            have hfrel : f.rel ≠ g.rel := by
              intro he
              apply hni
              rw [he]
              exact List.mem_cons_self _ _
            refine ⟨ch, ?_, f, hf, hfr, ?_, fun hmem => hni (List.mem_cons_of_mem _ hmem)⟩
            · rw [foldl_dset_get_preserved _ _ _ _ _
                (fun sp hsp he => hnew ⟨sp, hsp, he⟩)]
              apply ddelFile_get_of_ne _ _ _ _ hwf.2.1 hc
              rw [hfr]
              exact hfrel
            · rw [dget_dset_ne _ _ _ _ hfrel]
              exact hfg

theorem pruneStale_inv_mono (v : Dict Bool) (c : Dict IndexedChunk) (i : Inv)
    (tok cid : String) (tf : Nat) (hwf : InvWF i)
    (h : tfOf (pruneStale v c i).2 tok cid = some tf) :
    tfOf i tok cid = some tf := by
  induction v generalizing c i with
  | nil => exact h
  | cons p t ih =>
    rw [pruneStale_cons] at h
    by_cases hp : p.2
    · rw [if_pos hp] at h
      exact ih c i hwf h
    · rw [if_neg hp] at h
      have := ih _ _ (pruneCid_wf _ _ hwf) h
      by_cases he : cid = p.1
      · rw [he] at this
        rw [pruneCid_tf_self] at this
        exact absurd this (by simp)
      · rw [pruneCid_tf_other _ _ _ _ hwf he] at this
        exact this

theorem processFile_valid_keys_mono (H : String → String) (maxChars overlap : Nat)
    (st : BState) (f : SFile) (cid : String) (h : cid ∈ dkeys st.valid) :
    cid ∈ dkeys (processFile H maxChars overlap st f).valid := by
  by_cases hch : some (fhOf H f) = dget st.files f.rel
  · rw [processFile_unchanged _ _ _ _ _ hch]
    exact markValid_keys_mono _ _ _ _ h
  · cases ht : f.text with
    | none =>
      rw [processFile_unreadable _ _ _ _ _ hch ht]
      exact h
    | some txt =>
      rw [processFile_changed _ _ _ _ _ txt hch ht]
      simp only
      rw [addSpan_fold_valid]
      exact foldl_dset_keys_mono _ _ _ _ _ h

theorem runScan_valid_keys_mono (H : String → String) (maxChars overlap : Nat)
    (st : BState) (files : List SFile) (cid : String) (h : cid ∈ dkeys st.valid) :
    cid ∈ dkeys (runScan H maxChars overlap st files).valid := by
  induction files generalizing st with
  | nil => exact h
  | cons f t ih =>
    rw [runScan_cons]
    exact ih _ (processFile_valid_keys_mono _ _ _ _ _ _ h)

theorem processFile_files_at (H : String → String) (maxChars overlap : Nat)
    (st : BState) (g : SFile) (r : String) (h : g.rel = r → g.text = none) :
    dget (processFile H maxChars overlap st g).files r = dget st.files r := by
  by_cases hch : some (fhOf H g) = dget st.files g.rel
  · rw [processFile_unchanged _ _ _ _ _ hch]
  · cases ht : g.text with
    | none => rw [processFile_unreadable _ _ _ _ _ hch ht]
    | some txt =>
      rw [processFile_changed _ _ _ _ _ txt hch ht]
      simp only
      rw [addSpan_fold_files]
      apply dget_dset_ne
      intro he
      rw [h he.symm] at ht
      exact Option.noConfusion ht

theorem runScan_files_at (H : String → String) (maxChars overlap : Nat)
    (st : BState) (files : List SFile) (r : String)
    (h : ∀ g ∈ files, g.rel = r → g.text = none) :
    dget (runScan H maxChars overlap st files).files r = dget st.files r := by
  induction files generalizing st with
  | nil => rfl
  | cons g t ih =>
    rw [runScan_cons, ih _ (fun g2 hg2 => h g2 (List.mem_cons_of_mem _ hg2))]
    exact processFile_files_at _ _ _ _ _ _ (h g (List.mem_cons_self _ _))

theorem mem_dset_weak {α : Type} (d : Dict α) (k : String) (v : α) (p : String × α)
    (h : p ∈ dset d k v) : p = (k, v) ∨ p ∈ d := by
  induction d with
  | nil =>
    simp only [dset, List.mem_singleton] at h
    exact Or.inl h
  | cons q t ih =>
    by_cases hq : q.1 = k
    · simp only [dset, hq, beq_iff_eq, if_true, List.mem_cons] at h
      rcases h with h | h
      · exact Or.inl h
      · exact Or.inr (List.mem_cons_of_mem _ h)
    · simp only [dset, hq, beq_iff_eq, if_false, List.mem_cons] at h
      rcases h with h | h
      · right
        rw [h]
        exact List.mem_cons_self _ _
      · rcases ih h with h1 | h1
        · exact Or.inl h1
        · exact Or.inr (List.mem_cons_of_mem _ h1)

theorem foldl_dset_mem_cases {α β : Type} (xs : List β) (key : β → String)
    (val : β → α) (d : Dict α) (p : String × α)
    (h : p ∈ xs.foldl (fun d x => dset d (key x) (val x)) d) :
    (∃ x ∈ xs, p = (key x, val x)) ∨ p ∈ d := by
  induction xs generalizing d with
  | nil => exact Or.inr h
  | cons x t ih =>
    simp only [List.foldl_cons] at h
    rcases ih _ h with ⟨y, hy, he⟩ | h1
    · exact Or.inl ⟨y, List.mem_cons_of_mem _ hy, he⟩
    · rcases mem_dset_weak _ _ _ _ h1 with h2 | h2
      · exact Or.inl ⟨x, List.mem_cons_self _ _, h2⟩
      · exact Or.inr h2

theorem foldl_dset_true_all {β : Type} (xs : List β) (key : β → String)
    (d : Dict Bool) (hall : ∀ p ∈ d, p.2 = true) :
    ∀ p ∈ xs.foldl (fun d x => dset d (key x) true) d, p.2 = true := by
  intro p hp
  rcases foldl_dset_mem_cases xs key (fun _ => true) d p hp with ⟨x, hx, he⟩ | h1
  · rw [he]
  · exact hall p h1

theorem foldl_dset_keys_stable {α β : Type} (xs : List β) (key : β → String)
    (val : β → α) (d : Dict α) (h : ∀ x ∈ xs, key x ∈ dkeys d) :
    dkeys (xs.foldl (fun d x => dset d (key x) (val x)) d) = dkeys d := by
  induction xs generalizing d with
  | nil => rfl
  | cons x t ih =>
    simp only [List.foldl_cons]
    have hk : dkeys (dset d (key x) (val x)) = dkeys d := by
      rw [dkeys_dset]
      rw [if_pos]
      rw [dmem_iff_mem_dkeys]
      exact h x (List.mem_cons_self _ _)
    rw [ih _ (fun y hy => ?_), hk]
    rw [hk]
    exact h y (List.mem_cons_of_mem _ hy)

-- ─────────────────────── `buildIndex` unfolding helpers ───────────────────────

/-- The inverted index `build_index` starts from: parsed content if the file
exists and parses, empty otherwise (the parse failure is caught). -/
def loadInv (si : StoredIndex) : Inv :=
  match si with
  | .parsed v => v
  | _ => []

/-- The state of the scan loop at the end of a `build_index` pass started
from manifest `m0` and stored index `si`. -/
def scanState (H : String → String) (maxChars overlap : Nat) (m0 : Manifest)
    (si : StoredIndex) (files : List SFile) : BState :=
  runScan H maxChars overlap
    ⟨m0.files, m0.chunks, m0.chunks.map (fun p => (p.1, false)), loadInv si⟩ files

theorem buildIndex_parsed (H : String → String) (maxChars overlap : Nat)
    (root : String) (files : List SFile) (m0 : Manifest) (si : StoredIndex)
    (now fin : Nat) :
    buildIndex H maxChars overlap root files (.parsed m0) si now fin =
      .ok ({ m0 with
              files := (scanState H maxChars overlap m0 si files).files,
              chunks := (pruneStale (scanState H maxChars overlap m0 si files).valid
                (scanState H maxChars overlap m0 si files).chunks
                (scanState H maxChars overlap m0 si files).inv).1,
              updated_at := fin },
            (pruneStale (scanState H maxChars overlap m0 si files).valid
              (scanState H maxChars overlap m0 si files).chunks
              (scanState H maxChars overlap m0 si files).inv).2) := by
  cases si <;> rfl

/-- Well-formedness carried by the initial scan state of a pass. -/
theorem scanState_wf (H : String → String) (maxChars overlap : Nat)
    (m0 : Manifest) (si : StoredIndex) (files : List SFile)
    (hmf : (dkeys m0.files).Nodup) (hmc : (dkeys m0.chunks).Nodup)
    (hiw : InvWF (loadInv si)) :
    BWF (scanState H maxChars overlap m0 si files) := by
  apply runScan_wf
  refine ⟨hmf, hmc, ?_, hiw⟩
  show (dkeys (m0.chunks.map (fun p => (p.1, false)))).Nodup
  rw [valid0_keys]
  exact hmc

-- ─────────────────────────── Claim C8 ───────────────────────────

/-- **C8.** (corrected) An unparsable persisted Inverted Index is indeed
treated as empty (identical to rebuilding from an absent or empty index),
but an unparsable Manifest is NOT recovered: `load_manifest` has no
`try` around `json.loads`, so `build_index` propagates the parse error. -/
theorem c8_amended :
    (∀ (H : String → String) (maxChars overlap : Nat) (root : String)
        (files : List SFile) (sm : StoredManifest) (now fin : Nat),
      buildIndex H maxChars overlap root files sm .unparsable now fin =
        buildIndex H maxChars overlap root files sm (.parsed []) now fin ∧
      buildIndex H maxChars overlap root files sm .absent now fin =
        buildIndex H maxChars overlap root files sm (.parsed []) now fin)
    ∧ (∀ (H : String → String) (maxChars overlap : Nat) (root : String)
        (files : List SFile) (si : StoredIndex) (now fin : Nat),
      buildIndex H maxChars overlap root files .unparsable si now fin =
        .error .manifestUnparsable) := by
  constructor
  · intro H maxChars overlap root files sm now fin
    cases sm <;> exact ⟨rfl, rfl⟩
  · intro H maxChars overlap root files si now fin
    rfl

/-- **C8 counterexample.** With an unparsable Manifest on disk, `build_index`
raises instead of rebuilding fresh (here with a concrete stand-in for the
hash function; the behaviour does not consult it). -/
theorem c8_counterexample :
    buildIndex (fun s => String.append "#" s) 1200 150 "r" [] .unparsable
      (.parsed []) 0 0 = .error .manifestUnparsable := rfl

-- ─────────────────────────── Claim C6 ───────────────────────────

/-- **C6 counterexample.** A manifest records `gone.txt`, the file no longer
exists (empty scan), yet after the pass its FileEntry is still present in
`files` — the claim says it must have been removed. -/
theorem c6_counterexample :
    buildIndex (fun s => String.append "#" s) 1200 150 "r" []
        (.parsed ⟨"r", 0, 0, [("gone.txt", "h1")], []⟩) (.parsed []) 5 6 =
      .ok (⟨"r", 0, 6, [("gone.txt", "h1")], []⟩, []) := rfl

/-- **C6.** (amended) A FileEntry is replaced whenever the file is scanned,
has a changed hash and is readable, but it is NOT removed when the file
disappears: `build_index` never deletes from `man.files`, so the entry of a
vanished file survives the pass unchanged. -/
theorem c6_amended (H : String → String) (maxChars overlap : Nat) (root : String)
    (files : List SFile) (m0 : Manifest) (si : StoredIndex) (now fin : Nat)
    (m' : Manifest) (inv' : Inv) (r : String)
    (hnd : (files.map SFile.rel).Nodup)
    (hok : buildIndex H maxChars overlap root files (.parsed m0) si now fin =
      .ok (m', inv'))
    (hgone : ∀ f ∈ files, f.rel ≠ r) :
    dget m'.files r = dget m0.files r ∧
    ∀ f ∈ files, f.text ≠ none → dget m'.files f.rel = some (fhOf H f) := by
  rw [buildIndex_parsed] at hok
  simp only [Except.ok.injEq, Prod.mk.injEq] at hok
  obtain ⟨hm, hi⟩ := hok
  have hmf : m'.files = (scanState H maxChars overlap m0 si files).files := by
    rw [← hm]
  constructor
  · rw [hmf]
    exact runScan_files_other _ _ _ _ _ _ hgone
  · intro f hf ht
    rw [hmf]
    exact runScan_files_processed _ _ _ _ _ _ hnd hf ht

theorem c6_amended_witness :
    ((([] : List SFile).map SFile.rel).Nodup ∧
      buildIndex (fun s => String.append "#" s) 1200 150 "r" []
        (.parsed ⟨"r", 0, 0, [("gone.txt", "h1")], []⟩) (.parsed []) 5 6 =
        .ok (⟨"r", 0, 6, [("gone.txt", "h1")], []⟩, []) ∧
      (∀ f ∈ ([] : List SFile), f.rel ≠ "gone.txt")) ∧
    (dget (⟨"r", 0, 6, [("gone.txt", "h1")], []⟩ : Manifest).files "gone.txt" =
        dget (⟨"r", 0, 0, [("gone.txt", "h1")], []⟩ : Manifest).files "gone.txt" ∧
      ∀ f ∈ ([] : List SFile), f.text ≠ none →
        dget (⟨"r", 0, 6, [("gone.txt", "h1")], []⟩ : Manifest).files f.rel =
          some (fhOf (fun s => String.append "#" s) f)) :=
  ⟨⟨by decide, rfl, by decide⟩,
    c6_amended (fun s => String.append "#" s) 1200 150 "r" []
      ⟨"r", 0, 0, [("gone.txt", "h1")], []⟩ (.parsed []) 5 6
      ⟨"r", 0, 6, [("gone.txt", "h1")], []⟩ [] "gone.txt"
      (by decide) rfl (by decide)⟩

-- ─────────────────────────── Claim C7 ───────────────────────────

/-- Stale-chunk preservation allowing unreadable re-scans of the owning file:
a chunk whose file is either not scanned, or scanned unreadable with a
mismatching hash, survives the scan loop unmarked and untouched. -/
theorem runScan_stale2 (H : String → String) (maxChars overlap : Nat)
    (st : BState) (files : List SFile) (cid : String) (ch : IndexedChunk)
    (h0 : Option String)
    (hwf : BWF st)
    (hch : dget st.chunks cid = some ch)
    (hval : dget st.valid cid = some false)
    (hfl : dget st.files ch.file = h0)
    (hg : ∀ g ∈ files, g.rel ≠ ch.file ∨ (g.text = none ∧ some (fhOf H g) ≠ h0))
    (hclash : ∀ g ∈ files, ∀ s e, cid ≠ make_chunk_id g.rel s e (fhOf H g)) :
    dget (runScan H maxChars overlap st files).chunks cid = some ch ∧
    dget (runScan H maxChars overlap st files).valid cid = some false := by
  induction files generalizing st with
  | nil => exact ⟨hch, hval⟩
  | cons g t ih =>
    rw [runScan_cons]
    have hstep : dget (processFile H maxChars overlap st g).chunks cid = some ch ∧
        dget (processFile H maxChars overlap st g).valid cid = some false ∧
        dget (processFile H maxChars overlap st g).files ch.file = h0 := by
      by_cases he : g.rel = ch.file
      · rcases hg g (List.mem_cons_self _ _) with hne | ⟨htn, hhn⟩
        · exact absurd he hne
        · have hchg : ¬ some (fhOf H g) = dget st.files g.rel := by
            rw [he, hfl]
            exact hhn
          rw [processFile_unreadable _ _ _ _ _ hchg htn]
          exact ⟨hch, hval, hfl⟩
      · refine ⟨(processFile_stale H maxChars overlap st g cid ch hwf hch hval he
          (hclash g (List.mem_cons_self _ _))).1,
          (processFile_stale H maxChars overlap st g cid ch hwf hch hval he
          (hclash g (List.mem_cons_self _ _))).2, ?_⟩
        rw [processFile_files_other _ _ _ _ _ _ he]
        exact hfl
    exact ih _ (processFile_wf _ _ _ _ _ hwf) hstep.1 hstep.2.1 hstep.2.2
      (fun g2 hg2 => hg g2 (List.mem_cons_of_mem _ hg2))
      (fun g2 hg2 => hclash g2 (List.mem_cons_of_mem _ hg2))

/-- **C7.** (amended) A file whose text read fails is recovered locally: the
pass completes (witnessed by `hok`) and the file's FileEntry hash is left
untouched.  But its indexed chunks are NOT left untouched: when the recorded
hash differs from the hash obtained this pass (the `""` sentinel on a failed
byte read), the chunk-validity sweep prunes every chunk the file owned, and
their postings, at the end of the pass. -/
theorem c7_amended (H : String → String) (maxChars overlap : Nat) (root : String)
    (files : List SFile) (m0 : Manifest) (si : StoredIndex) (now fin : Nat)
    (m' : Manifest) (inv' : Inv) (f : SFile)
    (hnd : (files.map SFile.rel).Nodup)
    (hmf : (dkeys m0.files).Nodup) (hmc : (dkeys m0.chunks).Nodup)
    (hiw : InvWF (loadInv si))
    (hok : buildIndex H maxChars overlap root files (.parsed m0) si now fin =
      .ok (m', inv'))
    (hf : f ∈ files) (ht : f.text = none) :
    dget m'.files f.rel = dget m0.files f.rel ∧
    (some (fhOf H f) ≠ dget m0.files f.rel →
      ∀ cid ch, dget m0.chunks cid = some ch → ch.file = f.rel →
        (∀ g ∈ files, ∀ s e, cid ≠ make_chunk_id g.rel s e (fhOf H g)) →
        dget m'.chunks cid = none ∧ ∀ tok, tfOf inv' tok cid = none) := by
  rw [buildIndex_parsed] at hok
  simp only [Except.ok.injEq, Prod.mk.injEq] at hok
  obtain ⟨hm, hi⟩ := hok
  have hmfe : m'.files = (scanState H maxChars overlap m0 si files).files := by
    rw [← hm]
  have hmce : m'.chunks =
      (pruneStale (scanState H maxChars overlap m0 si files).valid
        (scanState H maxChars overlap m0 si files).chunks
        (scanState H maxChars overlap m0 si files).inv).1 := by
    rw [← hm]
  have hinj := List.inj_on_of_nodup_map hnd
  constructor
  · rw [hmfe]
    apply runScan_files_at
    intro g hg he
    rw [hinj hg hf he]
    exact ht
  · intro hdiff cid ch hc0 hcf hclash
    have hwf0 : BWF ⟨m0.files, m0.chunks, m0.chunks.map (fun p => (p.1, false)),
        loadInv si⟩ := by
      refine ⟨hmf, hmc, ?_, hiw⟩
      show (dkeys (m0.chunks.map (fun p => (p.1, false)))).Nodup
      rw [valid0_keys]
      exact hmc
    have hstale := runScan_stale2 H maxChars overlap
      ⟨m0.files, m0.chunks, m0.chunks.map (fun p => (p.1, false)), loadInv si⟩
      files cid ch (dget m0.files f.rel) hwf0 hc0
      (by
        show dget (m0.chunks.map (fun p => (p.1, false))) cid = some false
        rw [valid0_get, hc0]
        rfl)
      (by
        show dget m0.files ch.file = dget m0.files f.rel
        rw [hcf])
      (by
        intro g hg
        by_cases he : g.rel = ch.file
        · right
          have hgf : g = f := hinj hg hf (by rw [he, hcf])
          rw [hgf]
          exact ⟨ht, hdiff⟩
        · exact Or.inl he)
      hclash
    have hwf1 := runScan_wf H maxChars overlap _ files hwf0
    have hprune := pruneStale_removes
      (scanState H maxChars overlap m0 si files).valid
      (scanState H maxChars overlap m0 si files).chunks
      (scanState H maxChars overlap m0 si files).inv cid
      hwf1.2.2.2 hwf1.2.2.1
      (mem_of_dget_eq_some _ _ _ hstale.2)
    refine ⟨?_, ?_⟩
    · rw [hmce]
      exact hprune.1
    · intro tok
      rw [← hi]
      exact hprune.2 tok

/-- **C7 counterexample.** `a.txt` was indexed (hash `#x`, one chunk, one
posting); it then becomes unreadable.  The pass completes and keeps the
FileEntry, but the chunk and its posting are gone — not "left untouched". -/
theorem c7_counterexample :
    buildIndex (fun s => String.append "#" s) 1200 150 "r"
        [⟨"a.txt", none, none⟩]
        (.parsed ⟨"r", 0, 0, [("a.txt", "#x")],
          [("#x:1:1", ⟨"#x:1:1", "a.txt", 1, 1, "#x"⟩)]⟩)
        (.parsed [("x", [("#x:1:1", 1)])]) 4 5 =
      .ok (⟨"r", 0, 5, [("a.txt", "#x")], []⟩, []) := rfl

theorem c7_amended_witness :
    (some (fhOf (fun s => String.append "#" s) ⟨"a.txt", none, none⟩) ≠
        dget [("a.txt", "#x")] "a.txt") ∧
    (dget (⟨"r", 0, 5, [("a.txt", "#x")], []⟩ : Manifest).files "a.txt" =
        dget [("a.txt", "#x")] "a.txt" ∧
      dget (⟨"r", 0, 5, [("a.txt", "#x")], []⟩ : Manifest).chunks "#x:1:1" = none ∧
      ∀ tok, tfOf [] tok "#x:1:1" = none) := by
  constructor
  · decide
  · have h := c7_amended (fun s => String.append "#" s) 1200 150 "r"
      [⟨"a.txt", none, none⟩]
      ⟨"r", 0, 0, [("a.txt", "#x")],
        [("#x:1:1", ⟨"#x:1:1", "a.txt", 1, 1, "#x"⟩)]⟩
      (.parsed [("x", [("#x:1:1", 1)])]) 4 5
      ⟨"r", 0, 5, [("a.txt", "#x")], []⟩ [] ⟨"a.txt", none, none⟩
      (by decide) (by decide) (by decide)
      (InvWF_of_entries _ (by decide) (by decide))
      rfl (by decide) rfl
    have h2 := h.2 (by decide) "#x:1:1" ⟨"#x:1:1", "a.txt", 1, 1, "#x"⟩
      (by decide) rfl ?_
    · exact ⟨h.1, h2.1, h2.2⟩
    · intro g hg s e heq
      simp only [List.mem_singleton] at hg
      subst hg
      have hd := congrArg (fun t => t.data.head?) heq
      simp [make_chunk_id, fhOf, String.data_append] at hd

-- ─────────────────────────── Claim C5 ───────────────────────────

/-- **C5 counterexample.** Indexing a file whose only line is `"!"` yields a
manifest chunk `#!:1:1` but an empty inverted index (the chunk text has no
word tokens, so no posting ever references it): the claimed invariant
"every chunk id in `chunks` is referenced by the Inverted Index" fails after
this pass.  (`sha256` is abstracted by the stand-in `"#" ++ ·`; the token
count, and hence the failure, does not depend on it.) -/
theorem c5_counterexample :
    buildIndex (fun s => String.append "#" s) 1200 150 "r"
        [⟨"p.txt", some "!", some "!"⟩] .absent .absent 0 1 =
      .ok (⟨"r", 0, 1, [("p.txt", "#!")],
        [("#!:1:1", ⟨"#!:1:1", "p.txt", 1, 1, "#!"⟩)]⟩, ([] : Inv)) ∧
    dkeys [("#!:1:1", (⟨"#!:1:1", "p.txt", 1, 1, "#!"⟩ : IndexedChunk))] =
      ["#!:1:1"] :=
  ⟨rfl, rfl⟩

/-- **C5.** (amended) After a pass: (a) every chunk owned by a previously
indexed file that no longer appears in the scan is pruned from the Manifest
and from every posting list, provided no scanned file re-derives the same
chunk id; (b) every chunk id the final Inverted Index references is either a
live chunk of the final Manifest, or a leftover posting of the previously
persisted index for an id the Manifest never tracked.  (A manifest chunk
whose text holds no word tokens is referenced by no posting, so the converse
direction of the claimed invariant fails — see the counterexample.) -/
theorem c5_amended (H : String → String) (maxChars overlap : Nat) (root : String)
    (files : List SFile) (m0 : Manifest) (si : StoredIndex) (now fin : Nat)
    (m' : Manifest) (inv' : Inv)
    (hnd : (files.map SFile.rel).Nodup)
    (hmf : (dkeys m0.files).Nodup) (hmc : (dkeys m0.chunks).Nodup)
    (hiw : InvWF (loadInv si))
    (hok : buildIndex H maxChars overlap root files (.parsed m0) si now fin =
      .ok (m', inv')) :
    (∀ r, (∀ f ∈ files, f.rel ≠ r) →
      ∀ cid ch, dget m0.chunks cid = some ch → ch.file = r →
        (∀ g ∈ files, ∀ s e, cid ≠ make_chunk_id g.rel s e (fhOf H g)) →
        dget m'.chunks cid = none ∧ ∀ tok, tfOf inv' tok cid = none)
    ∧ (∀ tok cid tf, tfOf inv' tok cid = some tf →
        cid ∈ dkeys m'.chunks ∨
        (cid ∉ dkeys m0.chunks ∧ tfOf (loadInv si) tok cid = some tf)) := by
  rw [buildIndex_parsed] at hok
  simp only [Except.ok.injEq, Prod.mk.injEq] at hok
  obtain ⟨hm, hi⟩ := hok
  have hmce : m'.chunks =
      (pruneStale (scanState H maxChars overlap m0 si files).valid
        (scanState H maxChars overlap m0 si files).chunks
        (scanState H maxChars overlap m0 si files).inv).1 := by
    rw [← hm]
  have hwf0 : BWF ⟨m0.files, m0.chunks, m0.chunks.map (fun p => (p.1, false)),
      loadInv si⟩ := by
    refine ⟨hmf, hmc, ?_, hiw⟩
    show (dkeys (m0.chunks.map (fun p => (p.1, false)))).Nodup
    rw [valid0_keys]
    exact hmc
  have hwf1 := runScan_wf H maxChars overlap _ files hwf0
  constructor
  · intro r hgone cid ch hc0 hcf hclash
    have hstale := runScan_stale H maxChars overlap
      ⟨m0.files, m0.chunks, m0.chunks.map (fun p => (p.1, false)), loadInv si⟩
      files cid ch hwf0 hc0
      (by
        show dget (m0.chunks.map (fun p => (p.1, false))) cid = some false
        rw [valid0_get, hc0]
        rfl)
      (by
        intro f hf
        rw [hcf]
        exact hgone f hf)
      hclash
    have hprune := pruneStale_removes
      (scanState H maxChars overlap m0 si files).valid
      (scanState H maxChars overlap m0 si files).chunks
      (scanState H maxChars overlap m0 si files).inv cid
      hwf1.2.2.2 hwf1.2.2.1
      (mem_of_dget_eq_some _ _ _ hstale.2)
    refine ⟨?_, ?_⟩
    · rw [hmce]
      exact hprune.1
    · intro tok
      rw [← hi]
      exact hprune.2 tok
  · intro tok cid tf htf
    rw [← hi] at htf
    have h1 : tfOf (scanState H maxChars overlap m0 si files).inv tok cid = some tf :=
      pruneStale_inv_mono _ _ _ _ _ _ hwf1.2.2.2 htf
    cases hv : dget (scanState H maxChars overlap m0 si files).valid cid with
    | none =>
      right
      constructor
      · intro hc
        have hk : cid ∈ dkeys (m0.chunks.map (fun p => (p.1, false))) := by
          rw [valid0_keys]
          exact hc
        have := runScan_valid_keys_mono H maxChars overlap
          ⟨m0.files, m0.chunks, m0.chunks.map (fun p => (p.1, false)), loadInv si⟩
          files cid hk
        rw [dget_eq_none_iff_not_mem] at hv
        exact hv this
      · have h1' : tfOf (runScan H maxChars overlap
            ⟨m0.files, m0.chunks, m0.chunks.map (fun p => (p.1, false)), loadInv si⟩
            files).inv tok cid = some tf := h1
        have hv' : dget (runScan H maxChars overlap
            ⟨m0.files, m0.chunks, m0.chunks.map (fun p => (p.1, false)), loadInv si⟩
            files).valid cid = none := hv
        rcases runScan_inv_source H maxChars overlap
          ⟨m0.files, m0.chunks, m0.chunks.map (fun p => (p.1, false)), loadInv si⟩
          files tok cid tf h1' with h2 | h2
        · exact h2
        · rw [hv'] at h2
          exact Option.noConfusion h2
    | some b =>
      cases b with
      | false =>
        exfalso
        have hprune := pruneStale_removes
          (scanState H maxChars overlap m0 si files).valid
          (scanState H maxChars overlap m0 si files).chunks
          (scanState H maxChars overlap m0 si files).inv cid
          hwf1.2.2.2 hwf1.2.2.1 (mem_of_dget_eq_some _ _ _ hv)
        rw [hprune.2 tok] at htf
        exact Option.noConfusion htf
      | true =>
        left
        have hv' : dget (runScan H maxChars overlap
            ⟨m0.files, m0.chunks, m0.chunks.map (fun p => (p.1, false)), loadInv si⟩
            files).valid cid = some true := hv
        have hanchor := runScan_anchor H maxChars overlap files files
          ⟨m0.files, m0.chunks, m0.chunks.map (fun p => (p.1, false)), loadInv si⟩
          (fun f hf => hf) hnd hwf0
          (by
            intro cid2 hv2
            exfalso
            have : dget (m0.chunks.map (fun p => (p.1, false))) cid2 = some true := hv2
            rw [valid0_get] at this
            cases hg : dget m0.chunks cid2 with
            | none =>
              rw [hg] at this
              exact Option.noConfusion this
            | some ch2 =>
              rw [hg] at this
              simp at this)
          cid hv'
        obtain ⟨ch, hcg0, _⟩ := hanchor
        have hcg : dget (scanState H maxChars overlap m0 si files).chunks cid =
            some ch := hcg0
        have hkeep := pruneStale_keeps
          (scanState H maxChars overlap m0 si files).valid
          (scanState H maxChars overlap m0 si files).chunks
          (scanState H maxChars overlap m0 si files).inv cid
          hwf1.2.2.2
          (by
            intro b' hb'
            have hsome := dget_eq_some_of_mem _ _ _ hwf1.2.2.1 hb'
            rw [hv'] at hsome
            cases hsome
            rfl)
        rw [hmce, ← dget_isSome_iff_mem]
        rw [hkeep.1, hcg]
        rfl

theorem c5_amended_witness :
    ((([⟨"a.txt", none, none⟩] : List SFile).map SFile.rel).Nodup ∧
      ∀ f ∈ ([] : List SFile), True) ∧
    ((∀ r, (∀ f ∈ ([] : List SFile), f.rel ≠ r) →
      ∀ cid ch,
        dget [("#x:1:1", (⟨"#x:1:1", "a.txt", 1, 1, "#x"⟩ : IndexedChunk))] cid =
          some ch → ch.file = r →
        (∀ g ∈ ([] : List SFile), ∀ s e,
          cid ≠ make_chunk_id g.rel s e (fhOf (fun s => String.append "#" s) g)) →
        dget (⟨"r", 0, 5, [("a.txt", "#x")], []⟩ : Manifest).chunks cid = none ∧
        ∀ tok, tfOf ([] : Inv) tok cid = none)
    ∧ (∀ tok cid tf, tfOf ([] : Inv) tok cid = some tf →
        cid ∈ dkeys (⟨"r", 0, 5, [("a.txt", "#x")], []⟩ : Manifest).chunks ∨
        (cid ∉ dkeys [("#x:1:1", (⟨"#x:1:1", "a.txt", 1, 1, "#x"⟩ : IndexedChunk))] ∧
          tfOf (loadInv (.parsed [("x", [("#x:1:1", 1)])])) tok cid = some tf))) :=
  ⟨⟨by decide, by simp⟩,
    c5_amended (fun s => String.append "#" s) 1200 150 "r" []
      ⟨"r", 0, 0, [("a.txt", "#x")],
        [("#x:1:1", ⟨"#x:1:1", "a.txt", 1, 1, "#x"⟩)]⟩
      (.parsed [("x", [("#x:1:1", 1)])]) 4 5
      ⟨"r", 0, 5, [("a.txt", "#x")], []⟩ []
      (by decide) (by decide) (by decide)
      (InvWF_of_entries _ (by decide) (by decide)) rfl⟩

-- ─────────────────────────── Claim C10 ───────────────────────────

/-- Number of occurrences of `tok` contributed to chunk `cid` by the spans
of one file. -/
def spanCount (spans : List (Nat × Nat × String))
    (key : Nat × Nat × String → String) (tok cid : String) : Nat :=
  (spans.map (fun sp => if key sp == cid then (tokenize sp.2.2).count tok else 0)).sum

theorem invFold_count (spans : List (Nat × Nat × String))
    (key : Nat × Nat × String → String) (iv : Inv) (tok cid : String) :
    tfOf (spans.foldl (fun iv sp => addTokens iv (key sp) (tokenize sp.2.2)) iv) tok cid =
      if spanCount spans key tok cid = 0 then tfOf iv tok cid
      else some ((tfOf iv tok cid).getD 0 + spanCount spans key tok cid) := by
  induction spans generalizing iv with
  | nil => simp [spanCount]
  | cons sp sps ih =>
    simp only [List.foldl_cons]
    rw [ih]
    have hsc : spanCount (sp :: sps) key tok cid =
        (if key sp == cid then (tokenize sp.2.2).count tok else 0) +
          spanCount sps key tok cid := by
      simp [spanCount]
    by_cases hk : key sp = cid
    · have haddt := addTokens_tf_self iv (key sp) (tokenize sp.2.2) tok
      rw [hk] at haddt
      rw [hk, haddt, hsc]
      have hbeq : (key sp == cid) = true := by simp [hk]
      rw [hbeq]
      simp only [if_true]
      by_cases hc : (tokenize sp.2.2).count tok = 0
      · rw [if_pos hc, hc]
        simp
      · rw [if_neg hc]
        by_cases hs : spanCount sps key tok cid = 0
        · rw [hs]
          simp [hc]
        · rw [if_neg hs, if_neg (by omega)]
          simp only [Option.getD_some, Option.some.injEq]
          omega
    · rw [addTokens_tf_other iv (key sp) (tokenize sp.2.2) tok cid (Ne.symm hk)]
      rw [hsc]
      have hbeq : (key sp == cid) = false := by simp [hk]
      rw [hbeq]
      simp only [Bool.false_eq_true, if_false, Nat.zero_add]

/-- **C10.** (confirmed) When two distinct files with byte-identical contents
are indexed in the same build, their chunks collide on identical chunk ids
(ids depend only on the content hash and line span).  Compared with indexing
the first file alone: the Manifest holds the same chunk-id keys, every
surviving chunk entry names the last-processed file, and the Inverted Index
holds exactly twice each term frequency — both files' occurrences accumulated
under the one id. -/
theorem c10_duplicate_content (H : String → String) (maxChars overlap : Nat)
    (root : String) (a b : SFile) (raw txt : String) (now fin : Nat)
    (m2 : Manifest) (i2 : Inv) (m1 : Manifest) (i1 : Inv)
    (hrel : a.rel ≠ b.rel)
    (hara : a.raw = some raw) (hbra : b.raw = some raw)
    (hat : a.text = some txt) (hbt : b.text = some txt)
    (hok2 : buildIndex H maxChars overlap root [a, b] .absent .absent now fin =
      .ok (m2, i2))
    (hok1 : buildIndex H maxChars overlap root [a] .absent .absent now fin =
      .ok (m1, i1)) :
    dkeys m2.chunks = dkeys m1.chunks ∧
    (∀ cid ch, dget m2.chunks cid = some ch → ch.file = b.rel) ∧
    (∀ tok cid, tfOf i2 tok cid = (tfOf i1 tok cid).map (fun n => 2 * n)) := by
  have hfa : fhOf H a = H raw := by rw [fhOf, hara]
  have hfb : fhOf H b = H raw := by rw [fhOf, hbra]
  -- the common ingredients
  set fh := H raw with hfh
  set spans := greedy_line_chunk txt maxChars overlap with hspans
  set key := fun sp : Nat × Nat × String => make_chunk_id a.rel sp.1 sp.2.1 fh with hkey
  have hkeyb : ∀ sp : Nat × Nat × String,
      make_chunk_id b.rel sp.1 sp.2.1 fh = key sp := fun sp => rfl
  set Ca := spans.foldl (fun c sp => dset c (key sp)
    (⟨key sp, a.rel, sp.1, sp.2.1, fh⟩ : IndexedChunk)) [] with hCa
  set Va := spans.foldl (fun v sp => dset v (key sp) true) [] with hVa
  set Ia := spans.foldl (fun iv sp => addTokens iv (key sp) (tokenize sp.2.2)) [] with hIa
  -- step 1: the state after processing `a` from the fresh empty state
  have hchga : ¬ some (fhOf H a) = dget ([] : Dict String) a.rel := by
    rw [show dget ([] : Dict String) a.rel = none from rfl]
    simp
  have hsta := processFile_changed H maxChars overlap ⟨[], [], [], []⟩ a txt hchga hat
  have hstaf : (processFile H maxChars overlap ⟨[], [], [], []⟩ a).files =
      [(a.rel, fh)] := by
    rw [hsta]
    simp only
    rw [addSpan_fold_files]
    rw [hfa]
    try rfl
  have hstac : (processFile H maxChars overlap ⟨[], [], [], []⟩ a).chunks = Ca := by
    rw [hsta]
    simp only
    rw [addSpan_fold_chunks]
    rw [hfa]
    try rfl
  have hstav : (processFile H maxChars overlap ⟨[], [], [], []⟩ a).valid = Va := by
    rw [hsta]
    simp only
    rw [addSpan_fold_valid]
    rw [hfa]
    try rfl
  have hstai : (processFile H maxChars overlap ⟨[], [], [], []⟩ a).inv = Ia := by
    rw [hsta]
    simp only
    rw [addSpan_fold_inv]
    rw [hfa]
    try rfl
  -- the chunk values written while processing `b`
  set Cb := spans.foldl (fun c sp => dset c (key sp)
    (⟨key sp, b.rel, sp.1, sp.2.1, fh⟩ : IndexedChunk)) Ca with hCb
  set Ib := spans.foldl (fun iv sp => addTokens iv (key sp) (tokenize sp.2.2)) Ia with hIb
  -- deleting `b`'s old chunks touches nothing: all of `Ca` belongs to `a`
  have hdd : ddelFile Ca b.rel = Ca := by
    unfold ddelFile
    apply List.filter_eq_self.mpr
    intro p hp
    rcases foldl_dset_mem_cases spans key
      (fun sp => (⟨key sp, a.rel, sp.1, sp.2.1, fh⟩ : IndexedChunk)) [] p hp with
      ⟨sp, hsp, he⟩ | h0
    · rw [he]
      simpa using hrel
    · simp at h0
  -- step 2: processing `b` on top of the state after `a`
  have hchgb : ¬ some (fhOf H b) =
      dget (processFile H maxChars overlap ⟨[], [], [], []⟩ a).files b.rel := by
    rw [hstaf]
    have hn : dget [(a.rel, fh)] b.rel = none := by
      simp [dget, hrel]
    rw [hn]
    simp
  have hstb := processFile_changed H maxChars overlap
    (processFile H maxChars overlap ⟨[], [], [], []⟩ a) b txt hchgb hbt
  have hstbc : (processFile H maxChars overlap
      (processFile H maxChars overlap ⟨[], [], [], []⟩ a) b).chunks = Cb := by
    rw [hstb]
    simp only
    rw [addSpan_fold_chunks]
    rw [hfb, hstac, hdd]
    try rfl
  have hstbi : (processFile H maxChars overlap
      (processFile H maxChars overlap ⟨[], [], [], []⟩ a) b).inv = Ib := by
    rw [hstb]
    simp only
    rw [addSpan_fold_inv]
    rw [hfb, hstai]
    try rfl
  have hstbv : (processFile H maxChars overlap
      (processFile H maxChars overlap ⟨[], [], [], []⟩ a) b).valid =
      spans.foldl (fun v sp => dset v (key sp) true) Va := by
    rw [hstb]
    simp only
    rw [addSpan_fold_valid]
    rw [hfb, hstav]
    try rfl
  -- every validity entry of either pass is `true`, so the prune is a no-op
  have hva : ∀ p ∈ Va, p.2 = true := by
    apply foldl_dset_true_all
    intro p hp
    simp at hp
  have hvb : ∀ p ∈ spans.foldl (fun v sp => dset v (key sp) true) Va, p.2 = true :=
    foldl_dset_true_all spans key Va hva
  -- extract the two results
  rw [show buildIndex H maxChars overlap root [a] .absent .absent now fin =
      .ok ({ root := root, created_at := now, updated_at := fin,
             files := (runScan H maxChars overlap ⟨[], [], [], []⟩ [a]).files,
             chunks := (pruneStale (runScan H maxChars overlap ⟨[], [], [], []⟩ [a]).valid
               (runScan H maxChars overlap ⟨[], [], [], []⟩ [a]).chunks
               (runScan H maxChars overlap ⟨[], [], [], []⟩ [a]).inv).1 },
        (pruneStale (runScan H maxChars overlap ⟨[], [], [], []⟩ [a]).valid
          (runScan H maxChars overlap ⟨[], [], [], []⟩ [a]).chunks
          (runScan H maxChars overlap ⟨[], [], [], []⟩ [a]).inv).2) from rfl] at hok1
  rw [show buildIndex H maxChars overlap root [a, b] .absent .absent now fin =
      .ok ({ root := root, created_at := now, updated_at := fin,
             files := (runScan H maxChars overlap ⟨[], [], [], []⟩ [a, b]).files,
             chunks := (pruneStale (runScan H maxChars overlap ⟨[], [], [], []⟩ [a, b]).valid
               (runScan H maxChars overlap ⟨[], [], [], []⟩ [a, b]).chunks
               (runScan H maxChars overlap ⟨[], [], [], []⟩ [a, b]).inv).1 },
        (pruneStale (runScan H maxChars overlap ⟨[], [], [], []⟩ [a, b]).valid
          (runScan H maxChars overlap ⟨[], [], [], []⟩ [a, b]).chunks
          (runScan H maxChars overlap ⟨[], [], [], []⟩ [a, b]).inv).2) from rfl] at hok2
  have hr1 : runScan H maxChars overlap ⟨[], [], [], []⟩ [a] =
      processFile H maxChars overlap ⟨[], [], [], []⟩ a := rfl
  have hr2 : runScan H maxChars overlap ⟨[], [], [], []⟩ [a, b] =
      processFile H maxChars overlap
        (processFile H maxChars overlap ⟨[], [], [], []⟩ a) b := rfl
  rw [hr1, hstav, hstac, hstai, pruneStale_id _ _ _ hva] at hok1
  rw [hr2, hstbv, hstbc, hstbi, pruneStale_id _ _ _ hvb] at hok2
  simp only [Except.ok.injEq, Prod.mk.injEq] at hok1 hok2
  have hm1c : m1.chunks = Ca := by
    rw [← hok1.1]
    try rfl
  have hi1e : i1 = Ia := hok1.2.symm
  have hm2c : m2.chunks = Cb := by
    rw [← hok2.1]
    try rfl
  have hi2e : i2 = Ib := hok2.2.symm
  -- the three conclusions
  have hwritten : ∀ sp ∈ spans, key sp ∈ dkeys Ca := by
    intro sp hsp
    exact foldl_dset_keys_written spans key
      (fun sp => (⟨key sp, a.rel, sp.1, sp.2.1, fh⟩ : IndexedChunk)) [] sp hsp
  refine ⟨?_, ?_, ?_⟩
  · rw [hm2c, hm1c, hCb]
    exact foldl_dset_keys_stable spans key _ Ca hwritten
  · intro cid ch hget
    rw [hm2c] at hget
    have hkmem : cid ∈ dkeys Cb := by
      rw [← dget_isSome_iff_mem, hget]
      rfl
    have hkCa : cid ∈ dkeys Ca := by
      rw [hCb] at hkmem
      rw [foldl_dset_keys_stable spans key _ Ca hwritten] at hkmem
      exact hkmem
    have hx : ∃ sp ∈ spans, key sp = cid := by
      rcases foldl_dset_keys_cases spans key
        (fun sp => (⟨key sp, a.rel, sp.1, sp.2.1, fh⟩ : IndexedChunk)) [] cid hkCa with
        h0 | h0
      · simp [dkeys] at h0
      · simp only [List.mem_map] at h0
        obtain ⟨sp, hsp, he⟩ := h0
        exact ⟨sp, hsp, he⟩
    obtain ⟨sp, hsp, hke, hv⟩ := foldl_dset_get_written spans key
      (fun sp => (⟨key sp, b.rel, sp.1, sp.2.1, fh⟩ : IndexedChunk)) Ca cid hx
    rw [hget] at hv
    cases hv
    rfl
  · intro tok cid
    have hIav : tfOf Ia tok cid =
        if spanCount spans key tok cid = 0 then none
        else some (spanCount spans key tok cid) := by
      rw [hIa, invFold_count spans key [] tok cid]
      have hnil : tfOf ([] : Inv) tok cid = none := rfl
      by_cases hS : spanCount spans key tok cid = 0
      · rw [if_pos hS, if_pos hS, hnil]
      · rw [if_neg hS, if_neg hS, hnil]
        simp
    rw [hi2e, hi1e, hIb]
    rw [invFold_count spans key Ia tok cid]
    by_cases hS : spanCount spans key tok cid = 0
    · rw [if_pos hS, hIav, if_pos hS]
      rfl
    · rw [if_neg hS, hIav, if_neg hS]
      simp only [Option.getD_some, Option.map_some', Option.some.injEq]
      omega

theorem c10_duplicate_content_witness :
    (("a.txt" : String) ≠ "b.txt") ∧
    (dkeys (⟨"r", 0, 1, [("a.txt", "#foo bar\nfoo"), ("b.txt", "#foo bar\nfoo")],
        [("#foo bar\nfoo:1:2",
          ⟨"#foo bar\nfoo:1:2", "b.txt", 1, 2, "#foo bar\nfoo"⟩)]⟩ : Manifest).chunks =
      dkeys (⟨"r", 0, 1, [("a.txt", "#foo bar\nfoo")],
        [("#foo bar\nfoo:1:2",
          ⟨"#foo bar\nfoo:1:2", "a.txt", 1, 2, "#foo bar\nfoo"⟩)]⟩ : Manifest).chunks ∧
    (∀ cid ch, dget (⟨"r", 0, 1,
        [("a.txt", "#foo bar\nfoo"), ("b.txt", "#foo bar\nfoo")],
        [("#foo bar\nfoo:1:2",
          ⟨"#foo bar\nfoo:1:2", "b.txt", 1, 2, "#foo bar\nfoo"⟩)]⟩ : Manifest).chunks
        cid = some ch → ch.file = "b.txt") ∧
    (∀ tok cid,
      tfOf [("foo", [("#foo bar\nfoo:1:2", 4)]), ("bar", [("#foo bar\nfoo:1:2", 2)])]
          tok cid =
        (tfOf [("foo", [("#foo bar\nfoo:1:2", 2)]), ("bar", [("#foo bar\nfoo:1:2", 1)])]
          tok cid).map (fun n => 2 * n))) :=
  ⟨by decide,
    c10_duplicate_content (fun s => String.append "#" s) 1200 150 "r"
      ⟨"a.txt", some "foo bar\nfoo", some "foo bar\nfoo"⟩
      ⟨"b.txt", some "foo bar\nfoo", some "foo bar\nfoo"⟩
      "foo bar\nfoo" "foo bar\nfoo" 0 1
      ⟨"r", 0, 1, [("a.txt", "#foo bar\nfoo"), ("b.txt", "#foo bar\nfoo")],
        [("#foo bar\nfoo:1:2",
          ⟨"#foo bar\nfoo:1:2", "b.txt", 1, 2, "#foo bar\nfoo"⟩)]⟩
      [("foo", [("#foo bar\nfoo:1:2", 4)]), ("bar", [("#foo bar\nfoo:1:2", 2)])]
      ⟨"r", 0, 1, [("a.txt", "#foo bar\nfoo")],
        [("#foo bar\nfoo:1:2",
          ⟨"#foo bar\nfoo:1:2", "a.txt", 1, 2, "#foo bar\nfoo"⟩)]⟩
      [("foo", [("#foo bar\nfoo:1:2", 2)]), ("bar", [("#foo bar\nfoo:1:2", 1)])]
      (by decide) rfl rfl rfl rfl rfl rfl⟩

-- ─────────────────────────── Claim C4 ───────────────────────────

theorem exists_mem_of_mem_dkeys {α : Type} (d : Dict α) (k : String)
    (h : k ∈ dkeys d) : ∃ v, (k, v) ∈ d := by
  simp only [dkeys, List.mem_map] at h
  obtain ⟨p, hp, he⟩ := h
  exact ⟨p.2, by rw [← he]; exact hp⟩

/-- A file that is up to date (or unreadable) leaves everything but the
validity marks unchanged. -/
theorem processFile_id_step (H : String → String) (maxChars overlap : Nat)
    (st : BState) (g : SFile)
    (h : dget st.files g.rel = some (fhOf H g) ∨ g.text = none) :
    (processFile H maxChars overlap st g).files = st.files ∧
    (processFile H maxChars overlap st g).chunks = st.chunks ∧
    (processFile H maxChars overlap st g).inv = st.inv := by
  by_cases hch : some (fhOf H g) = dget st.files g.rel
  · rw [processFile_unchanged _ _ _ _ _ hch]
    exact ⟨rfl, rfl, rfl⟩
  · cases ht : g.text with
    | none =>
      rw [processFile_unreadable _ _ _ _ _ hch ht]
      exact ⟨rfl, rfl, rfl⟩
    | some txt =>
      rcases h with h | h
      · exact absurd h.symm hch
      · rw [ht] at h
        exact Option.noConfusion h

theorem runScan_id (H : String → String) (maxChars overlap : Nat)
    (st : BState) (files : List SFile)
    (h : ∀ g ∈ files, dget st.files g.rel = some (fhOf H g) ∨ g.text = none) :
    (runScan H maxChars overlap st files).files = st.files ∧
    (runScan H maxChars overlap st files).chunks = st.chunks ∧
    (runScan H maxChars overlap st files).inv = st.inv := by
  induction files generalizing st with
  | nil => exact ⟨rfl, rfl, rfl⟩
  | cons g t ih =>
    rw [runScan_cons]
    have hstep := processFile_id_step H maxChars overlap st g
      (h g (List.mem_cons_self _ _))
    have hrest := ih (processFile H maxChars overlap st g)
      (fun g2 hg2 => by
        rw [hstep.1]
        exact h g2 (List.mem_cons_of_mem _ hg2))
    exact ⟨hrest.1.trans hstep.1, hrest.2.1.trans hstep.2.1,
      hrest.2.2.trans hstep.2.2⟩

/-- In an up-to-date pass, a chunk of an anchored file gets marked valid. -/
theorem runScan_marks (H : String → String) (maxChars overlap : Nat)
    (st : BState) (files : List SFile) (cid : String) (ch : IndexedChunk)
    (f : SFile)
    (hid : ∀ g ∈ files, dget st.files g.rel = some (fhOf H g) ∨ g.text = none)
    (hm : (cid, ch) ∈ st.chunks) (hf : f ∈ files) (hrel : ch.file = f.rel)
    (hhash : dget st.files f.rel = some (fhOf H f)) :
    dget (runScan H maxChars overlap st files).valid cid = some true := by
  induction files generalizing st with
  | nil => simp at hf
  | cons g t ih =>
    rw [runScan_cons]
    by_cases hfg : f = g
    · have hch : some (fhOf H g) = dget st.files g.rel := by
        rw [← hfg, hhash, hfg]
      rw [processFile_unchanged _ _ _ _ _ hch]
      apply runScan_valid_true_mono
      exact markValid_marks _ _ _ _ ch hm (by rw [hrel, hfg])
    · have hft : f ∈ t := by
        rcases List.mem_cons.mp hf with he | ht2
        · exact absurd he hfg
        · exact ht2
      have hstep := processFile_id_step H maxChars overlap st g
        (hid g (List.mem_cons_self _ _))
      apply ih (processFile H maxChars overlap st g)
      · intro g2 hg2
        rw [hstep.1]
        exact hid g2 (List.mem_cons_of_mem _ hg2)
      · rw [hstep.2.1]
        exact hm
      · exact hft
      · rw [hstep.1]
        exact hhash

theorem runScan_id_valid_keys (H : String → String) (maxChars overlap : Nat)
    (st : BState) (files : List SFile)
    (hid : ∀ g ∈ files, dget st.files g.rel = some (fhOf H g) ∨ g.text = none) :
    ∀ k ∈ dkeys (runScan H maxChars overlap st files).valid,
      k ∈ dkeys st.valid ∨ k ∈ dkeys st.chunks := by
  induction files generalizing st with
  | nil => exact fun k hk => Or.inl hk
  | cons g t ih =>
    intro k hk
    rw [runScan_cons] at hk
    have hstep := processFile_id_step H maxChars overlap st g
      (hid g (List.mem_cons_self _ _))
    rcases ih (processFile H maxChars overlap st g)
      (fun g2 hg2 => by
        rw [hstep.1]
        exact hid g2 (List.mem_cons_of_mem _ hg2)) k hk with h1 | h1
    · -- the mark step of `g`
      by_cases hch : some (fhOf H g) = dget st.files g.rel
      · rw [processFile_unchanged _ _ _ _ _ hch] at h1
        rcases markValid_keys_subset _ _ _ _ h1 with h2 | h2
        · exact Or.inl h2
        · exact Or.inr h2
      · cases ht : g.text with
        | none =>
          rw [processFile_unreadable _ _ _ _ _ hch ht] at h1
          exact Or.inl h1
        | some txt =>
          rcases hid g (List.mem_cons_self _ _) with h2 | h2
          · exact absurd h2.symm hch
          · rw [ht] at h2
            exact Option.noConfusion h2
    · rw [hstep.2.1] at h1
      exact Or.inr h1

/-- **C4.** (confirmed) Idempotence of `build_index`: rebuilding over the
same file listing with unchanged contents, starting from the manifest and
inverted index produced by the first pass, returns that same manifest
(only `updated_at` moves to the new timestamp) and the byte-identical
inverted index — in particular every chunk id of the first pass survives
the second pass unchanged. -/
theorem c4_idempotent (H : String → String) (maxChars overlap : Nat)
    (root : String) (files : List SFile) (sm : StoredManifest)
    (si : StoredIndex) (now1 fin1 now2 fin2 : Nat) (m1 : Manifest) (i1 : Inv)
    (hnd : (files.map SFile.rel).Nodup)
    (hswf : ∀ m0, sm = .parsed m0 →
      (dkeys m0.files).Nodup ∧ (dkeys m0.chunks).Nodup)
    (hiw : InvWF (loadInv si))
    (h1 : buildIndex H maxChars overlap root files sm si now1 fin1 = .ok (m1, i1)) :
    buildIndex H maxChars overlap root files (.parsed m1) (.parsed i1) now2 fin2 =
      .ok ({ m1 with updated_at := fin2 }, i1) := by
  -- reduce the three stored-manifest cases to a parsed manifest with
  -- well-formed key sets
  obtain ⟨m0, hwf0f, hwf0c, h1'⟩ :
      ∃ m0, (dkeys m0.files).Nodup ∧ (dkeys m0.chunks).Nodup ∧
        buildIndex H maxChars overlap root files (.parsed m0) si now1 fin1 =
          .ok (m1, i1) := by
    cases sm with
    | absent =>
      refine ⟨⟨root, now1, now1, [], []⟩, List.nodup_nil, List.nodup_nil, ?_⟩
      exact h1
    | unparsable =>
      rw [show buildIndex H maxChars overlap root files .unparsable si now1 fin1 =
          Except.error BuildErr.manifestUnparsable from rfl] at h1
      exact Except.noConfusion h1
    | parsed m0 =>
      exact ⟨m0, (hswf m0 rfl).1, (hswf m0 rfl).2, h1⟩
  rw [buildIndex_parsed] at h1'
  injection h1' with hpq
  set A := scanState H maxChars overlap m0 si files with hA
  have hAr : A = runScan H maxChars overlap
      ⟨m0.files, m0.chunks, m0.chunks.map (fun q => (q.1, false)), loadInv si⟩
      files := hA
  have hm1f : m1.files = A.files := (congrArg (fun q => q.1.files) hpq).symm
  have hm1c : m1.chunks = (pruneStale A.valid A.chunks A.inv).1 :=
    (congrArg (fun q => q.1.chunks) hpq).symm
  have hi1 : i1 = (pruneStale A.valid A.chunks A.inv).2 :=
    (congrArg (fun q => q.2) hpq).symm
  have hwfst0 : BWF ⟨m0.files, m0.chunks,
      m0.chunks.map (fun q => (q.1, false)), loadInv si⟩ := by
    refine ⟨hwf0f, hwf0c, ?_, hiw⟩
    show (dkeys (m0.chunks.map (fun q => (q.1, false)))).Nodup
    rw [valid0_keys]
    exact hwf0c
  have hwfA : BWF A := by
    rw [hA]
    exact scanState_wf H maxChars overlap m0 si files hwf0f hwf0c hiw
  have hm1cnd : (dkeys m1.chunks).Nodup := by
    rw [hm1c]
    exact pruneStale_chunks_nodup _ _ _ hwfA.2.1
  have hm1fnd : (dkeys m1.files).Nodup := by
    rw [hm1f]
    exact hwfA.1
  have hiw1 : InvWF i1 := by
    rw [hi1]
    exact pruneStale_inv_wf _ _ _ hwfA.2.2.2
  -- every file of the listing is recorded up to date in `m1.files`
  have hid2 : ∀ g ∈ files,
      dget m1.files g.rel = some (fhOf H g) ∨ g.text = none := by
    intro g hg
    by_cases ht : g.text = none
    · exact Or.inr ht
    · left
      rw [hm1f, hAr]
      exact runScan_files_processed H maxChars overlap _ files g hnd hg ht
  -- the initial all-false validity map makes the anchor precondition vacuous
  have hpre : ∀ cid, dget (m0.chunks.map (fun q => (q.1, false))) cid = some true →
      ∃ ch, dget m0.chunks cid = some ch ∧
      ∃ f, f ∈ files ∧ ch.file = f.rel ∧
        dget m0.files f.rel = some (fhOf H f) ∧
        f.rel ∉ files.map SFile.rel := by
    intro c hcv
    rw [valid0_get] at hcv
    cases hmc : dget m0.chunks c <;> rw [hmc] at hcv <;> simp at hcv
  -- every surviving chunk of the first pass is anchored to a listed file
  have hanch : ∀ cid ch, dget m1.chunks cid = some ch →
      ∃ f, f ∈ files ∧ ch.file = f.rel ∧
        dget m1.files f.rel = some (fhOf H f) := by
    intro cid ch hc
    rw [hm1c] at hc
    have hmemA : (cid, ch) ∈ A.chunks :=
      pruneStale_chunks_subset _ _ _ _ (mem_of_dget_eq_some _ _ _ hc)
    have hcA : dget A.chunks cid = some ch :=
      dget_eq_some_of_mem _ _ _ hwfA.2.1 hmemA
    have hkc : cid ∈ dkeys A.chunks := by
      rw [← dget_isSome_iff_mem, hcA]
      rfl
    have hkv : cid ∈ dkeys A.valid := by
      rw [hAr]
      refine runScan_keys_sub H maxChars overlap _ files ?_ cid ?_
      · intro c hcm
        show c ∈ dkeys (m0.chunks.map (fun q => (q.1, false)))
        rw [valid0_keys]
        exact hcm
      · rw [← hAr]
        exact hkc
    cases hvb : dget A.valid cid with
    | none =>
      rw [dget_eq_none_iff_not_mem] at hvb
      exact absurd hkv hvb
    | some b =>
      cases b with
      | false =>
        have hmf : (cid, false) ∈ A.valid := mem_of_dget_eq_some _ _ _ hvb
        have hnone := (pruneStale_removes A.valid A.chunks A.inv cid
          hwfA.2.2.2 hwfA.2.2.1 hmf).1
        rw [hnone] at hc
        exact Option.noConfusion hc
      | true =>
        have hvb' : dget (runScan H maxChars overlap
            ⟨m0.files, m0.chunks, m0.chunks.map (fun q => (q.1, false)),
              loadInv si⟩ files).valid cid = some true := by
          rw [← hAr]
          exact hvb
        obtain ⟨ch2, hch2, f, hf, hrel2, hhash2⟩ :=
          runScan_anchor H maxChars overlap files files _
            (fun f hf => hf) hnd hwfst0 hpre cid hvb'
        have hch2' : dget A.chunks cid = some ch2 := by
          rw [hAr]
          exact hch2
        rw [hcA] at hch2'
        injection hch2' with he
        refine ⟨f, hf, ?_, ?_⟩
        · rw [he]
          exact hrel2
        · rw [hm1f, hAr]
          exact hhash2
  -- second pass: up-to-date hypotheses for the scan over (m1, i1)
  have hid2' : ∀ g ∈ files,
      dget (⟨m1.files, m1.chunks, m1.chunks.map (fun q => (q.1, false)), i1⟩ :
        BState).files g.rel = some (fhOf H g) ∨ g.text = none :=
    fun g hg => hid2 g hg
  have hwf0' : BWF ⟨m1.files, m1.chunks,
      m1.chunks.map (fun q => (q.1, false)), i1⟩ := by
    refine ⟨hm1fnd, hm1cnd, ?_, hiw1⟩
    show (dkeys (m1.chunks.map (fun q => (q.1, false)))).Nodup
    rw [valid0_keys]
    exact hm1cnd
  have hBc : (scanState H maxChars overlap m1 (StoredIndex.parsed i1) files).files
        = m1.files ∧
      (scanState H maxChars overlap m1 (StoredIndex.parsed i1) files).chunks
        = m1.chunks ∧
      (scanState H maxChars overlap m1 (StoredIndex.parsed i1) files).inv = i1 :=
    runScan_id H maxChars overlap
      (⟨m1.files, m1.chunks,
        m1.chunks.map (fun q : String × IndexedChunk => (q.1, false)), i1⟩ :
        BState) files hid2'
  have hallt : ∀ p ∈ (scanState H maxChars overlap m1
      (StoredIndex.parsed i1) files).valid, p.2 = true := by
    intro p hp
    have hp2 : p ∈ (runScan H maxChars overlap
        ⟨m1.files, m1.chunks, m1.chunks.map (fun q => (q.1, false)), i1⟩
        files).valid := hp
    have hwfB : BWF (runScan H maxChars overlap
        ⟨m1.files, m1.chunks, m1.chunks.map (fun q => (q.1, false)), i1⟩
        files) := runScan_wf _ _ _ _ _ hwf0'
    have hk : p.1 ∈ dkeys (runScan H maxChars overlap
        ⟨m1.files, m1.chunks, m1.chunks.map (fun q => (q.1, false)), i1⟩
        files).valid := by
      simp only [dkeys]
      exact List.mem_map.mpr ⟨p, hp2, rfl⟩
    have hkc : p.1 ∈ dkeys m1.chunks := by
      rcases runScan_id_valid_keys H maxChars overlap _ files hid2' p.1 hk
        with h | h
      · have h2 : p.1 ∈ dkeys (m1.chunks.map (fun q => (q.1, false))) := h
        rwa [valid0_keys] at h2
      · exact h
    obtain ⟨ch, hch⟩ := exists_mem_of_mem_dkeys m1.chunks p.1 hkc
    have hgc : dget m1.chunks p.1 = some ch :=
      dget_eq_some_of_mem _ _ _ hm1cnd hch
    obtain ⟨f, hf, hrel, hhash⟩ := hanch p.1 ch hgc
    have hmark : dget (runScan H maxChars overlap
        ⟨m1.files, m1.chunks, m1.chunks.map (fun q => (q.1, false)), i1⟩
        files).valid p.1 = some true :=
      runScan_marks H maxChars overlap _ files p.1 ch f hid2' hch hf hrel hhash
    have hgp : dget (runScan H maxChars overlap
        ⟨m1.files, m1.chunks, m1.chunks.map (fun q => (q.1, false)), i1⟩
        files).valid p.1 = some p.2 :=
      dget_eq_some_of_mem _ _ _ hwfB.2.2.1 hp2
    have hst := hmark.symm.trans hgp
    injection hst with h
    exact h.symm
  rw [buildIndex_parsed]
  rw [pruneStale_id _ _ _ hallt, hBc.1, hBc.2.1, hBc.2.2]

theorem c4_idempotent_witness :
    buildIndex (fun s => "#" ++ s) 100 0 "r" [⟨"a.txt", some "foo", some "foo"⟩]
      (.parsed ⟨"r", 1, 2, [("a.txt", "#foo")],
        [("#foo:1:1", ⟨"#foo:1:1", "a.txt", 1, 1, "#foo"⟩)]⟩)
      (.parsed [("foo", [("#foo:1:1", 1)])]) 3 4 =
      .ok (⟨"r", 1, 4, [("a.txt", "#foo")],
        [("#foo:1:1", ⟨"#foo:1:1", "a.txt", 1, 1, "#foo"⟩)]⟩,
        [("foo", [("#foo:1:1", 1)])]) :=
  c4_idempotent (fun s => "#" ++ s) 100 0 "r" [⟨"a.txt", some "foo", some "foo"⟩]
    .absent .absent 1 2 3 4
    ⟨"r", 1, 2, [("a.txt", "#foo")],
      [("#foo:1:1", ⟨"#foo:1:1", "a.txt", 1, 1, "#foo"⟩)]⟩
    [("foo", [("#foo:1:1", 1)])]
    (by decide) (fun m0 h => StoredManifest.noConfusion h)
    (InvWF_of_entries _ (by decide) (by decide)) rfl

-- ───────────────────── Query side (seance_query.py) ─────────────────────
--
-- `retrieve` is embedded over ℚ (idealised floats); `math.log` is the
-- parameter `lg`; file reads of the pattern stage are the map `fs`
-- (`None` = read failure).  The environment tunables keep their defaults:
-- retriever `bm25`, `k1 = 1.2`, `b = 0.75`, keyword boost `6.0`, pattern
-- boost `8.0`, symbol IDF boost `100.0`.  Python `set` iteration order is
-- unspecified; the embedding fixes it to first-occurrence order
-- (`List.dedup`), which only affects tie order in the ranked output.

/-- Failures of `retrieve`: the two `RuntimeError`s for missing state and
the two uncaught `json.loads` parse errors. -/
inductive RetrieveErr
  | noManifest
  | manifestParse
  | noIndex
  | indexParse
deriving DecidableEq, Repr

/-- `doc_len` accumulation (seance_query.py lines 65-68). -/
def buildDocLen (inverted : Inv) : Dict Nat :=
  inverted.foldl
    (fun dl p =>
      p.2.foldl (fun dl q => dset dl q.1 (dgetD dl q.1 0 + q.2)) dl)
    []

/-- `avgdl = sum(doc_len.values()) / N` (line 74). -/
def avgdlOf (inverted : Inv) : ℚ :=
  (((buildDocLen inverted).map (fun p => (p.2 : ℚ))).sum) /
    (((buildDocLen inverted).length : Nat) : ℚ)

/-- Symbol test of the IDF boost (line 100): underscore, length ≥ 12, or
an upper-case letter. -/
def symbolishIdf (t : String) : Bool :=
  t.data.contains '_' || decide (12 ≤ t.length) ||
    t.data.any (fun c => c.isAlpha && c.isUpper)

/-- Identifier test of the presence boost (line 128): underscore, mixed
case, or length ≥ 12. -/
def symbolishPresence (t : String) : Bool :=
  t.data.contains '_' ||
    (t.data.any Char.isLower && t.data.any Char.isUpper) ||
    decide (12 ≤ t.length)

/-- One step of the IDF loop (lines 89-94). -/
def idfStep (lg : ℚ → ℚ) (inverted : Inv) (N : Nat) (idf : Dict ℚ)
    (qt : String) : Dict ℚ :=
  match dget inverted qt with
  | none => idf
  | some ps =>
    if ps.isEmpty then idf
    else dset idf qt
      (lg (1 + ((N : ℚ) - (ps.length : ℚ) + 1/2) / ((ps.length : ℚ) + 1/2)))

/-- The IDF map (lines 88-94): one entry per distinct query token with a
non-empty posting list. -/
def idfMap (lg : ℚ → ℚ) (inverted : Inv) (N : Nat) (dq : List String) :
    Dict ℚ :=
  dq.foldl (idfStep lg inverted N) []

/-- One step of the symbol-aware IDF boost loop (lines 104-107). -/
def boostStep (idf : Dict ℚ) (qt : String) : Dict ℚ :=
  match dget idf qt with
  | none => idf
  | some v => dset idf qt (v * 100)

/-- The symbol-aware ×100 IDF boost loop (lines 104-107). -/
def idfBoosted (idf : Dict ℚ) (symbolish : List String) : Dict ℚ :=
  symbolish.foldl boostStep idf

/-- The recurring accumulation idiom of `retrieve`: for each token with a
non-empty posting list, add `g qt cid tf` into the accumulator at `cid`. -/
def accumFold (post : String → Option (Dict Nat))
    (g : String → String → Nat → ℚ) (sc0 : Dict ℚ) (xs : List String) :
    Dict ℚ :=
  xs.foldl
    (fun sc x =>
      match post x with
      | none => sc
      | some ps =>
        if ps.isEmpty then sc
        else ps.foldl (fun sc q => dset sc q.1 (dgetD sc q.1 0 + g x q.1 q.2)) sc)
    sc0

/-- Base BM25 scores (lines 112-122), with `k1 = 6/5` and `b = 3/4`. -/
def baseScores (lg : ℚ → ℚ) (inverted : Inv) (dq : List String) : Dict ℚ :=
  accumFold (fun t => dget inverted t)
    (fun t cid tf =>
      dgetD (idfBoosted (idfMap lg inverted (buildDocLen inverted).length dq)
          (dq.filter symbolishIdf)) t 0 *
        (((tf : ℚ) * (6/5 + 1)) /
          ((tf : ℚ) + (6/5) * (1 - 3/4 +
            (3/4) * (((dgetD (buildDocLen inverted) cid 1 : Nat) : ℚ) /
              avgdlOf inverted)))))
    [] dq

/-- The `presence` map (lines 136-143): weight 2 for identifier-like
tokens, 1 otherwise. -/
def presenceMap (inverted : Inv) (dq : List String) : Dict ℚ :=
  accumFold (fun t => dget inverted t)
    (fun t _ _ => if (dq.filter symbolishPresence).contains t then 2 else 1)
    [] dq

/-- Adding `presence * kw_boost` into the scores (lines 145-146),
`kw_boost = 6`. -/
def addPresence (sc : Dict ℚ) (pr : Dict ℚ) : Dict ℚ :=
  pr.foldl (fun sc p => dset sc p.1 (dgetD sc p.1 0 + p.2 * 6)) sc

/-- ASCII whitespace of Python `str.lstrip()` / `\s`. -/
def pyIsSpace (c : Char) : Bool :=
  c = ' ' || c = '\t' || c = '\n' || c = '\r' || c = '\x0b' || c = '\x0c'

/-- Python `ln.lstrip()`. -/
def pyLstrip (s : String) : String :=
  String.mk (s.data.dropWhile pyIsSpace)

/-- Python `s.lower()` (ASCII). -/
def lowerStr (s : String) : String :=
  String.mk (s.data.map Char.toLower)

/-- Python `needle in haystack` on character lists. -/
def containsSub (needle : List Char) : List Char → Bool
  | [] => needle.isEmpty
  | c :: t => needle.isPrefixOf (c :: t) || containsSub needle t

/-- Strip a literal from the front, returning the remainder. -/
def stripPref : List Char → List Char → Option (List Char)
  | [], cs => some cs
  | _ :: _, [] => none
  | a :: as, c :: cs => if a = c then stripPref as cs else none

/-- Match `def\s+SYM\s*\(` at the head of `cs` (case already lowered). -/
def matchDefAt (sym : List Char) (cs : List Char) : Bool :=
  match stripPref ['d', 'e', 'f'] cs with
  | none => false
  | some r1 =>
    match r1 with
    | [] => false
    | c :: r2 =>
      if pyIsSpace c then
        match stripPref sym (r2.dropWhile pyIsSpace) with
        | none => false
        | some r3 =>
          match r3.dropWhile pyIsSpace with
          | '(' :: _ => true
          | _ => false
      else false

/-- `re.search` scan for `re_def` (line 177): a word boundary before the
pattern, tracked through the previous character. -/
def searchDefAux (sym : List Char) : Option Char → List Char → Bool
  | _, [] => false
  | prev, c :: t =>
    ((match prev with
      | none => true
      | some p => !isWordChar p) && matchDefAt sym (c :: t))
    || searchDefAux sym (some c) t

def searchDef (sym cs : List Char) : Bool :=
  searchDefAux sym none cs

/-- Match `SYM\s*\(` at the head of `cs`. -/
def matchCallDirect (sym : List Char) (cs : List Char) : Bool :=
  match stripPref sym cs with
  | none => false
  | some r =>
    match r.dropWhile pyIsSpace with
    | '(' :: _ => true
    | _ => false

/-- Match `[A-Za-z_][A-Za-z0-9_]*\s*\.\s*SYM\s*\(` at the head of `cs`. -/
def matchCallDotted (sym : List Char) (cs : List Char) : Bool :=
  match cs with
  | [] => false
  | c :: t =>
    if c.isAlpha || c = '_' then
      match (t.dropWhile isWordChar).dropWhile pyIsSpace with
      | '.' :: r2 =>
        match stripPref sym (r2.dropWhile pyIsSpace) with
        | none => false
        | some r3 =>
          match r3.dropWhile pyIsSpace with
          | '(' :: _ => true
          | _ => false
      | _ => false
    else false

/-- `re.search` scan for `re_call` (line 179). -/
def searchCallAux (sym : List Char) : Option Char → List Char → Bool
  | _, [] => false
  | prev, c :: t =>
    ((match prev with
      | none => true
      | some p => !isWordChar p)
      && (matchCallDirect sym (c :: t) || matchCallDotted sym (c :: t)))
    || searchCallAux sym (some c) t

def searchCall (sym cs : List Char) : Bool :=
  searchCallAux sym none cs

/-- `"\n".join(lines[start-1:end])` over the file's splitlines (line 188). -/
def sliceText (full : String) (s e : Nat) : String :=
  String.intercalate "\n"
    (((splitlines full).drop (s - 1)).take (e - (s - 1)))

/-- `(total_hits, code_hits)` of the comment filter (lines 195-203). -/
def lineHits (sym : String) (text : String) : Nat × Nat :=
  (splitlines text).foldl
    (fun acc ln =>
      if containsSub (lowerStr sym).data (lowerStr ln).data then
        (acc.1 + 1, acc.2 + (if (pyLstrip ln).startsWith "#" then 0 else 1))
      else acc)
    (0, 0)

/-- The pattern bonus of one candidate chunk (lines 181-216), with
`pattern_boost = 8`: 12 for a `def` hit, +8 for a call hit, halved when
every mention sits on a `#`-comment line. -/
def patternBonus (fs : String → Option String) (man : Manifest)
    (sym : String) (cid : String) : ℚ :=
  match dget man.chunks cid with
  | none => 0
  | some meta =>
    match fs meta.file with
    | none => 0
    | some full =>
      let text := sliceText full meta.start_line meta.end_line
      let hits := lineHits sym text
      let low := (lowerStr text).data
      let symL := (lowerStr sym).data
      let bonus : ℚ := (if searchDef symL low then 8 * (3/2) else 0) +
        (if searchCall symL low then 8 else 0)
      if 0 < hits.1 ∧ hits.2 = 0 then bonus * (1/2) else bonus

/-- The candidate pool of the pattern stage (lines 165-169). -/
def candidateCids (inverted : Inv) (basis : List String) : List String :=
  (basis.foldl (fun acc qt => acc ++ (dgetD inverted qt []).map Prod.fst)
    []).dedup

/-- Applying the pattern bonus to the scores (lines 205-216). -/
def addPattern (fs : String → Option String) (man : Manifest)
    (sc : Dict ℚ) (sym : Option String) (cands : List String) : Dict ℚ :=
  match sym with
  | none => sc
  | some s =>
    cands.foldl
      (fun sc cid =>
        let b := patternBonus fs man s cid
        if 0 < b then dset sc cid (dgetD sc cid 0 + b) else sc)
      sc

/-- Stable descending insertion of `sorted(..., reverse=True)`. -/
def insertDesc (p : String × ℚ) : List (String × ℚ) → List (String × ℚ)
  | [] => [p]
  | q :: t => if q.2 ≤ p.2 then p :: q :: t else q :: insertDesc p t

def sortDesc : List (String × ℚ) → List (String × ℚ)
  | [] => []
  | x :: xs => insertDesc x (sortDesc xs)

/-- `_chunk_has_any_query_token` (lines 225-229). -/
def chunkHasAny (inverted : Inv) (dq : List String) (cid : String) : Bool :=
  dq.any (fun qt =>
    !(dgetD inverted qt []).isEmpty && (dget (dgetD inverted qt []) cid).isSome)

/-- The guard-rail fallback pool (lines 232-236). -/
def poolScores (inverted : Inv) (basis : List String) : Dict ℚ :=
  basis.foldl
    (fun pool qt =>
      (dgetD inverted qt []).foldl
        (fun pool q => dset pool q.1 (dgetD pool q.1 0 + (q.2 : ℚ)))
        pool)
    []

/-- `retrieve` (seance_query.py lines 24-258), BM25 branch (the default
retriever, env untouched). -/
def retrieve (lg : ℚ → ℚ) (fs : String → Option String)
    (sm : StoredManifest) (si : StoredIndex) (query : String) (k : Nat) :
    Except RetrieveErr (List (String × ℚ)) :=
  match sm with
  | .absent => .error .noManifest
  | .unparsable => .error .manifestParse
  | .parsed man =>
    match si with
    | .absent => .error .noIndex
    | .unparsable => .error .indexParse
    | .parsed inverted =>
      let qtokens := tokenize query
      if (buildDocLen inverted).isEmpty then .ok []
      else
        let dq := qtokens.dedup
        let sc1 := baseScores lg inverted dq
        let sc2 := addPresence sc1 (presenceMap inverted dq)
        let symbolish2 := dq.filter symbolishPresence
        let basis := if symbolish2.isEmpty then dq else symbolish2
        let sym : Option String := symbolish2.head?.orElse (fun _ => qtokens.head?)
        let sc3 := addPattern fs man sc2 sym (candidateCids inverted basis)
        let top := (sortDesc sc3).take k
        if !top.isEmpty && !(top.any (fun p => chunkHasAny inverted dq p.1)) then
          let pool := poolScores inverted basis
          if pool.isEmpty then .ok top else .ok ((sortDesc pool).take k)
        else .ok top

-- ─────────────────────────── Claim C9 ───────────────────────────

/-- **C9.** (confirmed) Building over an empty directory yields an empty
manifest (`files = {}`, `chunks = {}`) and an empty inverted index;
`retrieve` against this empty-but-present state returns an empty match
list, while an absent manifest file or an absent inverted-index file makes
`retrieve` raise — two errors distinguishable from each other and from a
legitimate empty result. -/
theorem c9_not_indexed (H : String → String) (lg : ℚ → ℚ)
    (fs : String → Option String) (root query : String)
    (maxChars overlap now fin k : Nat) :
    buildIndex H maxChars overlap root [] .absent .absent now fin =
      .ok (⟨root, now, fin, [], []⟩, []) ∧
    retrieve lg fs (.parsed ⟨root, now, fin, [], []⟩) (.parsed []) query k =
      .ok [] ∧
    retrieve lg fs .absent (.parsed []) query k = .error .noManifest ∧
    retrieve lg fs (.parsed ⟨root, now, fin, [], []⟩) .absent query k =
      .error .noIndex :=
  ⟨rfl, rfl, rfl, rfl⟩

-- ─────────────────────────── Claim C1 ───────────────────────────

/-- The score formula exactly as the spec words it: sum over distinct
query tokens with a posting for the chunk of
`idf(t) * tf*(k1+1) / (tf + k1*(1 - b + b*docLength/avgdl))`, with
`idf(t) = lg(1 + (N - n_t + 0.5)/(n_t + 0.5))`, `k1 = 1.2`, `b = 0.75`
and no other term. -/
def bm25SpecScore (lg : ℚ → ℚ) (inverted : Inv) (qtokens : List String)
    (cid : String) : ℚ :=
  (qtokens.dedup.map (fun t =>
    match dget inverted t with
    | none => 0
    | some ps =>
      match dget ps cid with
      | none => 0
      | some tf =>
        lg (1 + (((buildDocLen inverted).length : ℚ) - (ps.length : ℚ) + 1/2) /
            ((ps.length : ℚ) + 1/2)) *
          (((tf : ℚ) * (6/5 + 1)) /
            ((tf : ℚ) + (6/5) * (1 - 3/4 +
              (3/4) * (((dgetD (buildDocLen inverted) cid 1 : Nat) : ℚ) /
                avgdlOf inverted)))))).sum

/-- **C1.** (counterexample) A one-token, one-chunk index: `retrieve`
returns the chunk with the pure BM25 score **plus the keyword presence
boost 6** — so the returned score does not equal the spec's BM25-only
formula, refuting “no other term contributes to the score”.  The +6 gap
is independent of the logarithm, here instantiated with the identity. -/
theorem c1_counterexample :
    retrieve (fun q => q) (fun _ => none)
        (.parsed ⟨"r", 0, 0, [("a.txt", "h")], []⟩)
        (.parsed [("foo", [("c1", 1)])]) "foo" 6 =
      .ok [("c1",
        bm25SpecScore (fun q => q) [("foo", [("c1", 1)])] ["foo"] "c1" + 6)] ∧
    bm25SpecScore (fun q => q) [("foo", [("c1", 1)])] ["foo"] "c1" + 6 ≠
      bm25SpecScore (fun q => q) [("foo", [("c1", 1)])] ["foo"] "c1" := by
  constructor
  · simp +decide [retrieve, bm25SpecScore, baseScores, accumFold, idfMap,
      idfStep, idfBoosted, boostStep, addPresence, presenceMap, addPattern,
      candidateCids, patternBonus, sortDesc, insertDesc, chunkHasAny,
      poolScores, buildDocLen, avgdlOf, tokenize, tokenizeAux, symbolishIdf,
      symbolishPresence, dget, dset, dgetD, dmem, dkeys]
  · exact (lt_add_of_pos_right _ (by norm_num : (0:ℚ) < 6)).ne'

-- ──────────────── Pointwise lemmas for the score folds ────────────────

theorem dgetD_dset_self {α : Type} (d : Dict α) (k : String) (v v0 : α) :
    dgetD (dset d k v) k v0 = v := by
  simp [dgetD, dget_dset_self]

theorem dgetD_dset_ne {α : Type} (d : Dict α) (k k2 : String) (v : α) (v0 : α)
    (h : k2 ≠ k) : dgetD (dset d k v) k2 v0 = dgetD d k2 v0 := by
  simp [dgetD, dget_dset_ne _ _ _ _ h]

theorem dfold_absent {α : Type} (ps : List (String × α)) (g : String → α → ℚ)
    (sc : Dict ℚ) (cid : String) (v0 : ℚ) (h : cid ∉ ps.map Prod.fst) :
    dgetD (ps.foldl (fun sc q => dset sc q.1 (dgetD sc q.1 0 + g q.1 q.2)) sc)
      cid v0 = dgetD sc cid v0 := by
  induction ps generalizing sc with
  | nil => rfl
  | cons q t ih =>
    simp only [List.map_cons, List.mem_cons] at h
    push_neg at h
    simp only [List.foldl_cons]
    rw [ih _ h.2]
    exact dgetD_dset_ne _ _ _ _ _ h.1

theorem dfold_get {α : Type} (ps : List (String × α)) (g : String → α → ℚ)
    (sc : Dict ℚ) (cid : String) (hnd : (ps.map Prod.fst).Nodup) :
    dgetD (ps.foldl (fun sc q => dset sc q.1 (dgetD sc q.1 0 + g q.1 q.2)) sc)
        cid 0 =
      dgetD sc cid 0 + (dget ps cid).elim 0 (g cid) := by
  induction ps generalizing sc with
  | nil => simp [dget]
  | cons q t ih =>
    simp only [List.map_cons, List.nodup_cons] at hnd
    simp only [List.foldl_cons]
    by_cases hq : q.1 = cid
    · subst hq
      rw [dfold_absent _ _ _ _ _ hnd.1, dgetD_dset_self]
      simp [dget]
    · rw [ih _ hnd.2, dgetD_dset_ne _ _ _ _ _ (fun he => hq he.symm)]
      simp [dget, hq]

theorem dfold_nodup {α : Type} (ps : List (String × α)) (g : String → α → ℚ)
    (sc : Dict ℚ) (h : (dkeys sc).Nodup) :
    (dkeys (ps.foldl (fun sc q => dset sc q.1 (dgetD sc q.1 0 + g q.1 q.2))
      sc)).Nodup := by
  induction ps generalizing sc with
  | nil => exact h
  | cons q t ih =>
    simp only [List.foldl_cons]
    exact ih _ (dkeys_nodup_dset _ _ _ h)

theorem dfold_keys {α : Type} (ps : List (String × α)) (g : String → α → ℚ)
    (sc : Dict ℚ) (k : String)
    (h : k ∈ dkeys (ps.foldl
      (fun sc q => dset sc q.1 (dgetD sc q.1 0 + g q.1 q.2)) sc)) :
    k ∈ dkeys sc ∨ k ∈ ps.map Prod.fst := by
  induction ps generalizing sc with
  | nil => exact Or.inl h
  | cons q t ih =>
    simp only [List.foldl_cons] at h
    rcases ih _ h with h1 | h1
    · rw [dkeys_dset] at h1
      by_cases hm : dmem sc q.1
      · rw [if_pos hm] at h1
        exact Or.inl h1
      · rw [if_neg hm] at h1
        rcases List.mem_append.mp h1 with h2 | h2
        · exact Or.inl h2
        · simp only [List.mem_singleton] at h2
          exact Or.inr (by simp [h2])
    · exact Or.inr (List.mem_cons_of_mem _ h1)

theorem accumFold_cons (post : String → Option (Dict Nat))
    (g : String → String → Nat → ℚ) (sc : Dict ℚ) (x : String)
    (t : List String) :
    accumFold post g sc (x :: t) =
      accumFold post g
        ((post x).elim sc (fun ps =>
          if ps.isEmpty then sc
          else ps.foldl
            (fun sc q => dset sc q.1 (dgetD sc q.1 0 + g x q.1 q.2)) sc))
        t := by
  simp only [accumFold, List.foldl_cons]
  cases post x <;> rfl

theorem accumFold_get (post : String → Option (Dict Nat))
    (g : String → String → Nat → ℚ) (sc : Dict ℚ) (xs : List String)
    (cid : String) (hwf : ∀ t ps, post t = some ps → (dkeys ps).Nodup) :
    dgetD (accumFold post g sc xs) cid 0 =
      dgetD sc cid 0 + (xs.map (fun x =>
        (post x).elim 0 (fun ps =>
          if ps.isEmpty then 0
          else (dget ps cid).elim 0 (g x cid)))).sum := by
  induction xs generalizing sc with
  | nil => simp [accumFold]
  | cons x t ih =>
    rw [accumFold_cons]
    simp only [List.map_cons, List.sum_cons]
    cases hp : post x with
    | none =>
      simp only [hp, Option.elim_none]
      rw [ih _, zero_add]
    | some ps =>
      simp only [hp, Option.elim_some]
      by_cases he : ps.isEmpty
      · have hnil : ps = [] := by
          cases ps with
          | nil => rfl
          | cons a b => simp [List.isEmpty] at he
        subst hnil
        simp only [if_pos he]
        rw [ih _]
        simp [dget]
      · simp only [if_neg he]
        rw [ih _, dfold_get _ _ _ _ (hwf x ps hp), add_assoc]

theorem accumFold_nodup (post : String → Option (Dict Nat))
    (g : String → String → Nat → ℚ) (sc : Dict ℚ) (xs : List String)
    (h : (dkeys sc).Nodup) : (dkeys (accumFold post g sc xs)).Nodup := by
  induction xs generalizing sc with
  | nil => exact h
  | cons x t ih =>
    rw [accumFold_cons]
    apply ih
    cases hp : post x with
    | none => simp only [hp, Option.elim_none]; exact h
    | some ps =>
      simp only [hp, Option.elim_some]
      by_cases he : ps.isEmpty
      · simpa [he] using h
      · simpa [he] using dfold_nodup ps _ sc h

theorem accumFold_keys (post : String → Option (Dict Nat))
    (g : String → String → Nat → ℚ) (sc : Dict ℚ) (xs : List String)
    (k : String) (h : k ∈ dkeys (accumFold post g sc xs)) :
    k ∈ dkeys sc ∨ ∃ x ∈ xs, ∃ ps, post x = some ps ∧ k ∈ dkeys ps := by
  induction xs generalizing sc with
  | nil => exact Or.inl h
  | cons x t ih =>
    rw [accumFold_cons] at h
    rcases ih _ h with h1 | h1
    · cases hp : post x with
      | none =>
        simp only [hp, Option.elim_none] at h1
        exact Or.inl h1
      | some ps =>
        simp only [hp, Option.elim_some] at h1
        by_cases he : ps.isEmpty
        · rw [if_pos he] at h1
          exact Or.inl h1
        · rw [if_neg he] at h1
          rcases dfold_keys _ _ _ _ h1 with h2 | h2
          · exact Or.inl h2
          · exact Or.inr ⟨x, List.mem_cons_self _ _, ps, hp, h2⟩
    · obtain ⟨y, hy, ps, hps, hk⟩ := h1
      exact Or.inr ⟨y, List.mem_cons_of_mem _ hy, ps, hps, hk⟩

theorem addPresence_get (sc pr : Dict ℚ) (cid : String)
    (hnd : (dkeys pr).Nodup) :
    dgetD (addPresence sc pr) cid 0 = dgetD sc cid 0 + dgetD pr cid 0 * 6 := by
  have h : dgetD (addPresence sc pr) cid 0 =
      dgetD sc cid 0 + (dget pr cid).elim 0 ((fun (_ : String) (v : ℚ) => v * 6) cid) :=
    dfold_get pr (fun _ v => v * 6) sc cid hnd
  rw [h]
  cases hd : dget pr cid <;> simp [dgetD, hd]

theorem addPresence_nodup (sc pr : Dict ℚ) (h : (dkeys sc).Nodup) :
    (dkeys (addPresence sc pr)).Nodup :=
  dfold_nodup pr (fun _ v => v * 6) sc h

theorem addPresence_keys (sc pr : Dict ℚ) (k : String)
    (h : k ∈ dkeys (addPresence sc pr)) : k ∈ dkeys sc ∨ k ∈ dkeys pr :=
  dfold_keys pr (fun _ v => v * 6) sc k h

theorem addPattern_none (fs : String → Option String) (man : Manifest)
    (sc : Dict ℚ) (cands : List String) :
    addPattern fs man sc none cands = sc := rfl

theorem addPattern_cons (fs : String → Option String) (man : Manifest)
    (sc : Dict ℚ) (s : String) (c : String) (t : List String) :
    addPattern fs man sc (some s) (c :: t) =
      addPattern fs man
        (if 0 < patternBonus fs man s c
         then dset sc c (dgetD sc c 0 + patternBonus fs man s c) else sc)
        (some s) t := rfl

theorem addPattern_absent (fs : String → Option String) (man : Manifest)
    (sc : Dict ℚ) (s : String) (cands : List String) (cid : String) (v0 : ℚ)
    (h : cid ∉ cands) :
    dgetD (addPattern fs man sc (some s) cands) cid v0 = dgetD sc cid v0 := by
  induction cands generalizing sc with
  | nil => rfl
  | cons c t ih =>
    simp only [List.mem_cons] at h
    push_neg at h
    rw [addPattern_cons, ih _ h.2]
    by_cases hb : 0 < patternBonus fs man s c
    · rw [if_pos hb]
      exact dgetD_dset_ne _ _ _ _ _ h.1
    · rw [if_neg hb]

theorem addPattern_get (fs : String → Option String) (man : Manifest)
    (sc : Dict ℚ) (s : String) (cands : List String) (cid : String)
    (hnd : cands.Nodup) :
    dgetD (addPattern fs man sc (some s) cands) cid 0 =
      dgetD sc cid 0 +
        (if cid ∈ cands ∧ 0 < patternBonus fs man s cid
         then patternBonus fs man s cid else 0) := by
  induction cands generalizing sc with
  | nil => simp [addPattern]
  | cons c t ih =>
    simp only [List.nodup_cons] at hnd
    rw [addPattern_cons]
    by_cases hc : c = cid
    · subst hc
      rw [addPattern_absent _ _ _ _ _ _ _ hnd.1]
      by_cases hb : 0 < patternBonus fs man s c
      · rw [if_pos hb, dgetD_dset_self]
        simp [hb]
      · rw [if_neg hb]
        simp [hb]
    · rw [ih _ hnd.2]
      have hg : dgetD (if 0 < patternBonus fs man s c
          then dset sc c (dgetD sc c 0 + patternBonus fs man s c) else sc)
          cid 0 = dgetD sc cid 0 := by
        by_cases hb : 0 < patternBonus fs man s c
        · rw [if_pos hb]
          exact dgetD_dset_ne _ _ _ _ _ (fun he => hc he.symm)
        · rw [if_neg hb]
      rw [hg]
      congr 1
      apply if_congr _ rfl rfl
      constructor
      · rintro ⟨h1, h2⟩
        exact ⟨List.mem_cons_of_mem _ h1, h2⟩
      · rintro ⟨h1, h2⟩
        rcases List.mem_cons.mp h1 with he | h1
        · exact absurd he.symm hc
        · exact ⟨h1, h2⟩

theorem addPattern_nodup (fs : String → Option String) (man : Manifest)
    (sc : Dict ℚ) (sym : Option String) (cands : List String)
    (h : (dkeys sc).Nodup) : (dkeys (addPattern fs man sc sym cands)).Nodup := by
  cases sym with
  | none => exact h
  | some s =>
    induction cands generalizing sc with
    | nil => exact h
    | cons c t ih =>
      rw [addPattern_cons]
      apply ih
      by_cases hb : 0 < patternBonus fs man s c
      · rw [if_pos hb]
        exact dkeys_nodup_dset _ _ _ h
      · rwa [if_neg hb]

theorem addPattern_keys (fs : String → Option String) (man : Manifest)
    (sc : Dict ℚ) (s : String) (cands : List String) (k : String)
    (h : k ∈ dkeys (addPattern fs man sc (some s) cands)) :
    k ∈ dkeys sc ∨ k ∈ cands := by
  induction cands generalizing sc with
  | nil => exact Or.inl h
  | cons c t ih =>
    rw [addPattern_cons] at h
    rcases ih _ h with h1 | h1
    · by_cases hb : 0 < patternBonus fs man s c
      · rw [if_pos hb, dkeys_dset] at h1
        by_cases hm : dmem sc c
        · rw [if_pos hm] at h1
          exact Or.inl h1
        · rw [if_neg hm] at h1
          rcases List.mem_append.mp h1 with h2 | h2
          · exact Or.inl h2
          · simp only [List.mem_singleton] at h2
            exact Or.inr (by simp [h2])
      · rw [if_neg hb] at h1
        exact Or.inl h1
    · exact Or.inr (List.mem_cons_of_mem _ h1)

theorem foldl_append_mem {β : Type} (xs : List String) (f : String → List β)
    (acc : List β) (y : β) :
    y ∈ xs.foldl (fun acc qt => acc ++ f qt) acc ↔
      y ∈ acc ∨ ∃ t ∈ xs, y ∈ f t := by
  induction xs generalizing acc with
  | nil => simp
  | cons x t ih =>
    simp only [List.foldl_cons]
    rw [ih, List.mem_append]
    constructor
    · rintro ((h | h) | ⟨u, hu, hy⟩)
      · exact Or.inl h
      · exact Or.inr ⟨x, List.mem_cons_self _ _, h⟩
      · exact Or.inr ⟨u, List.mem_cons_of_mem _ hu, hy⟩
    · rintro (h | ⟨u, hu, hy⟩)
      · exact Or.inl (Or.inl h)
      · rcases List.mem_cons.mp hu with he | hu2
        · subst he
          exact Or.inl (Or.inr hy)
        · exact Or.inr ⟨u, hu2, hy⟩

theorem candidateCids_mem (inverted : Inv) (basis : List String) (cid : String)
    (h : cid ∈ candidateCids inverted basis) :
    ∃ t ∈ basis, cid ∈ dkeys (dgetD inverted t []) := by
  unfold candidateCids at h
  rw [List.mem_dedup] at h
  rcases (foldl_append_mem basis
      (fun qt => (dgetD inverted qt []).map Prod.fst) [] cid).mp h with h1 | h1
  · simp at h1
  · exact h1

theorem insertDesc_mem (p q : String × ℚ) (l : List (String × ℚ))
    (h : q ∈ insertDesc p l) : q = p ∨ q ∈ l := by
  induction l with
  | nil =>
    simp only [insertDesc, List.mem_singleton] at h
    exact Or.inl h
  | cons r t ih =>
    simp only [insertDesc] at h
    by_cases hr : r.2 ≤ p.2
    · rw [if_pos hr] at h
      rcases List.mem_cons.mp h with h1 | h1
      · exact Or.inl h1
      · exact Or.inr h1
    · rw [if_neg hr] at h
      rcases List.mem_cons.mp h with h1 | h1
      · exact Or.inr (by simp [h1])
      · rcases ih h1 with h2 | h2
        · exact Or.inl h2
        · exact Or.inr (List.mem_cons_of_mem _ h2)

theorem sortDesc_mem (p : String × ℚ) (l : List (String × ℚ))
    (h : p ∈ sortDesc l) : p ∈ l := by
  induction l with
  | nil => exact h
  | cons x t ih =>
    simp only [sortDesc] at h
    rcases insertDesc_mem _ _ _ h with h1 | h1
    · simp [h1]
    · exact List.mem_cons_of_mem _ (ih h1)

theorem sum_map_add {β : Type} (l : List β) (f g : β → ℚ) :
    (l.map f).sum + (l.map g).sum = (l.map (fun x => f x + g x)).sum := by
  induction l with
  | nil => simp
  | cons x t ih =>
    simp only [List.map_cons, List.sum_cons]
    rw [← ih]
    ring

theorem chunkHasAny_of (inverted : Inv) (dq : List String) (cid t : String)
    (ht : t ∈ dq) (hps : cid ∈ dkeys (dgetD inverted t [])) :
    chunkHasAny inverted dq cid = true := by
  unfold chunkHasAny
  rw [List.any_eq_true]
  refine ⟨t, ht, ?_⟩
  have h1 : (dget (dgetD inverted t []) cid).isSome = true :=
    (dmem_iff_mem_dkeys _ _).mpr hps
  have h2 : (dgetD inverted t []).isEmpty = false := by
    cases hv : dgetD inverted t [] with
    | nil =>
      rw [hv] at hps
      simp [dkeys] at hps
    | cons a b => simp [List.isEmpty]
  rw [h1, h2]
  rfl

theorem idfStep_ne (lg : ℚ → ℚ) (inverted : Inv) (N : Nat) (idf : Dict ℚ)
    (qt t : String) (h : t ≠ qt) :
    dget (idfStep lg inverted N idf qt) t = dget idf t := by
  unfold idfStep
  cases dget inverted qt with
  | none => rfl
  | some ps =>
    by_cases he : ps.isEmpty
    · simp [he]
    · simp only [he, if_false, Bool.false_eq_true]
      exact dget_dset_ne _ _ _ _ h

theorem idfFold_absent (lg : ℚ → ℚ) (inverted : Inv) (N : Nat)
    (dq : List String) (idf0 : Dict ℚ) (t : String) (h : t ∉ dq) :
    dget (dq.foldl (idfStep lg inverted N) idf0) t = dget idf0 t := by
  induction dq generalizing idf0 with
  | nil => rfl
  | cons q rest ih =>
    simp only [List.mem_cons] at h
    push_neg at h
    rw [List.foldl_cons, ih _ h.2]
    exact idfStep_ne _ _ _ _ _ _ h.1

theorem idfFold_get_mem (lg : ℚ → ℚ) (inverted : Inv) (N : Nat)
    (dq : List String) (idf0 : Dict ℚ) (t : String) (ps : Dict Nat)
    (hnd : dq.Nodup) (ht : t ∈ dq) (hps : dget inverted t = some ps)
    (hne : ps.isEmpty = false) :
    dget (dq.foldl (idfStep lg inverted N) idf0) t =
      some (lg (1 + ((N : ℚ) - (ps.length : ℚ) + 1/2) /
        ((ps.length : ℚ) + 1/2))) := by
  induction dq generalizing idf0 with
  | nil => simp at ht
  | cons q rest ih =>
    simp only [List.nodup_cons] at hnd
    rw [List.foldl_cons]
    by_cases hq : q = t
    · subst hq
      rw [idfFold_absent _ _ _ _ _ _ hnd.1]
      simp only [idfStep, hps, hne, Bool.false_eq_true, if_false]
      exact dget_dset_self _ _ _
    · have ht2 : t ∈ rest := by
        rcases List.mem_cons.mp ht with he | h2
        · exact absurd he.symm hq
        · exact h2
      exact ih _ hnd.2 ht2

theorem boostFold_not_mem (idf : Dict ℚ) (syms : List String) (t : String)
    (h : t ∉ syms) : dget (idfBoosted idf syms) t = dget idf t := by
  induction syms generalizing idf with
  | nil => rfl
  | cons q rest ih =>
    simp only [List.mem_cons] at h
    push_neg at h
    show dget (rest.foldl boostStep (boostStep idf q)) t = dget idf t
    have h3 : dget (rest.foldl boostStep (boostStep idf q)) t =
        dget (boostStep idf q) t := ih _ h.2
    rw [h3]
    unfold boostStep
    cases dget idf q with
    | none => rfl
    | some v => exact dget_dset_ne _ _ _ _ h.1

theorem idfBoosted_get_mem (idf : Dict ℚ) (syms : List String) (t : String)
    (v : ℚ) (hnd : syms.Nodup) (ht : t ∈ syms) (hv : dget idf t = some v) :
    dget (idfBoosted idf syms) t = some (v * 100) := by
  induction syms generalizing idf v with
  | nil => simp at ht
  | cons q rest ih =>
    simp only [List.nodup_cons] at hnd
    show dget (rest.foldl boostStep (boostStep idf q)) t = some (v * 100)
    by_cases hq : q = t
    · subst hq
      have hstep : dget (boostStep idf q) q = some (v * 100) := by
        unfold boostStep
        rw [hv]
        exact dget_dset_self _ _ _
      have h3 : dget (rest.foldl boostStep (boostStep idf q)) q =
          dget (boostStep idf q) q := boostFold_not_mem _ _ _ hnd.1
      rw [h3]
      exact hstep
    · have ht2 : t ∈ rest := by
        rcases List.mem_cons.mp ht with he | h2
        · exact absurd he.symm hq
        · exact h2
      have hstep : dget (boostStep idf q) t = some v := by
        unfold boostStep
        cases dget idf q with
        | none => exact hv
        | some w => rw [dget_dset_ne _ _ _ _ (fun he => hq he.symm)]; exact hv
      exact ih (boostStep idf q) v hnd.2 ht2 hstep

/-- The distinct query tokens, in first-occurrence order. -/
def dqOf (query : String) : List String :=
  (tokenize query).dedup

/-- `basis = symbolish or list(set(qtokens))` (line 166). -/
def basisOf (query : String) : List String :=
  if ((dqOf query).filter symbolishPresence).isEmpty then dqOf query
  else (dqOf query).filter symbolishPresence

/-- `sym = next(iter(symbolish), None) or qtokens[0]` (lines 172-173). -/
def symOf (query : String) : Option String :=
  ((dqOf query).filter symbolishPresence).head?.orElse
    (fun _ => (tokenize query).head?)

/-- The final score map of the BM25 branch, after the base, presence and
pattern stages. -/
def scFinal (lg : ℚ → ℚ) (fs : String → Option String) (man : Manifest)
    (inverted : Inv) (query : String) : Dict ℚ :=
  addPattern fs man
    (addPresence (baseScores lg inverted (dqOf query))
      (presenceMap inverted (dqOf query)))
    (symOf query) (candidateCids inverted (basisOf query))

theorem retrieve_parsed (lg : ℚ → ℚ) (fs : String → Option String)
    (man : Manifest) (inverted : Inv) (query : String) (k : Nat) :
    retrieve lg fs (.parsed man) (.parsed inverted) query k =
      if (buildDocLen inverted).isEmpty then .ok []
      else
        if !((sortDesc (scFinal lg fs man inverted query)).take k).isEmpty &&
            !(((sortDesc (scFinal lg fs man inverted query)).take k).any
              (fun p => chunkHasAny inverted (dqOf query) p.1)) then
          if (poolScores inverted (basisOf query)).isEmpty
          then .ok ((sortDesc (scFinal lg fs man inverted query)).take k)
          else .ok ((sortDesc (poolScores inverted (basisOf query))).take k)
        else .ok ((sortDesc (scFinal lg fs man inverted query)).take k) := rfl

/-- The corrected per-token contribution: boosted IDF × BM25 part, plus
the presence boost `weight * kw_boost`. -/
def c1TokenScore (lg : ℚ → ℚ) (inverted : Inv) (cid : String)
    (t : String) : ℚ :=
  match dget inverted t with
  | none => 0
  | some ps =>
    if ps.isEmpty then 0
    else
      match dget ps cid with
      | none => 0
      | some tf =>
        lg (1 + (((buildDocLen inverted).length : ℚ) - (ps.length : ℚ) + 1/2) /
            ((ps.length : ℚ) + 1/2)) *
          (if symbolishIdf t then 100 else 1) *
          (((tf : ℚ) * (6/5 + 1)) /
            ((tf : ℚ) + (6/5) * (1 - 3/4 +
              (3/4) * (((dgetD (buildDocLen inverted) cid 1 : Nat) : ℚ) /
                avgdlOf inverted)))) +
        (if symbolishPresence t then 2 else 1) * 6

/-- The corrected chunk score: per-token contributions summed over the
distinct query tokens, plus the pattern-stage bonus. -/
def c1ScoreSpec (lg : ℚ → ℚ) (fs : String → Option String) (man : Manifest)
    (inverted : Inv) (query : String) (cid : String) : ℚ :=
  ((dqOf query).map (c1TokenScore lg inverted cid)).sum +
  (match symOf query with
   | none => 0
   | some s =>
     if cid ∈ candidateCids inverted (basisOf query) ∧
        0 < patternBonus fs man s cid
     then patternBonus fs man s cid else 0)

theorem sum_map_mul_right {β : Type} (l : List β) (f : β → ℚ) (c : ℚ) :
    (l.map f).sum * c = (l.map (fun x => f x * c)).sum := by
  induction l with
  | nil => simp
  | cons x t ih =>
    simp only [List.map_cons, List.sum_cons]
    rw [← ih]
    ring

theorem baseAndPresence_get (lg : ℚ → ℚ) (inverted : Inv) (query : String)
    (cid : String) (hwf : InvWF inverted) :
    dgetD (addPresence (baseScores lg inverted (dqOf query))
        (presenceMap inverted (dqOf query))) cid 0 =
      ((dqOf query).map (c1TokenScore lg inverted cid)).sum := by
  have hndpr : (dkeys (presenceMap inverted (dqOf query))).Nodup :=
    accumFold_nodup _ _ _ _ (by simp [dkeys])
  rw [addPresence_get _ _ _ hndpr]
  have hb : dgetD (baseScores lg inverted (dqOf query)) cid 0 =
      dgetD ([] : Dict ℚ) cid 0 + ((dqOf query).map (fun x =>
        (dget inverted x).elim 0 (fun ps =>
          if ps.isEmpty then 0
          else (dget ps cid).elim 0 (fun tf =>
            dgetD (idfBoosted
                (idfMap lg inverted (buildDocLen inverted).length (dqOf query))
                ((dqOf query).filter symbolishIdf)) x 0 *
              (((tf : ℚ) * (6/5 + 1)) /
                ((tf : ℚ) + (6/5) * (1 - 3/4 +
                  (3/4) * (((dgetD (buildDocLen inverted) cid 1 : Nat) : ℚ) /
                    avgdlOf inverted)))))))).sum :=
    accumFold_get _ _ _ _ _ hwf.2
  have hp : dgetD (presenceMap inverted (dqOf query)) cid 0 =
      dgetD ([] : Dict ℚ) cid 0 + ((dqOf query).map (fun x =>
        (dget inverted x).elim 0 (fun ps =>
          if ps.isEmpty then 0
          else (dget ps cid).elim 0 (fun _ =>
            if ((dqOf query).filter symbolishPresence).contains x then (2:ℚ)
            else 1)))).sum :=
    accumFold_get _ _ _ _ _ hwf.2
  have h0 : dgetD ([] : Dict ℚ) cid 0 = 0 := rfl
  rw [h0, zero_add] at hb hp
  rw [hb, hp, sum_map_mul_right, sum_map_add]
  refine congrArg List.sum (List.map_congr_left ?_)
  intro t ht
  cases hdg : dget inverted t with
  | none => simp [c1TokenScore, hdg]
  | some ps =>
    by_cases he : ps.isEmpty
    · have hnil : ps = [] := by
        cases ps with
        | nil => rfl
        | cons a b => simp [List.isEmpty] at he
      subst hnil
      simp [c1TokenScore, hdg, dget]
    · cases hpc : dget ps cid with
      | none => simp [c1TokenScore, hdg, he, hpc]
      | some tf =>
        have he2 : ps.isEmpty = false := by simpa using he
        have hbase : dget (idfMap lg inverted (buildDocLen inverted).length
            (dqOf query)) t =
            some (lg (1 + (((buildDocLen inverted).length : ℚ) -
              (ps.length : ℚ) + 1/2) / ((ps.length : ℚ) + 1/2))) :=
          idfFold_get_mem lg inverted (buildDocLen inverted).length
            (dqOf query) [] t ps (List.nodup_dedup _) ht hdg he2
        have hweight : (if ((dqOf query).filter symbolishPresence).contains t
            then (2:ℚ) else 1) =
            (if symbolishPresence t then (2:ℚ) else 1) := by
          by_cases hsp : symbolishPresence t
          · rw [if_pos hsp]
            rw [if_pos]
            exact List.elem_iff.mpr (List.mem_filter.mpr ⟨ht, hsp⟩)
          · rw [if_neg hsp]
            rw [if_neg]
            intro hcon
            exact hsp (List.of_mem_filter (List.elem_iff.mp hcon))
        by_cases hsb : symbolishIdf t
        · have hbst : dget (idfBoosted
              (idfMap lg inverted (buildDocLen inverted).length (dqOf query))
              ((dqOf query).filter symbolishIdf)) t =
              some (lg (1 + (((buildDocLen inverted).length : ℚ) -
                (ps.length : ℚ) + 1/2) / ((ps.length : ℚ) + 1/2)) * 100) :=
            idfBoosted_get_mem _ _ _ _ ((List.nodup_dedup _).filter _)
              (List.mem_filter.mpr ⟨ht, hsb⟩) hbase
          simp only [hdg, Option.elim_some, he2, Bool.false_eq_true, if_false,
            hpc, c1TokenScore, dgetD, hbst, Option.getD_some, hweight,
            if_pos hsb]
        · have hbst : dget (idfBoosted
              (idfMap lg inverted (buildDocLen inverted).length (dqOf query))
              ((dqOf query).filter symbolishIdf)) t =
              dget (idfMap lg inverted (buildDocLen inverted).length
                (dqOf query)) t := by
            apply boostFold_not_mem
            intro hmem
            exact hsb (List.of_mem_filter hmem)
          rw [hbase] at hbst
          simp only [hdg, Option.elim_some, he2, Bool.false_eq_true, if_false,
            hpc, c1TokenScore, dgetD, hbst, Option.getD_some, hweight,
            if_neg hsb, mul_one]

theorem basisOf_sub (query : String) : ∀ t ∈ basisOf query, t ∈ dqOf query := by
  intro t ht
  unfold basisOf at ht
  by_cases hf : ((dqOf query).filter symbolishPresence).isEmpty
  · rwa [if_pos hf] at ht
  · rw [if_neg hf] at ht
    exact List.mem_of_mem_filter ht

theorem scFinal_get (lg : ℚ → ℚ) (fs : String → Option String)
    (man : Manifest) (inverted : Inv) (query : String) (cid : String)
    (hwf : InvWF inverted) :
    dgetD (scFinal lg fs man inverted query) cid 0 =
      c1ScoreSpec lg fs man inverted query cid := by
  unfold scFinal c1ScoreSpec
  cases hsym : symOf query with
  | none =>
    rw [addPattern_none, baseAndPresence_get _ _ _ _ hwf]
    simp
  | some s =>
    have hcnd : (candidateCids inverted (basisOf query)).Nodup := by
      unfold candidateCids
      exact List.nodup_dedup _
    rw [addPattern_get _ _ _ _ _ _ hcnd, baseAndPresence_get _ _ _ _ hwf]

/-- Every key of the final score map has a posting for some distinct query
token, so the guard-rail re-rank can never fire. -/
theorem scFinal_keys_hasAny (lg : ℚ → ℚ) (fs : String → Option String)
    (man : Manifest) (inverted : Inv) (query : String) (cid : String)
    (h : cid ∈ dkeys (scFinal lg fs man inverted query)) :
    chunkHasAny inverted (dqOf query) cid = true := by
  have hcore : ∀ c2, c2 ∈ dkeys (addPresence
      (baseScores lg inverted (dqOf query))
      (presenceMap inverted (dqOf query))) →
      chunkHasAny inverted (dqOf query) c2 = true := by
    intro c2 hc2
    have hfrom : ∃ x ∈ dqOf query, ∃ ps, dget inverted x = some ps ∧
        c2 ∈ dkeys ps := by
      rcases addPresence_keys _ _ _ hc2 with h1 | h1
      · rcases accumFold_keys _ _ _ _ _ h1 with h2 | h2
        · simp [dkeys] at h2
        · exact h2
      · rcases accumFold_keys _ _ _ _ _ h1 with h2 | h2
        · simp [dkeys] at h2
        · exact h2
    obtain ⟨x, hx, ps, hps, hmem⟩ := hfrom
    refine chunkHasAny_of _ _ _ x hx ?_
    rw [show dgetD inverted x [] = ps from by simp [dgetD, hps]]
    exact hmem
  unfold scFinal at h
  cases hsym : symOf query with
  | none =>
    rw [hsym, addPattern_none] at h
    exact hcore _ h
  | some s =>
    rw [hsym] at h
    rcases addPattern_keys _ _ _ _ _ _ h with h1 | h1
    · exact hcore _ h1
    · obtain ⟨t2, ht2, hmem2⟩ := candidateCids_mem _ _ _ h1
      exact chunkHasAny_of _ _ _ t2 (basisOf_sub query t2 ht2) hmem2

/-- **C1.** (corrected) Every chunk returned by the default BM25 retriever
scores as: the sum over distinct query tokens with a posting for the chunk
of boosted-idf × BM25 part (idf multiplied by 100 for symbol-like tokens)
plus the presence boost `weight * 6` (weight 2 for identifier-like tokens,
1 otherwise), plus the pattern-stage bonus (12 for a `def` hit, +8 for a
call hit, halved for comment-only mentions). -/
theorem c1_amended (lg : ℚ → ℚ) (fs : String → Option String)
    (man : Manifest) (inverted : Inv) (query : String) (k : Nat)
    (out : List (String × ℚ)) (hwf : InvWF inverted)
    (hret : retrieve lg fs (.parsed man) (.parsed inverted) query k = .ok out) :
    ∀ p ∈ out, p.2 = c1ScoreSpec lg fs man inverted query p.1 := by
  intro p hp
  rw [retrieve_parsed] at hret
  by_cases hde : (buildDocLen inverted).isEmpty
  · rw [if_pos hde] at hret
    injection hret with h
    rw [← h] at hp
    simp at hp
  · rw [if_neg hde] at hret
    have hmemtop : ∀ q ∈ (sortDesc (scFinal lg fs man inverted query)).take k,
        q ∈ scFinal lg fs man inverted query := fun q hq =>
      sortDesc_mem _ _ (List.take_subset _ _ hq)
    have hcond : (!((sortDesc (scFinal lg fs man inverted query)).take k).isEmpty &&
        !(((sortDesc (scFinal lg fs man inverted query)).take k).any
          (fun p => chunkHasAny inverted (dqOf query) p.1))) = false := by
      cases hemp : ((sortDesc (scFinal lg fs man inverted query)).take k).isEmpty with
      | true => simp [hemp]
      | false =>
        have hne : (sortDesc (scFinal lg fs man inverted query)).take k ≠ [] := by
          intro hnil
          rw [hnil] at hemp
          simp at hemp
        obtain ⟨q, hq⟩ := List.exists_mem_of_ne_nil _ hne
        have hqk : q.1 ∈ dkeys (scFinal lg fs man inverted query) := by
          simp only [dkeys]
          exact List.mem_map.mpr ⟨q, hmemtop q hq, rfl⟩
        have hany : ((sortDesc (scFinal lg fs man inverted query)).take k).any
            (fun p => chunkHasAny inverted (dqOf query) p.1) = true :=
          List.any_eq_true.mpr ⟨q, hq,
            scFinal_keys_hasAny lg fs man inverted query q.1 hqk⟩
        simp [hany]
    rw [hcond] at hret
    simp only [Bool.false_eq_true, if_false] at hret
    injection hret with h
    rw [← h] at hp
    have hp2 : p ∈ scFinal lg fs man inverted query := hmemtop p hp
    have hnd3 : (dkeys (scFinal lg fs man inverted query)).Nodup := by
      unfold scFinal
      exact addPattern_nodup _ _ _ _ _
        (addPresence_nodup _ _ (accumFold_nodup _ _ _ _ (by simp [dkeys])))
    have hg : dget (scFinal lg fs man inverted query) p.1 = some p.2 :=
      dget_eq_some_of_mem _ _ _ hnd3 hp2
    have hv : p.2 = dgetD (scFinal lg fs man inverted query) p.1 0 := by
      simp [dgetD, hg]
    rw [hv, scFinal_get _ _ _ _ _ _ hwf]

theorem c1_amended_witness :
    (22/3 : ℚ) = c1ScoreSpec (fun q => q) (fun _ => none)
      ⟨"r", 0, 0, [("a.txt", "h")], []⟩ [("foo", [("c1", 1)])] "foo" "c1" :=
  c1_amended (fun q => q) (fun _ => none) ⟨"r", 0, 0, [("a.txt", "h")], []⟩
    [("foo", [("c1", 1)])] "foo" 6 [("c1", 22/3)]
    (InvWF_of_entries _ (by decide) (by decide))
    (by simp +decide [retrieve, baseScores, accumFold, idfMap, idfStep,
          idfBoosted, boostStep, addPresence, presenceMap, addPattern,
          candidateCids, patternBonus, sortDesc, insertDesc, chunkHasAny,
          poolScores, buildDocLen, avgdlOf, tokenize, tokenizeAux,
          symbolishIdf, symbolishPresence, dget, dset, dgetD, dmem, dkeys]
        norm_num)
    ("c1", 22/3) (by simp)

end Geist
